import Mathlib

/-!
# Thin-film pressure solver: `SquareThinFilmFDM`

A shallow embedding of `src/src/pressuredistsolver.cpp` (class `SquareThinFilmFDM`) and of
`CSVData::getColumn` / `CSVData::findClosestTimeIndex` of `src/src/csv_reader.hpp`.

* `double` is modelled by an arbitrary linearly ordered field `K` (exact arithmetic); every
  definition is computable and can be evaluated at `K = ℚ`.
* `Eigen::MatrixXd` / `Eigen::VectorXd` are read through their coefficient functions
  `Nat → Nat → K` / `Nat → K`; a write only touches the indices the source writes.
* The grid size `n` and the `int` loop counters are natural numbers. `n - 1` and `n - 2` in loop
  bounds, guards and matrix indices are natural-number subtractions; they agree with the `int`
  expressions whenever `n ≥ 2`, and for `n < 2` no loop body of `solveDirect` runs in either
  reading. The number of unknowns and the indices stored in `Eigen::Triplet` are computed on
  integers, as the source computes them with subtractions (`idx - 1`, `idx - inner_n`).
  `int` overflow is not modelled.
* Eigen's range assertions on coefficient accesses are made explicit in the `...Checked`
  definitions, which return `none` on an access outside the range; the unchecked definitions are
  proved equal to them. Memory exhaustion (`std::bad_alloc`) is not modelled.
* `Eigen::SparseLU` is an external library: it is a parameter (`SparseLU K`) of `solveDirect`, and
  the part of its contract a statement relies on is an explicit hypothesis.
-/

namespace ThinFilm

/-- `Eigen::MatrixXd` (the typedef `SquareThinFilmFDM::Matrix`), as the map `(i, j) ↦ M(i, j)`. -/
abbrev MatrixXd (K : Type) := Nat → Nat → K

/-- `Eigen::VectorXd` (the typedef `SquareThinFilmFDM::Vector`), as the map `i ↦ v(i)`. -/
abbrev VectorXd (K : Type) := Nat → K

/-- The class `SquareThinFilmFDM` of `pressuredistsolver.hpp`: its data members. -/
structure SquareThinFilmFDM (K : Type) where
  n : Nat
  width : K
  height : K
  viscosity : K
  velocity : K
  dx : K
  dy : K
  x : VectorXd K
  y : VectorXd K
  X : MatrixXd K
  Y : MatrixXd K
  P : MatrixXd K
  h : MatrixXd K

/-- `Eigen::Triplet<double>`: one `(row, col, value)` contribution to a sparse matrix. -/
structure Triplet (K : Type) where
  row : Int
  col : Int
  value : K

/-- `Eigen::SparseMatrix<double>` with its dimensions. -/
structure SparseMatrix (K : Type) where
  rows : Nat
  cols : Nat
  coeff : Nat → Nat → K

/-- `Eigen::ComputationInfo`, the status reported by `solver.info()`. -/
inductive ComputationInfo where
  | Success
  | NumericalIssue
  | NoConvergence
  | InvalidInput
  deriving DecidableEq, Repr

/-- `Eigen::SparseLU<SparseMatrix>` (external library), as the three observations `solveDirect`
makes of it: `compute A` is `info()` after `solver.compute(A)`, `solve A b` is the vector returned by
`solver.solve(b)` after that, and `solveInfo A b` is `info()` after the solve. -/
structure SparseLU (K : Type) where
  compute : SparseMatrix K → ComputationInfo
  solve : SparseMatrix K → VectorXd K → VectorXd K
  solveInfo : SparseMatrix K → VectorXd K → ComputationInfo

/-- Loop state of the assembly loop of `solveDirect`: the running counter `idx`, the vector
`triplets` and the right-hand side `b`. -/
structure Assembly (K : Type) where
  idx : Nat
  triplets : List (Triplet K)
  b : VectorXd K

section Generic

variable {K : Type}

/-- `M.row(i).setConstant(v)` on a matrix with `cols` columns. -/
def setRowConstant (M : MatrixXd K) (cols i : Nat) (v : K) : MatrixXd K :=
  fun a b => if a = i ∧ b < cols then v else M a b

/-- `M.col(j).setConstant(v)` on a matrix with `rows` rows. -/
def setColConstant (M : MatrixXd K) (rows j : Nat) (v : K) : MatrixXd K :=
  fun a b => if b = j ∧ a < rows then v else M a b

/-- `M(i, j) = v`. -/
def setCoeff (M : MatrixXd K) (i j : Nat) (v : K) : MatrixXd K :=
  fun a b => if a = i ∧ b = j then v else M a b

end Generic

section Defs

variable {K : Type} [LinearOrderedField K]

/-- `Vector::LinSpaced(size, low, high)` (Eigen): `size` equally spaced values from `low` to
`high`; a vector of size one holds `high`. -/
def LinSpaced (size : Nat) (low high : K) : VectorXd K :=
  fun i => if size = 1 then high else low + (i : K) * ((high - low) / ((size : K) - 1))

/-- `SparseMatrix A(rows, cols); A.setFromTriplets(...)`: entry `(r, c)` is the sum of the values
of all triplets at `(r, c)`. -/
def setFromTriplets (rows cols : Nat) (triplets : List (Triplet K)) : SparseMatrix K :=
  { rows := rows
    cols := cols
    coeff := fun r c =>
      ((triplets.filter (fun t => t.row = (r : Int) ∧ t.col = (c : Int))).map Triplet.value).sum }

/-- The product `A * x`, row `r`. -/
def SparseMatrix.mulVec (A : SparseMatrix K) (x : VectorXd K) (r : Nat) : K :=
  ∑ c in Finset.range A.cols, A.coeff r c * x c

/-- `x` solves `A x = b`. -/
def SparseMatrix.Solves (A : SparseMatrix K) (x b : VectorXd K) : Prop :=
  ∀ r, r < A.rows → A.mulVec x r = b r

/-- `A` is nonsingular: only the zero vector is mapped to zero. -/
def SparseMatrix.Nonsingular (A : SparseMatrix K) : Prop :=
  ∀ x : VectorXd K, A.Solves x (fun _ => 0) → ∀ c, c < A.cols → x c = 0

/-- Contract of `solver.solve(b)` at the system `(A, b)`: when `compute` and `solve` both report
`Success`, the returned vector solves `A x = b`. -/
def SparseLU.SolveSound (lu : SparseLU K) (A : SparseMatrix K) (b : VectorXd K) : Prop :=
  lu.compute A = ComputationInfo.Success → lu.solveInfo A b = ComputationInfo.Success →
    A.Solves (lu.solve A b) b

/-- Contract of `solver.compute(A)` at the matrix `A`: the factorization reports `Success` only
for a nonsingular matrix. -/
def SparseLU.ComputeSound (lu : SparseLU K) (A : SparseMatrix K) : Prop :=
  lu.compute A = ComputationInfo.Success → A.Nonsingular

/-- Contract of the library at the system `(A, b)`: on a nonsingular matrix the factorization and
the solve both report `Success`. -/
def SparseLU.Complete (lu : SparseLU K) (A : SparseMatrix K) (b : VectorXd K) : Prop :=
  A.Nonsingular →
    lu.compute A = ComputationInfo.Success ∧ lu.solveInfo A b = ComputationInfo.Success

/-- An exact LU library for systems with one unknown: `x = b / a`, failure on anything else. -/
def scalarLU : SparseLU K :=
  { compute := fun A =>
      if A.rows = 1 ∧ A.cols = 1 ∧ A.coeff 0 0 ≠ 0 then ComputationInfo.Success
      else ComputationInfo.NumericalIssue
    solve := fun A b => fun _ => b 0 / A.coeff 0 0
    solveInfo := fun A _ =>
      if A.rows = 1 ∧ A.cols = 1 ∧ A.coeff 0 0 ≠ 0 then ComputationInfo.Success
      else ComputationInfo.NumericalIssue }

/-- A library run whose answer is the given vector `x0`, reported as `Success`. -/
def oracleLU (x0 : VectorXd K) : SparseLU K :=
  { compute := fun _ => ComputationInfo.Success
    solve := fun _ _ => x0
    solveInfo := fun _ _ => ComputationInfo.Success }

/-- The contribution of one triplet to row `r` of `A * x`, for `A` with `cols` columns. -/
def tripletTerm (cols r : Nat) (x : VectorXd K) (t : Triplet K) : K :=
  if t.row = (r : Int) ∧ 0 ≤ t.col ∧ t.col < (cols : Int) then t.value * x t.col.toNat else 0

/-- The quadrature weight as the specification words it: `1/4` on a corner (border row and
border column), `1/2` on exactly one of them, `1` otherwise. -/
def quadratureWeight (n i j : Nat) : K :=
  if (i = 0 ∨ i = n - 1) ∧ (j = 0 ∨ j = n - 1) then 1 / 4
  else if (i = 0 ∨ i = n - 1) ∨ (j = 0 ∨ j = n - 1) then 1 / 2
  else 1

namespace SquareThinFilmFDM

/-- `initializeMesh`: the coordinate vectors and the mesh grids `X(i,j) = x(j)`, `Y(i,j) = y(i)`. -/
def initializeMesh (s : SquareThinFilmFDM K) : SquareThinFilmFDM K :=
  let x := LinSpaced s.n 0 s.width
  let y := LinSpaced s.n 0 s.height
  { s with
    x := x
    y := y
    X := fun i j => if i < s.n ∧ j < s.n then x j else 0
    Y := fun i j => if i < s.n ∧ j < s.n then y i else 0 }

/-- `initializeHeight`: `h_func == nullptr` is `none` (uniform 1 mm film), otherwise
`h(i, j) = h_func(x(j), y(i))`. -/
def initializeHeight (s : SquareThinFilmFDM K) (h_func : Option (K → K → K)) :
    SquareThinFilmFDM K :=
  match h_func with
  | none => { s with h := fun i j => if i < s.n ∧ j < s.n then 1 / 1000 else 0 }
  | some f => { s with h := fun i j => if i < s.n ∧ j < s.n then f (s.x j) (s.y i) else 0 }

/-- The constructor `SquareThinFilmFDM::SquareThinFilmFDM`: member initialisers, the spacings,
`initializeMesh()`, `P = Matrix::Zero(n, n)`, `initializeHeight(h_func)`. `n - 1` is the `int`
subtraction converted to `double`. -/
def construct (n : Nat) (side_width side_height : K) (h_func : Option (K → K → K))
    (viscosity velocity : K) : SquareThinFilmFDM K :=
  let s0 : SquareThinFilmFDM K :=
    { n := n
      width := side_width
      height := side_height
      viscosity := viscosity
      velocity := velocity
      dx := side_width / (((n : Int) - 1 : Int) : K)
      dy := side_height / (((n : Int) - 1 : Int) : K)
      x := fun _ => 0
      y := fun _ => 0
      X := fun _ _ => 0
      Y := fun _ _ => 0
      P := fun _ _ => 0
      h := fun _ _ => 0 }
  let s1 := initializeMesh s0
  let s2 := { s1 with P := fun _ _ => 0 }
  initializeHeight s2 h_func

/-- Construction as an operation that may fail: a C++ constructor reports failure by throwing, and
the constructor body has no `throw` and validates nothing, so with a height function that returns
normally the outcome is always the instance built by `construct`. A height function that throws
is covered by `newThrowing`. -/
def new (n : Nat) (side_width side_height : K) (h_func : Option (K → K → K))
    (viscosity velocity : K) : Except String (SquareThinFilmFDM K) :=
  Except.ok (construct n side_width side_height h_func viscosity velocity)

/-- `setEdgeBoundary(p_bottom, p_right, p_top, p_left)`: four edge writes, then the four corners. -/
def setEdgeBoundary (s : SquareThinFilmFDM K) (p_bottom p_right p_top p_left : K) :
    SquareThinFilmFDM K :=
  let P1 := setRowConstant s.P s.n 0 p_bottom
  let P2 := setRowConstant P1 s.n (s.n - 1) p_top
  let P3 := setColConstant P2 s.n 0 p_left
  let P4 := setColConstant P3 s.n (s.n - 1) p_right
  let P5 := setCoeff P4 0 0 ((p_bottom + p_left) / 2)
  let P6 := setCoeff P5 0 (s.n - 1) ((p_bottom + p_right) / 2)
  let P7 := setCoeff P6 (s.n - 1) 0 ((p_top + p_left) / 2)
  let P8 := setCoeff P7 (s.n - 1) (s.n - 1) ((p_top + p_right) / 2)
  { s with P := P8 }

/-- `h3_12mu = h.array().pow(3) / (12.0 * viscosity)`. -/
def h3_12mu (s : SquareThinFilmFDM K) : MatrixXd K :=
  fun i j => s.h i j ^ 3 / (12 * s.viscosity)

/-- The local `dhdx` of `solveDirect`: zero, except the centred difference on columns
`1 ≤ j < n - 1` of every row `i < n`. -/
def dhdx (s : SquareThinFilmFDM K) : MatrixXd K :=
  fun i j =>
    if i < s.n ∧ 1 ≤ j ∧ j < s.n - 1 then (s.h i (j + 1) - s.h i (j - 1)) / (2 * s.dx) else 0

/-- The local `coef_e = h3_e / (dx * dx)` with `h3_e = 0.5 * (h3_12mu(i,j) + h3_12mu(i,j+1))`. -/
def coef_e (s : SquareThinFilmFDM K) (i j : Nat) : K :=
  (1 / 2 * (h3_12mu s i j + h3_12mu s i (j + 1))) / (s.dx * s.dx)

/-- The local `coef_w = h3_w / (dx * dx)` with `h3_w = 0.5 * (h3_12mu(i,j) + h3_12mu(i,j-1))`. -/
def coef_w (s : SquareThinFilmFDM K) (i j : Nat) : K :=
  (1 / 2 * (h3_12mu s i j + h3_12mu s i (j - 1))) / (s.dx * s.dx)

/-- The local `coef_n = h3_n / (dy * dy)` with `h3_n = 0.5 * (h3_12mu(i,j) + h3_12mu(i+1,j))`. -/
def coef_n (s : SquareThinFilmFDM K) (i j : Nat) : K :=
  (1 / 2 * (h3_12mu s i j + h3_12mu s (i + 1) j)) / (s.dy * s.dy)

/-- The local `coef_s = h3_s / (dy * dy)` with `h3_s = 0.5 * (h3_12mu(i,j) + h3_12mu(i-1,j))`. -/
def coef_s (s : SquareThinFilmFDM K) (i j : Nat) : K :=
  (1 / 2 * (h3_12mu s i j + h3_12mu s (i - 1) j)) / (s.dy * s.dy)

/-- The body of the assembly loop of `solveDirect` at interior node `(i, j)`: the diagonal
triplet, the guarded neighbour triplets, the right-hand side with its guarded boundary
contributions, and `idx++`. -/
def assembleNode (s : SquareThinFilmFDM K) (i j : Nat) (st : Assembly K) : Assembly K :=
  let inner_n : Int := (s.n : Int) - 2
  let idx : Int := (st.idx : Int)
  let main_coef := -(coef_e s i j + coef_w s i j + coef_n s i j + coef_s s i j)
  let t0 := st.triplets ++ [⟨idx, idx, main_coef⟩]
  let t1 := if j < s.n - 2 then t0 ++ [⟨idx, idx + 1, coef_e s i j⟩] else t0
  let t2 := if j > 1 then t1 ++ [⟨idx, idx - 1, coef_w s i j⟩] else t1
  let t3 := if i < s.n - 2 then t2 ++ [⟨idx, idx + inner_n, coef_n s i j⟩] else t2
  let t4 := if i > 1 then t3 ++ [⟨idx, idx - inner_n, coef_s s i j⟩] else t3
  let b0 := Function.update st.b st.idx (-6 * s.velocity * s.viscosity * dhdx s i j)
  let b1 := if j = 1 then Function.update b0 st.idx (b0 st.idx - coef_w s i j * s.P i 0) else b0
  let b2 := if j = s.n - 2 then
    Function.update b1 st.idx (b1 st.idx - coef_e s i j * s.P i (s.n - 1)) else b1
  let b3 := if i = 1 then Function.update b2 st.idx (b2 st.idx - coef_s s i j * s.P 0 j) else b2
  let b4 := if i = s.n - 2 then
    Function.update b3 st.idx (b3 st.idx - coef_n s i j * s.P (s.n - 1) j) else b3
  { idx := st.idx + 1, triplets := t4, b := b4 }

/-- The assembly loop of `solveDirect`: `idx = 0`, `b = Vector::Zero`, then
`for i in 1 .. n-2, for j in 1 .. n-2` the node body. -/
def assemble (s : SquareThinFilmFDM K) : Assembly K :=
  (List.range' 1 (s.n - 2)).foldl
    (fun st i => (List.range' 1 (s.n - 2)).foldl (fun st j => assembleNode s i j st) st)
    { idx := 0, triplets := [], b := fun _ => 0 }

/-- The write-back loop of `solveDirect`: `idx = 0`, then for every interior node
`P(i, j) = p_inner(idx); idx++`. The state is the pair `(idx, P)`. -/
def scatter (s : SquareThinFilmFDM K) (p_inner : VectorXd K) : Nat × MatrixXd K :=
  (List.range' 1 (s.n - 2)).foldl
    (fun st i => (List.range' 1 (s.n - 2)).foldl
      (fun st j => (st.1 + 1, setCoeff st.2 i j (p_inner st.1))) st)
    (0, s.P)

/-- The local `n_unknowns = inner_n * inner_n` of `solveDirect`, with `inner_n = n - 2` computed
on `int`. -/
def n_unknowns (s : SquareThinFilmFDM K) : Nat :=
  (((s.n : Int) - 2) * ((s.n : Int) - 2)).toNat

/-- The sparse matrix `A` built by `solveDirect`. -/
def systemMatrix (s : SquareThinFilmFDM K) : SparseMatrix K :=
  setFromTriplets (n_unknowns s) (n_unknowns s) (assemble s).triplets

/-- `solveDirect()`: the returned flag and the solver state after the call. -/
def solveDirect (lu : SparseLU K) (s : SquareThinFilmFDM K) : Bool × SquareThinFilmFDM K :=
  let A := systemMatrix s
  let b := (assemble s).b
  if lu.compute A ≠ ComputationInfo.Success then (false, s)
  else
    let p_inner := lu.solve A b
    if lu.solveInfo A b ≠ ComputationInfo.Success then (false, s)
    else (true, { s with P := (scatter s p_inner).2 })

/-- `calculateTotalForce()`, a `const` member: the accumulation loop over all nodes. -/
def calculateTotalForce (s : SquareThinFilmFDM K) : K :=
  let area_element := s.dx * s.dy
  (List.range s.n).foldl
    (fun total_force i => (List.range s.n).foldl
      (fun total_force j =>
        let area_coef : K := 1
        let area_coef := if i = 0 ∨ i = s.n - 1 then area_coef * (1 / 2) else area_coef
        let area_coef := if j = 0 ∨ j = s.n - 1 then area_coef * (1 / 2) else area_coef
        let modified_area := area_element * area_coef
        total_force + s.P i j * modified_area) total_force)
    0

/-- The triplets the loop body of `assembleNode` emits at node `(i, j)` when the counter is
`idx`. -/
def nodeTriplets (s : SquareThinFilmFDM K) (i j idx : Nat) : List (Triplet K) :=
  [⟨(idx : Int), (idx : Int), -(coef_e s i j + coef_w s i j + coef_n s i j + coef_s s i j)⟩] ++
    (if j < s.n - 2 then [⟨(idx : Int), (idx : Int) + 1, coef_e s i j⟩] else []) ++
    (if j > 1 then [⟨(idx : Int), (idx : Int) - 1, coef_w s i j⟩] else []) ++
    (if i < s.n - 2 then [⟨(idx : Int), (idx : Int) + ((s.n : Int) - 2), coef_n s i j⟩] else []) ++
    (if i > 1 then [⟨(idx : Int), (idx : Int) - ((s.n : Int) - 2), coef_s s i j⟩] else [])

/-- The value the loop body of `assembleNode` leaves in `b(idx)` at node `(i, j)`. -/
def nodeRhs (s : SquareThinFilmFDM K) (i j : Nat) : K :=
  -6 * s.velocity * s.viscosity * dhdx s i j
    - (if j = 1 then coef_w s i j * s.P i 0 else 0)
    - (if j = s.n - 2 then coef_e s i j * s.P i (s.n - 1) else 0)
    - (if i = 1 then coef_s s i j * s.P 0 j else 0)
    - (if i = s.n - 2 then coef_n s i j * s.P (s.n - 1) j else 0)

/-- The five-point operator of `solveDirect` applied to a field `u` at node `(i, j)`. -/
def stencil (s : SquareThinFilmFDM K) (u : MatrixXd K) (i j : Nat) : K :=
  coef_e s i j * (u i (j + 1) - u i j) + coef_w s i j * (u i (j - 1) - u i j) +
    coef_n s i j * (u (i + 1) j - u i j) + coef_s s i j * (u (i - 1) j - u i j)

end SquareThinFilmFDM

end Defs

/-! ### Loop prefixes of `solveDirect` -/

/-- The row-major index of the interior node `(i, j)` among the unknowns. -/
def SquareThinFilmFDM.nodeIdx (n i j : Nat) : Nat := (i - 1) * (n - 2) + (j - 1)

section EntryDefs

variable {K : Type} [LinearOrderedField K]

namespace SquareThinFilmFDM

/-- The state of the assembly loop of `solveDirect` on entry to the body at node `(i, j)`: the
rows `1 .. i-1` are complete and the nodes `(i, 1) .. (i, j-1)` are done. -/
def assembleEntry (s : SquareThinFilmFDM K) (i j : Nat) : Assembly K :=
  (List.range' 1 (j - 1)).foldl (fun st j => assembleNode s i j st)
    ((List.range' 1 (i - 1)).foldl
      (fun st i => (List.range' 1 (s.n - 2)).foldl (fun st j => assembleNode s i j st) st)
      { idx := 0, triplets := [], b := fun _ => 0 })

/-- The state `(idx, P)` of the write-back loop of `solveDirect` on entry to the body at node
`(i, j)`. -/
def scatterEntry (s : SquareThinFilmFDM K) (p_inner : VectorXd K) (i j : Nat) : Nat × MatrixXd K :=
  (List.range' 1 (j - 1)).foldl (fun st j => (st.1 + 1, setCoeff st.2 i j (p_inner st.1)))
    ((List.range' 1 (i - 1)).foldl
      (fun st i => (List.range' 1 (s.n - 2)).foldl
        (fun st j => (st.1 + 1, setCoeff st.2 i j (p_inner st.1))) st)
      (0, s.P))

end SquareThinFilmFDM

end EntryDefs

/-! ### The tabular data of `csv_reader.hpp` -/

/-- `CSVReader::CSVData` of `csv_reader.hpp`; the `std::map` member `columns` is read through its
lookup (`none`: the key is absent). -/
structure CSVReader.CSVData (K : Type) where
  headers : List String
  columns : String → Option (List K)
  num_rows : Nat

section CSVDefs

variable {K : Type} [LinearOrderedField K]

/-- `CSVData::getColumn`: the column, or the `std::runtime_error` thrown when it is absent. -/
def CSVReader.CSVData.getColumn (data : CSVReader.CSVData K) (column_name : String) :
    Except String (List K) :=
  match data.columns column_name with
  | none => Except.error ("Column '" ++ column_name ++ "' not found")
  | some col => Except.ok col

/-- `CSVData::findClosestTimeIndex`: `best_idx = 0`, `min_diff = |time_col[0] - target_time|`,
then for `i = 1 .. size-1` the update `if (diff < min_diff) { min_diff = diff; best_idx = i; }`.
The loop state is the pair `(best_idx, min_diff)`; `time_col[i]` is `getD i 0`. -/
def CSVReader.CSVData.findClosestTimeIndex (data : CSVReader.CSVData K) (time_column : String)
    (target_time : K) : Except String Nat :=
  match data.getColumn time_column with
  | Except.error e => Except.error e
  | Except.ok time_col =>
    Except.ok ((List.range' 1 (time_col.length - 1)).foldl
      (fun (st : Nat × K) i =>
        let diff := |time_col.getD i 0 - target_time|
        if diff < st.2 then (i, diff) else st)
      (0, |time_col.getD 0 0 - target_time|)).1

end CSVDefs

/-! ### `solveDirect` with Eigen's range assertions

Every `M(i, j)` and `v(i)` of `solveDirect` is an Eigen coefficient access, which asserts
`0 <= i < rows` and `0 <= j < cols`; `setFromTriplets` asserts the same of every triplet. The
definitions below repeat the loops of `solveDirect` with these assertions made explicit: an access
outside the range gives `none`. The indices are the `int` expressions of the source. -/

section Checked

variable {K : Type}

/-- The read `M(i, j)` of a `rows x cols` matrix with its range assertion. -/
def readChecked (M : MatrixXd K) (rows cols : Nat) (i j : Int) : Option K :=
  if 0 ≤ i ∧ i < (rows : Int) ∧ 0 ≤ j ∧ j < (cols : Int) then some (M i.toNat j.toNat) else none

/-- The write `M(i, j) = v` on a `rows x cols` matrix with its range assertion. -/
def writeChecked (M : MatrixXd K) (rows cols : Nat) (i j : Int) (v : K) : Option (MatrixXd K) :=
  if 0 ≤ i ∧ i < (rows : Int) ∧ 0 ≤ j ∧ j < (cols : Int) then some (setCoeff M i.toNat j.toNat v)
  else none

/-- The read `v(i)` of a vector of the given size with its range assertion. -/
def readVecChecked (v : VectorXd K) (size : Nat) (i : Int) : Option K :=
  if 0 ≤ i ∧ i < (size : Int) then some (v i.toNat) else none

/-- The write `v(i) = x` on a vector of the given size with its range assertion. -/
def writeVecChecked (v : VectorXd K) (size : Nat) (i : Int) (x : K) : Option (VectorXd K) :=
  if 0 ≤ i ∧ i < (size : Int) then some (Function.update v i.toNat x) else none

end Checked

section CheckedDefs

variable {K : Type} [LinearOrderedField K]

/-- The update `b(idx) -= coef * P(r, c)` with checked accesses: `b` has `size` entries, `P` is
`n x n`. -/
def subChecked (b : VectorXd K) (size : Nat) (idx : Int) (coef : K) (P : MatrixXd K) (n : Nat)
    (r c : Int) : Option (VectorXd K) := do
  let p ← readChecked P n n r c
  let cur ← readVecChecked b size idx
  writeVecChecked b size idx (cur - coef * p)

/-- `A.setFromTriplets(...)` on a `rows x cols` matrix with its assertion that every triplet lies
inside the matrix. -/
def setFromTripletsChecked (rows cols : Nat) (triplets : List (Triplet K)) :
    Option (SparseMatrix K) :=
  if triplets.all (fun t =>
      decide (0 ≤ t.row ∧ t.row < (rows : Int) ∧ 0 ≤ t.col ∧ t.col < (cols : Int)))
  then some (setFromTriplets rows cols triplets) else none

namespace SquareThinFilmFDM

/-- The `dhdx` loop of `solveDirect` (`for i in 0 .. n-1, for j in 1 .. n-2`) with checked
accesses to `h` and `dhdx`, both `n x n`. -/
def dhdxChecked (s : SquareThinFilmFDM K) : Option (MatrixXd K) :=
  (List.range s.n).foldlM
    (fun (dhdx : MatrixXd K) (i : Nat) => (List.range' 1 (s.n - 2)).foldlM
      (fun (dhdx : MatrixXd K) (j : Nat) => do
        let hE ← readChecked s.h s.n s.n (i : Int) ((j : Int) + 1)
        let hW ← readChecked s.h s.n s.n (i : Int) ((j : Int) - 1)
        writeChecked dhdx s.n s.n (i : Int) (j : Int) ((hE - hW) / (2 * s.dx))) dhdx)
    (fun _ _ => 0)

/-- The body of the assembly loop at node `(i, j)` with checked accesses: `h3_12mu`, `dhdx` and
`P` are `n x n`, `b` has `n_unknowns` entries. -/
def assembleNodeChecked (s : SquareThinFilmFDM K) (dhdx : MatrixXd K) (i j : Nat)
    (st : Assembly K) : Option (Assembly K) := do
  let inner_n : Int := (s.n : Int) - 2
  let idx : Int := (st.idx : Int)
  let c ← readChecked (h3_12mu s) s.n s.n (i : Int) (j : Int)
  let cE ← readChecked (h3_12mu s) s.n s.n (i : Int) ((j : Int) + 1)
  let cW ← readChecked (h3_12mu s) s.n s.n (i : Int) ((j : Int) - 1)
  let cN ← readChecked (h3_12mu s) s.n s.n ((i : Int) + 1) (j : Int)
  let cS ← readChecked (h3_12mu s) s.n s.n ((i : Int) - 1) (j : Int)
  let coef_e := (1 / 2 * (c + cE)) / (s.dx * s.dx)
  let coef_w := (1 / 2 * (c + cW)) / (s.dx * s.dx)
  let coef_n := (1 / 2 * (c + cN)) / (s.dy * s.dy)
  let coef_s := (1 / 2 * (c + cS)) / (s.dy * s.dy)
  let main_coef := -(coef_e + coef_w + coef_n + coef_s)
  let t0 := st.triplets ++ [⟨idx, idx, main_coef⟩]
  let t1 := if j < s.n - 2 then t0 ++ [⟨idx, idx + 1, coef_e⟩] else t0
  let t2 := if j > 1 then t1 ++ [⟨idx, idx - 1, coef_w⟩] else t1
  let t3 := if i < s.n - 2 then t2 ++ [⟨idx, idx + inner_n, coef_n⟩] else t2
  let t4 := if i > 1 then t3 ++ [⟨idx, idx - inner_n, coef_s⟩] else t3
  let d ← readChecked dhdx s.n s.n (i : Int) (j : Int)
  let b0 ← writeVecChecked st.b (n_unknowns s) idx (-6 * s.velocity * s.viscosity * d)
  let b1 ← (if j = 1 then
    subChecked b0 (n_unknowns s) idx coef_w s.P s.n (i : Int) 0 else some b0)
  let b2 ← (if j = s.n - 2 then
    subChecked b1 (n_unknowns s) idx coef_e s.P s.n (i : Int) ((s.n : Int) - 1) else some b1)
  let b3 ← (if i = 1 then
    subChecked b2 (n_unknowns s) idx coef_s s.P s.n 0 (j : Int) else some b2)
  let b4 ← (if i = s.n - 2 then
    subChecked b3 (n_unknowns s) idx coef_n s.P s.n ((s.n : Int) - 1) (j : Int) else some b3)
  pure { idx := st.idx + 1, triplets := t4, b := b4 }

/-- The assembly loop of `solveDirect` with checked accesses. -/
def assembleChecked (s : SquareThinFilmFDM K) (dhdx : MatrixXd K) : Option (Assembly K) :=
  (List.range' 1 (s.n - 2)).foldlM
    (fun (st : Assembly K) (i : Nat) => (List.range' 1 (s.n - 2)).foldlM
      (fun (st : Assembly K) (j : Nat) => assembleNodeChecked s dhdx i j st) st)
    { idx := 0, triplets := [], b := fun _ => 0 }

/-- The write-back loop of `solveDirect` with checked accesses: `p_inner` has `n_unknowns`
entries, `P` is `n x n`. -/
def scatterChecked (s : SquareThinFilmFDM K) (p_inner : VectorXd K) : Option (Nat × MatrixXd K) :=
  (List.range' 1 (s.n - 2)).foldlM
    (fun (st : Nat × MatrixXd K) (i : Nat) => (List.range' 1 (s.n - 2)).foldlM
      (fun (st : Nat × MatrixXd K) (j : Nat) => do
        let v ← readVecChecked p_inner (n_unknowns s) (st.1 : Int)
        let P ← writeChecked st.2 s.n s.n (i : Int) (j : Int) v
        pure (st.1 + 1, P)) st)
    (0, s.P)

/-- `solveDirect()` with every coefficient access checked: `none` when some access is out of
range, otherwise the returned flag and the state after the call. -/
def solveDirectChecked (lu : SparseLU K) (s : SquareThinFilmFDM K) :
    Option (Bool × SquareThinFilmFDM K) := do
  let dhdx ← dhdxChecked s
  let asm ← assembleChecked s dhdx
  let A ← setFromTripletsChecked (n_unknowns s) (n_unknowns s) asm.triplets
  if lu.compute A ≠ ComputationInfo.Success then pure (false, s)
  else
    let p_inner := lu.solve A asm.b
    if lu.solveInfo A asm.b ≠ ComputationInfo.Success then pure (false, s)
    else do
      let st ← scatterChecked s p_inner
      pure (true, { s with P := st.2 })

end SquareThinFilmFDM

end CheckedDefs

/-! ### Construction with a height function that may throw -/

section ThrowingDefs

variable {K : Type} [LinearOrderedField K]

namespace SquareThinFilmFDM

/-- `initializeHeight` when the call `h_func(x(j), y(i))` of the `std::function` may throw: the
double loop `for i in 0 .. n-1, for j in 0 .. n-1` stops at the first exception, which escapes.
`h_func == nullptr` is `none`. -/
def initializeHeightThrowing (s : SquareThinFilmFDM K)
    (h_func : Option (K → K → Except String K)) : Except String (SquareThinFilmFDM K) :=
  match h_func with
  | none => Except.ok { s with h := fun i j => if i < s.n ∧ j < s.n then 1 / 1000 else 0 }
  | some f =>
    match (List.range s.n).foldlM
        (fun (h : MatrixXd K) (i : Nat) => (List.range s.n).foldlM
          (fun (h : MatrixXd K) (j : Nat) =>
            match f (s.x j) (s.y i) with
            | Except.error e => Except.error e
            | Except.ok v => Except.ok (setCoeff h i j v)) h)
        (fun _ _ => 0) with
    | Except.error e => Except.error e
    | Except.ok h => Except.ok { s with h := h }

/-- The constructor `SquareThinFilmFDM::SquareThinFilmFDM` as an operation that may fail: the
body has no `throw` and no check of `n`, `side_width` or `side_height`, so the only exception
that can leave it within this model is one thrown by `h_func` inside `initializeHeight`. The
steps are those of `construct`. -/
def newThrowing (n : Nat) (side_width side_height : K)
    (h_func : Option (K → K → Except String K)) (viscosity velocity : K) :
    Except String (SquareThinFilmFDM K) :=
  let s0 : SquareThinFilmFDM K :=
    { n := n
      width := side_width
      height := side_height
      viscosity := viscosity
      velocity := velocity
      dx := side_width / (((n : Int) - 1 : Int) : K)
      dy := side_height / (((n : Int) - 1 : Int) : K)
      x := fun _ => 0
      y := fun _ => 0
      X := fun _ _ => 0
      Y := fun _ _ => 0
      P := fun _ _ => 0
      h := fun _ _ => 0 }
  let s1 := initializeMesh s0
  let s2 := { s1 with P := fun _ _ => 0 }
  initializeHeightThrowing s2 h_func

end SquareThinFilmFDM

end ThrowingDefs

/-! ### Sample solvers (exact rational arithmetic) -/

/-- A 3 x 3 grid on a 2 x 2 domain (`dx = dy = 1`) with the wedge film `h(x, y) = 1 + x`,
viscosity 1 and sliding velocity 1; the pressure field is the initial zero field. -/
def wedgeSolver : SquareThinFilmFDM ℚ :=
  SquareThinFilmFDM.construct 3 2 2 (some (fun x _ => 1 + x)) 1 1

/-- A 5 x 5 grid on a 4 x 4 domain (`dx = dy = 1`) whose film is 1 everywhere except for the
value 2 at the centre `(x, y) = (2, 2)`, viscosity `1/12`, sliding velocity 1, all four edges at
pressure 0. The film is invariant under the rotation `(i, j) ↦ (j, 4 - i)`. -/
def bumpSolver : SquareThinFilmFDM ℚ :=
  (SquareThinFilmFDM.construct 5 4 4 (some (fun x y => if x = 2 ∧ y = 2 then 2 else 1))
    (1 / 12) 1).setEdgeBoundary 0 0 0 0

/-- The library answer for `bumpSolver`, in the row-major order of the interior nodes. -/
def bumpAnswer : VectorXd ℚ :=
  fun k => if k = 0 ∨ k = 6 then 1 / 112 else if k = 2 ∨ k = 8 then -(1 / 112)
    else if k = 3 then 1 / 28 else if k = 5 then -(1 / 28) else 0

/-- The end-to-end scenario of the specification: `n = 5`, `width = height = 1`, the default
uniform film `0.001`, viscosity `0.01`, velocity 0. -/
def scenarioSolver : SquareThinFilmFDM ℚ :=
  SquareThinFilmFDM.construct 5 1 1 none (1 / 100) 0

/-- The library answer for `scenarioSolver` with `bottom = 200` and the other edges at 0, in the
row-major order of the interior nodes. -/
def scenarioAnswer : VectorXd ℚ :=
  fun k => if k = 0 ∨ k = 2 then 600 / 7 else if k = 1 then 1475 / 14
    else if k = 3 ∨ k = 5 then 75 / 2 else if k = 4 then 50
    else if k = 6 ∨ k = 8 then 100 / 7 else if k = 7 then 275 / 14 else 0

/-- A 3 x 3 grid on a 2 x 2 domain (`dx = dy = 1`) whose film is 1 everywhere except for the
value 0 at the single interior node `(x, y) = (1, 1)`; viscosity 1, velocity 0. -/
def pinholeSolver : SquareThinFilmFDM ℚ :=
  SquareThinFilmFDM.construct 3 2 2 (some (fun x y => if x = 1 ∧ y = 1 then 0 else 1)) 1 0

/-- A 3 x 3 grid on a 2 x 2 domain whose film is 0 at every node; viscosity 1, velocity 0. -/
def drySolver : SquareThinFilmFDM ℚ :=
  SquareThinFilmFDM.construct 3 2 2 (some (fun _ _ => 0)) 1 0

/-- A table with the single column `simulation_time = 1, 3, 5, 3`. -/
def sampleTimes : CSVReader.CSVData ℚ :=
  { headers := ["simulation_time"]
    columns := fun name => if name = "simulation_time" then some [1, 3, 5, 3] else none
    num_rows := 4 }

/-- A height function that throws where `x = -1` and returns 1 elsewhere. -/
def brittleFilm : ℚ → ℚ → Except String ℚ :=
  fun x _ => if x = -1 then Except.error "film undefined" else Except.ok 1

/-! ## Proofs -/

section GenericProofs

variable {K : Type}

namespace SquareThinFilmFDM

/-- Two loop states with equal components are equal. -/
theorem Assembly_eq {st st' : Assembly K} (h1 : st.idx = st'.idx)
    (h2 : st.triplets = st'.triplets) (h3 : st.b = st'.b) : st = st' := by
  cases st; cases st'; simp_all

/-- One row of the write-back loop: `k` steps of `P(i, j) = p_inner(idx); idx++`. -/
theorem scatter_row (p_inner : VectorXd K) (i k : Nat) (st : Nat × MatrixXd K) :
    (List.range' 1 k).foldl (fun st j => (st.1 + 1, setCoeff st.2 i j (p_inner st.1))) st =
      (st.1 + k, fun a b =>
        if a = i ∧ 1 ≤ b ∧ b ≤ k then p_inner (st.1 + (b - 1)) else st.2 a b) := by
  induction k with
  | zero =>
    ext a b
    · simp
    · simp only [List.range'_zero, List.foldl_nil]
      rw [if_neg (by omega)]
  | succ k ih =>
    rw [List.range'_1_concat, List.foldl_append, ih]
    ext a b
    · simp only [List.foldl_cons, List.foldl_nil]; omega
    · simp only [List.foldl_cons, List.foldl_nil, setCoeff]
      by_cases hb : a = i ∧ b = 1 + k
      · rw [if_pos hb, if_pos (by omega)]
        congr 1; omega
      · rw [if_neg hb]
        by_cases hc : a = i ∧ 1 ≤ b ∧ b ≤ k
        · rw [if_pos hc, if_pos (by omega)]
        · rw [if_neg hc, if_neg (by omega)]

/-- The write-back loop after `p` complete rows of length `m`. -/
theorem scatter_rows (p_inner : VectorXd K) (m p : Nat) (P : MatrixXd K) :
    (List.range' 1 p).foldl
      (fun st i => (List.range' 1 m).foldl
        (fun st j => (st.1 + 1, setCoeff st.2 i j (p_inner st.1))) st) (0, P) =
      (p * m, fun a b =>
        if 1 ≤ a ∧ a ≤ p ∧ 1 ≤ b ∧ b ≤ m then p_inner ((a - 1) * m + (b - 1)) else P a b) := by
  induction p with
  | zero =>
    ext a b
    · simp
    · simp only [List.range'_zero, List.foldl_nil]
      rw [if_neg (by omega)]
  | succ p ih =>
    rw [List.range'_1_concat, List.foldl_append, ih]
    simp only [List.foldl_cons, List.foldl_nil, scatter_row]
    ext a b
    · simp only; ring
    · simp only
      by_cases hb : a = 1 + p ∧ 1 ≤ b ∧ b ≤ m
      · rw [if_pos hb, if_pos (by omega)]
        obtain ⟨rfl, -, -⟩ := hb
        simp
      · rw [if_neg hb]
        by_cases hc : 1 ≤ a ∧ a ≤ p ∧ 1 ≤ b ∧ b ≤ m
        · rw [if_pos hc, if_pos (by omega)]
        · rw [if_neg hc, if_neg (by omega)]

/-- Closed form of the write-back: interior node `(i, j)` receives `p_inner((i-1)(n-2) + (j-1))`,
every other entry keeps its value. -/
theorem scatter_apply (s : SquareThinFilmFDM K) (p_inner : VectorXd K) (i j : Nat) :
    (scatter s p_inner).2 i j =
      if 1 ≤ i ∧ i ≤ s.n - 2 ∧ 1 ≤ j ∧ j ≤ s.n - 2
      then p_inner ((i - 1) * (s.n - 2) + (j - 1)) else s.P i j := by
  simp only [scatter, scatter_rows]

/-- Index arithmetic of the interior block: bounds on `a * m + q` for `a, q < m`. -/
theorem idx_bounds (m a : Nat) (ha : a < m) :
    a * m + m ≤ m * m ∧ (a + 1 < m → a * m + 2 * m ≤ m * m) ∧ (1 ≤ a → m ≤ a * m) := by
  refine ⟨?_, ?_, ?_⟩
  · calc a * m + m = (a + 1) * m := by ring
      _ ≤ m * m := Nat.mul_le_mul_right _ ha
  · intro h
    calc a * m + 2 * m = (a + 2) * m := by ring
      _ ≤ m * m := Nat.mul_le_mul_right _ h
  · intro h
    calc m = 1 * m := by ring
      _ ≤ a * m := Nat.mul_le_mul_right _ h

/-- Writing the constant vector into a field whose border is constant gives a constant field. -/
theorem scatter_const (s : SquareThinFilmFDM K) (p0 : K)
    (hb : ∀ i j, i < s.n → j < s.n → (i = 0 ∨ i = s.n - 1 ∨ j = 0 ∨ j = s.n - 1) → s.P i j = p0)
    (x : VectorXd K) (hx : ∀ c, c < (s.n - 2) * (s.n - 2) → x c = p0)
    (a b : Nat) (ha : a < s.n) (hb' : b < s.n) : (scatter s x).2 a b = p0 := by
  rw [scatter_apply]
  by_cases hin : 1 ≤ a ∧ a ≤ s.n - 2 ∧ 1 ≤ b ∧ b ≤ s.n - 2
  · rw [if_pos hin]
    apply hx
    have := (idx_bounds (s.n - 2) (a - 1) (by omega)).1
    omega
  · rw [if_neg hin]
    exact hb a b ha hb' (by omega)

/-- For `n ≥ 2` the number of unknowns is `(n - 2)^2`. -/
theorem n_unknowns_eq (s : SquareThinFilmFDM K) (hn : 2 ≤ s.n) :
    n_unknowns s = (s.n - 2) * (s.n - 2) := by
  unfold n_unknowns
  have h : (s.n : Int) - 2 = ((s.n - 2 : Nat) : Int) := by omega
  rw [h, ← Nat.cast_mul, Int.toNat_natCast]

/-- The running counter on entry to node `(i, j)` of the write-back loop. -/
theorem scatterEntry_idx (s : SquareThinFilmFDM K) (p_inner : VectorXd K) (i j : Nat) :
    (scatterEntry s p_inner i j).1 = (i - 1) * (s.n - 2) + (j - 1) := by
  unfold scatterEntry
  rw [scatter_rows, scatter_row]

/-- The write-back touches the interior of the grid only. -/
theorem scatter_outside (s : SquareThinFilmFDM K) (p_inner : VectorXd K) (i j : Nat)
    (h : ¬ (1 ≤ i ∧ i ≤ s.n - 2 ∧ 1 ≤ j ∧ j ≤ s.n - 2)) : (scatter s p_inner).2 i j = s.P i j := by
  rw [scatter_apply, if_neg h]

end SquareThinFilmFDM

/-! ### Checked loops -/

/-- A loop whose every step returns normally returns the result of the loop of the values. -/
theorem foldlM_ok_of {α ε : Type} (f : α → Nat → Except ε α) (g : α → Nat → α) (l : List Nat)
    (h : ∀ a j, j ∈ l → f a j = Except.ok (g a j)) (b : α) :
    l.foldlM f b = Except.ok (l.foldl g b) := by
  induction l generalizing b with
  | nil => rfl
  | cons a l ih =>
    rw [List.foldlM_cons, h b a (List.mem_cons_self a l), List.foldl_cons]
    exact ih (fun a' j hj => h a' j (List.mem_cons_of_mem a hj)) (g b a)

/-- A loop that returns normally has passed every step normally. -/
theorem foldlM_ok_imp {α ε : Type} (f : α → Nat → Except ε α) (P : Nat → Prop) (l : List Nat)
    (h : ∀ a j x, f a j = Except.ok x → P j) (b x : α) (hx : l.foldlM f b = Except.ok x) :
    ∀ j, j ∈ l → P j := by
  induction l generalizing b with
  | nil =>
    intro j hj
    cases hj
  | cons a l ih =>
    rw [List.foldlM_cons] at hx
    cases hfa : f b a with
    | error e =>
      rw [hfa] at hx
      cases hx
    | ok y =>
      rw [hfa] at hx
      intro j hj
      rcases List.mem_cons.mp hj with rfl | hj
      · exact h b _ y hfa
      · exact ih y hx j hj

/-- A row of writes `M(i, j) = v j` for `j = 0 .. k-1`. -/
theorem fill_row_zero (v : Nat → K) (i k : Nat) (M : MatrixXd K) :
    (List.range k).foldl (fun M j => setCoeff M i j (v j)) M =
      fun a b => if a = i ∧ b < k then v b else M a b := by
  induction k with
  | zero =>
    ext a b
    simp
  | succ k ih =>
    rw [List.range_succ, List.foldl_append, ih]
    ext a b
    simp only [List.foldl_cons, List.foldl_nil, setCoeff]
    by_cases h1 : a = i ∧ b = k
    · rw [if_pos h1, if_pos ⟨h1.1, by omega⟩, h1.2]
    · rw [if_neg h1]
      by_cases h2 : a = i ∧ b < k
      · rw [if_pos h2, if_pos ⟨h2.1, by omega⟩]
      · rw [if_neg h2, if_neg (by omega)]

/-- The rows `0 .. p-1` of writes `M(i, j) = v i j` for `j = 0 .. m-1`. -/
theorem fill_grid (v : Nat → Nat → K) (p m : Nat) (M : MatrixXd K) :
    (List.range p).foldl
      (fun M i => (List.range m).foldl (fun M j => setCoeff M i j (v i j)) M) M =
      fun a b => if a < p ∧ b < m then v a b else M a b := by
  induction p with
  | zero =>
    ext a b
    simp
  | succ p ih =>
    rw [List.range_succ, List.foldl_append, ih]
    simp only [List.foldl_cons, List.foldl_nil]
    rw [fill_row_zero (v p) p m]
    ext a b
    by_cases h1 : a = p ∧ b < m
    · rw [if_pos h1, if_pos ⟨by omega, h1.2⟩, h1.1]
    · rw [if_neg h1]
      by_cases h2 : a < p ∧ b < m
      · rw [if_pos h2, if_pos ⟨by omega, h2.2⟩]
      · rw [if_neg h2, if_neg (by omega)]

/-- A checked loop over `s0 .. s0 + m - 1` whose every step succeeds with the value of the
unchecked step returns the result of the unchecked loop. -/
theorem foldlM_range'_some {α : Type} (f : α → Nat → Option α) (g : α → Nat → α)
    (s0 m : Nat) (b : α)
    (h : ∀ k, k < m → f ((List.range' s0 k).foldl g b) (s0 + k)
      = some (g ((List.range' s0 k).foldl g b) (s0 + k))) :
    (List.range' s0 m).foldlM f b = some ((List.range' s0 m).foldl g b) := by
  induction m with
  | zero => rfl
  | succ m ih =>
    rw [List.range'_1_concat, List.foldlM_append, ih (fun k hk => h k (by omega)),
      List.foldl_append]
    simp only [Option.bind_eq_bind, Option.some_bind, List.foldlM_cons, List.foldlM_nil,
      List.foldl_cons, List.foldl_nil, h m (by omega), Option.pure_def, Option.bind_some]

/-- A conditional between two successful results is a successful result. -/
theorem ite_some_some {α : Type} (c : Prop) [Decidable c] (a b : α) :
    (if c then some a else some b) = some (if c then a else b) := by
  split_ifs <;> rfl

theorem readChecked_nat (M : MatrixXd K) (rows cols a b : Nat) (ha : a < rows) (hb : b < cols) :
    readChecked M rows cols (a : Int) (b : Int) = some (M a b) := by
  unfold readChecked
  rw [if_pos ⟨by omega, by omega, by omega, by omega⟩]
  rfl

theorem writeChecked_nat (M : MatrixXd K) (rows cols a b : Nat) (v : K) (ha : a < rows)
    (hb : b < cols) :
    writeChecked M rows cols (a : Int) (b : Int) v = some (setCoeff M a b v) := by
  unfold writeChecked
  rw [if_pos ⟨by omega, by omega, by omega, by omega⟩]
  rfl

theorem readVecChecked_nat (v : VectorXd K) (size a : Nat) (ha : a < size) :
    readVecChecked v size (a : Int) = some (v a) := by
  unfold readVecChecked
  rw [if_pos ⟨by omega, by omega⟩]
  rfl

theorem writeVecChecked_nat (v : VectorXd K) (size a : Nat) (x : K) (ha : a < size) :
    writeVecChecked v size (a : Int) x = some (Function.update v a x) := by
  unfold writeVecChecked
  rw [if_pos ⟨by omega, by omega⟩]
  rfl

/-- A row of writes `M(i, j) = v j` for `j = 1 .. k`. -/
theorem fill_row (v : Nat → K) (i k : Nat) (M : MatrixXd K) :
    (List.range' 1 k).foldl (fun M j => setCoeff M i j (v j)) M =
      fun a b => if a = i ∧ 1 ≤ b ∧ b ≤ k then v b else M a b := by
  induction k with
  | zero =>
    ext a b
    simp only [List.range'_zero, List.foldl_nil]
    rw [if_neg (by omega)]
  | succ k ih =>
    rw [List.range'_1_concat, List.foldl_append, ih]
    ext a b
    simp only [List.foldl_cons, List.foldl_nil, setCoeff]
    by_cases h1 : a = i ∧ b = 1 + k
    · rw [if_pos h1, if_pos ⟨h1.1, by omega, by omega⟩, h1.2]
    · rw [if_neg h1]
      by_cases h2 : a = i ∧ 1 ≤ b ∧ b ≤ k
      · rw [if_pos h2, if_pos ⟨h2.1, h2.2.1, by omega⟩]
      · rw [if_neg h2, if_neg (by omega)]

/-- The rows `0 .. p-1` of writes `M(i, j) = v i j` for `j = 1 .. m`. -/
theorem fill_rows (v : Nat → Nat → K) (p m : Nat) (M : MatrixXd K) :
    (List.range p).foldl
      (fun M i => (List.range' 1 m).foldl (fun M j => setCoeff M i j (v i j)) M) M =
      fun a b => if a < p ∧ 1 ≤ b ∧ b ≤ m then v a b else M a b := by
  induction p with
  | zero =>
    ext a b
    simp
  | succ p ih =>
    rw [List.range_succ, List.foldl_append, ih]
    simp only [List.foldl_cons, List.foldl_nil]
    rw [fill_row (v p) p m]
    ext a b
    by_cases h1 : a = p ∧ 1 ≤ b ∧ b ≤ m
    · rw [if_pos h1, if_pos ⟨by omega, h1.2⟩, h1.1]
    · rw [if_neg h1]
      by_cases h2 : a < p ∧ 1 ≤ b ∧ b ≤ m
      · rw [if_pos h2, if_pos ⟨by omega, h2.2⟩]
      · rw [if_neg h2, if_neg (by omega)]

/-- A loop over `1 .. m` is the loop over `1 .. j-1` followed by the loop over `j .. m`. -/
theorem foldl_range'_split {α : Type} (f : α → Nat → α) (b : α) (m j : Nat) (hj1 : 1 ≤ j)
    (hj2 : j ≤ m) :
    (List.range' 1 m).foldl f b =
      (List.range' j (m + 1 - j)).foldl f ((List.range' 1 (j - 1)).foldl f b) := by
  have h := List.range'_append 1 (j - 1) (m + 1 - j) 1
  rw [show 1 + 1 * (j - 1) = j by omega, show m + 1 - j + (j - 1) = m by omega] at h
  rw [← h, List.foldl_append]

/-- The state of a nested loop over `1 .. m` times `1 .. m` when it is cut on entry to the step
`(i, j)`: the loop is the remaining steps of row `i` and the rows after `i`, run from the state
reached by the rows before `i` and the steps before `j` of row `i`. -/
theorem nested_foldl_split {α : Type} (g : Nat → α → Nat → α) (b : α) (m i j : Nat)
    (hi1 : 1 ≤ i) (hi2 : i ≤ m) (hj1 : 1 ≤ j) (hj2 : j ≤ m) :
    (List.range' 1 m).foldl (fun st i => (List.range' 1 m).foldl (g i) st) b =
      (List.range' (i + 1) (m - i)).foldl (fun st i => (List.range' 1 m).foldl (g i) st)
        ((List.range' j (m + 1 - j)).foldl (g i)
          ((List.range' 1 (j - 1)).foldl (g i)
            ((List.range' 1 (i - 1)).foldl
              (fun st i => (List.range' 1 m).foldl (g i) st) b))) := by
  rw [foldl_range'_split _ b m i hi1 hi2, show m + 1 - i = (m - i) + 1 by omega,
    List.range'_succ, List.foldl_cons, foldl_range'_split (g i) _ m j hj1 hj2]

namespace SquareThinFilmFDM

/-- The checked write-back loop never leaves a range and computes what `scatter` computes. -/
theorem scatterChecked_eq (s : SquareThinFilmFDM K) (p_inner : VectorXd K) (hn : 2 ≤ s.n) :
    scatterChecked s p_inner = some (scatter s p_inner) := by
  unfold scatterChecked scatter
  apply foldlM_range'_some
  intro p hp
  apply foldlM_range'_some
  intro k hk
  have hst : ((List.range' 1 k).foldl
      (fun st j => (st.1 + 1, setCoeff st.2 (1 + p) j (p_inner st.1)))
      ((List.range' 1 p).foldl
        (fun st i => (List.range' 1 (s.n - 2)).foldl
          (fun st j => (st.1 + 1, setCoeff st.2 i j (p_inner st.1))) st) (0, s.P))).1
      = p * (s.n - 2) + k := by
    rw [scatter_row, scatter_rows]
  have hlt : p * (s.n - 2) + k < n_unknowns s := by
    rw [n_unknowns_eq s hn]
    have := (idx_bounds (s.n - 2) p hp).1
    omega
  rw [readVecChecked_nat _ _ _ (by rw [hst]; exact hlt)]
  simp only [Option.bind_eq_bind, Option.some_bind]
  rw [writeChecked_nat _ s.n s.n (1 + p) (1 + k) _ (by omega) (by omega)]
  rfl


/-- The write-back loop is the continuation of its state on entry to node `(i, j)`. -/
theorem scatter_from_entry (s : SquareThinFilmFDM K) (p_inner : VectorXd K) (i j : Nat)
    (hi1 : 1 ≤ i) (hi2 : i ≤ s.n - 2) (hj1 : 1 ≤ j) (hj2 : j ≤ s.n - 2) :
    scatter s p_inner =
      (List.range' (i + 1) (s.n - 2 - i)).foldl
        (fun st i => (List.range' 1 (s.n - 2)).foldl
          (fun st j => (st.1 + 1, setCoeff st.2 i j (p_inner st.1))) st)
        ((List.range' j (s.n - 2 + 1 - j)).foldl
          (fun st j => (st.1 + 1, setCoeff st.2 i j (p_inner st.1)))
          (scatterEntry s p_inner i j)) :=
  nested_foldl_split (fun i st j => (st.1 + 1, setCoeff st.2 i j (p_inner st.1))) (0, s.P)
    (s.n - 2) i j hi1 hi2 hj1 hj2

end SquareThinFilmFDM

end GenericProofs

section Proofs

variable {K : Type} [LinearOrderedField K]

/-- A running sum over `0 .. n-1` is the initial value plus the finite sum. -/
theorem foldl_range_add (f : Nat → K) (a : K) (n : Nat) :
    (List.range n).foldl (fun acc i => acc + f i) a = a + ∑ i in Finset.range n, f i := by
  induction n with
  | zero => simp
  | succ k ih =>
    rw [List.range_succ, List.foldl_append, ih, Finset.sum_range_succ]
    simp [add_assoc]

/-- The one-dimensional trapezoid weights `1/2, 1, ..., 1, 1/2` sum to `n - 1`. -/
theorem sum_edgeWeight (n : Nat) (hn : 2 ≤ n) :
    ∑ i in Finset.range n, (if i = 0 ∨ i = n - 1 then (1 / 2 : K) else 1) = (n : K) - 1 := by
  obtain ⟨k, rfl⟩ : ∃ k, n = k + 2 := ⟨n - 2, by omega⟩
  rw [Finset.sum_range_succ, Finset.sum_range_succ']
  have hmid : ∀ i ∈ Finset.range k,
      (if i + 1 = 0 ∨ i + 1 = k + 2 - 1 then (1 / 2 : K) else 1) = 1 := by
    intro i hi
    rw [Finset.mem_range] at hi
    rw [if_neg (by omega)]
  rw [Finset.sum_congr rfl hmid]
  simp
  ring

namespace SquareThinFilmFDM

theorem calculateTotalForce_eq_sum (s : SquareThinFilmFDM K) :
    s.calculateTotalForce = ∑ i in Finset.range s.n, ∑ j in Finset.range s.n,
      s.P i j * (s.dx * s.dy * ((if i = 0 ∨ i = s.n - 1 then (1 / 2 : K) else 1) *
        (if j = 0 ∨ j = s.n - 1 then (1 / 2 : K) else 1))) := by
  simp only [calculateTotalForce, foldl_range_add, zero_add]
  refine Finset.sum_congr rfl (fun i _ => Finset.sum_congr rfl (fun j _ => ?_))
  split_ifs <;> ring

theorem assembleNode_idx (s : SquareThinFilmFDM K) (i j : Nat) (st : Assembly K) :
    (assembleNode s i j st).idx = st.idx + 1 := rfl

theorem assembleNode_triplets (s : SquareThinFilmFDM K) (i j : Nat) (st : Assembly K) :
    (assembleNode s i j st).triplets = st.triplets ++ nodeTriplets s i j st.idx := by
  simp only [assembleNode, nodeTriplets]
  split_ifs <;> simp

theorem assembleNode_b (s : SquareThinFilmFDM K) (i j : Nat) (st : Assembly K) :
    (assembleNode s i j st).b = Function.update st.b st.idx (nodeRhs s i j) := by
  simp only [assembleNode, nodeRhs]
  split_ifs <;> simp [Function.update_idem, sub_eq_add_neg]

/-- One row of the assembly loop: `k` nodes `(i, 1), ..., (i, k)`. -/
theorem assemble_row (s : SquareThinFilmFDM K) (i k : Nat) (st : Assembly K) :
    (List.range' 1 k).foldl (fun st j => assembleNode s i j st) st =
      { idx := st.idx + k
        triplets := st.triplets ++
          (List.range k).flatMap (fun q => nodeTriplets s i (q + 1) (st.idx + q))
        b := fun r =>
          if st.idx ≤ r ∧ r < st.idx + k then nodeRhs s i (r - st.idx + 1) else st.b r } := by
  induction k with
  | zero =>
    refine Assembly_eq rfl (by simp) ?_
    funext r
    simp only [List.range'_zero, List.foldl_nil]
    rw [if_neg (by omega)]
  | succ k ih =>
    rw [List.range'_1_concat, List.foldl_append, ih]
    simp only [List.foldl_cons, List.foldl_nil]
    refine Assembly_eq ?_ ?_ ?_
    · simp only [assembleNode_idx]; omega
    · simp only [assembleNode_triplets, List.range_succ, List.flatMap_append,
        List.flatMap_singleton, List.append_assoc]
      rw [add_comm 1 k]
    · rw [assembleNode_b]
      funext r
      simp only [Function.update_apply]
      by_cases hr : r = st.idx + k
      · rw [if_pos hr, if_pos (by omega)]
        congr 1; omega
      · rw [if_neg hr]
        by_cases hc : st.idx ≤ r ∧ r < st.idx + k
        · rw [if_pos hc, if_pos (by omega)]
        · rw [if_neg hc, if_neg (by omega)]

theorem div_mod_of_row (m p r : Nat) (h1 : p * m ≤ r) (h2 : r < p * m + m) :
    r / m = p ∧ r % m = r - p * m := by
  have hd : r / m = p := Nat.div_eq_of_lt_le h1 (by rw [Nat.succ_mul]; exact h2)
  refine ⟨hd, ?_⟩
  have := Nat.div_add_mod r m
  rw [hd, Nat.mul_comm] at this
  omega

/-- The assembly loop after `p` complete rows of length `m`. -/
theorem assemble_rows (s : SquareThinFilmFDM K) (m p : Nat) :
    (List.range' 1 p).foldl
      (fun st i => (List.range' 1 m).foldl (fun st j => assembleNode s i j st) st)
      { idx := 0, triplets := [], b := fun _ => 0 } =
      { idx := p * m
        triplets := (List.range p).flatMap (fun a =>
          (List.range m).flatMap (fun q => nodeTriplets s (a + 1) (q + 1) (a * m + q)))
        b := fun r => if r < p * m then nodeRhs s (r / m + 1) (r % m + 1) else 0 } := by
  induction p with
  | zero =>
    refine Assembly_eq (by simp) (by simp) ?_
    funext r
    simp
  | succ p ih =>
    rw [List.range'_1_concat, List.foldl_append, ih]
    simp only [List.foldl_cons, List.foldl_nil, assemble_row]
    refine Assembly_eq ?_ ?_ ?_
    · simp only; ring
    · simp only [List.nil_append, List.range_succ, List.flatMap_append, List.flatMap_singleton,
        List.flatMap_nil, List.append_nil, add_comm 1 p]
    · funext r
      simp only
      by_cases hc : p * m ≤ r ∧ r < p * m + m
      · obtain ⟨hd, hm⟩ := div_mod_of_row m p r hc.1 hc.2
        rw [if_pos hc, if_pos (by rw [Nat.succ_mul]; exact hc.2), hd, hm, add_comm 1 p]
      · rw [if_neg hc]
        by_cases hr : r < p * m
        · rw [if_pos hr, if_pos (by rw [Nat.succ_mul]; omega)]
        · rw [if_neg hr, if_neg (by rw [Nat.succ_mul]; omega)]

theorem assemble_idx (s : SquareThinFilmFDM K) : (assemble s).idx = (s.n - 2) * (s.n - 2) := by
  simp only [assemble, assemble_rows]

theorem assemble_triplets (s : SquareThinFilmFDM K) :
    (assemble s).triplets = (List.range (s.n - 2)).flatMap (fun a =>
      (List.range (s.n - 2)).flatMap (fun q =>
        nodeTriplets s (a + 1) (q + 1) (a * (s.n - 2) + q))) := by
  simp only [assemble, assemble_rows]

theorem assemble_b (s : SquareThinFilmFDM K) (a q : Nat) (ha : a < s.n - 2) (hq : q < s.n - 2) :
    (assemble s).b (a * (s.n - 2) + q) = nodeRhs s (a + 1) (q + 1) := by
  simp only [assemble, assemble_rows]
  obtain ⟨hd, hm⟩ := div_mod_of_row (s.n - 2) a (a * (s.n - 2) + q) (by omega) (by omega)
  have hlt : a * (s.n - 2) + q < (s.n - 2) * (s.n - 2) := by
    calc a * (s.n - 2) + q < a * (s.n - 2) + (s.n - 2) := by omega
      _ = (a + 1) * (s.n - 2) := by ring
      _ ≤ (s.n - 2) * (s.n - 2) := Nat.mul_le_mul_right _ ha
  rw [if_pos hlt, hd, hm]
  congr 2
  omega

end SquareThinFilmFDM

theorem setFromTriplets_coeff_cons (rows cols : Nat) (t : Triplet K) (T : List (Triplet K))
    (r c : Nat) :
    (setFromTriplets rows cols (t :: T)).coeff r c =
      (if t.row = (r : Int) ∧ t.col = (c : Int) then t.value else 0) +
        (setFromTriplets rows cols T).coeff r c := by
  simp only [setFromTriplets, List.filter_cons]
  by_cases h : t.row = (r : Int) ∧ t.col = (c : Int)
  · simp [h]
  · simp [h]

theorem sum_single_col (cols : Nat) (x : VectorXd K) (t : Triplet K) (r : Nat) :
    ∑ c in Finset.range cols,
        (if t.row = (r : Int) ∧ t.col = (c : Int) then t.value else 0) * x c =
      tripletTerm cols r x t := by
  unfold tripletTerm
  by_cases h : t.row = (r : Int) ∧ 0 ≤ t.col ∧ t.col < (cols : Int)
  · rw [if_pos h]
    obtain ⟨h1, h2, h3⟩ := h
    rw [Finset.sum_eq_single t.col.toNat]
    · rw [if_pos ⟨h1, by omega⟩]
    · intro c _ hc
      rw [if_neg (by omega), zero_mul]
    · intro hc
      exact absurd (Finset.mem_range.mpr (by omega)) hc
  · rw [if_neg h]
    refine Finset.sum_eq_zero (fun c hc => ?_)
    rw [Finset.mem_range] at hc
    rw [if_neg (by omega), zero_mul]

/-- Row `r` of `A * x` for `A = setFromTriplets`: the sum of the triplet contributions. -/
theorem setFromTriplets_mulVec (rows cols : Nat) (T : List (Triplet K)) (x : VectorXd K)
    (r : Nat) :
    (setFromTriplets rows cols T).mulVec x r = (T.map (tripletTerm cols r x)).sum := by
  induction T with
  | nil => simp [SparseMatrix.mulVec, setFromTriplets]
  | cons t T ih =>
    have hc : (setFromTriplets rows cols (t :: T)).cols = cols := rfl
    have hc' : (setFromTriplets rows cols T).cols = cols := rfl
    simp only [SparseMatrix.mulVec, hc, hc'] at ih ⊢
    simp only [setFromTriplets_coeff_cons, add_mul, Finset.sum_add_distrib, ih, sum_single_col,
      List.map_cons, List.sum_cons]

theorem sum_map_flatMap {α β : Type} (g : β → K) (f : α → List β) (l : List α) :
    ((l.flatMap f).map g).sum = (l.map (fun a => ((f a).map g).sum)).sum := by
  induction l with
  | nil => simp
  | cons a l ih => simp [List.flatMap_cons, ih]

theorem sum_map_range_single (F : Nat → K) (m a0 : Nat) (h0 : a0 < m)
    (hF : ∀ a, a < m → a ≠ a0 → F a = 0) : ((List.range m).map F).sum = F a0 := by
  have h : ((List.range m).map F).sum = ∑ a in Finset.range m, F a := by
    clear hF h0
    induction m with
    | zero => simp
    | succ k ih => rw [List.range_succ, List.map_append, List.sum_append, ih,
        Finset.sum_range_succ]; simp
  rw [h, Finset.sum_eq_single a0]
  · intro a ha hne
    exact hF a (Finset.mem_range.mp ha) hne
  · intro hc
    exact absurd (Finset.mem_range.mpr h0) hc

theorem tripletTerm_at (cols r : Nat) (x : VectorXd K) (col : Int) (v : K) (c : Nat)
    (hcol : col = (c : Int)) (hc : c < cols) :
    tripletTerm cols r x ⟨(r : Int), col, v⟩ = v * x c := by
  subst hcol
  unfold tripletTerm
  rw [if_pos ⟨rfl, by simp only; omega, by simp only; omega⟩]
  simp

theorem tripletTerm_other_row (cols r : Nat) (x : VectorXd K) (row col : Int) (v : K)
    (hrow : row ≠ (r : Int)) : tripletTerm cols r x ⟨row, col, v⟩ = 0 := by
  unfold tripletTerm
  rw [if_neg (fun h => hrow h.1)]

theorem sum_map_ite_singleton {β : Type} (g : β → K) (c : Prop) [Decidable c] (t : β) :
    ((if c then [t] else []).map g).sum = if c then g t else 0 := by
  split_ifs <;> simp

namespace SquareThinFilmFDM

/-- Row `r` of `A * x` restricted to the triplets of one node. -/
theorem nodeTriplets_sum (s : SquareThinFilmFDM K) (x : VectorXd K) (a q r : Nat)
    (ha : a < s.n - 2) (hq : q < s.n - 2) :
    ((nodeTriplets s (a + 1) (q + 1) (a * (s.n - 2) + q)).map
        (tripletTerm ((s.n - 2) * (s.n - 2)) r x)).sum =
      if a * (s.n - 2) + q = r then
        -(coef_e s (a + 1) (q + 1) + coef_w s (a + 1) (q + 1) + coef_n s (a + 1) (q + 1)
            + coef_s s (a + 1) (q + 1)) * x r
          + (if q + 1 < s.n - 2 then coef_e s (a + 1) (q + 1) * x (r + 1) else 0)
          + (if q + 1 > 1 then coef_w s (a + 1) (q + 1) * x (r - 1) else 0)
          + (if a + 1 < s.n - 2 then coef_n s (a + 1) (q + 1) * x (r + (s.n - 2)) else 0)
          + (if a + 1 > 1 then coef_s s (a + 1) (q + 1) * x (r - (s.n - 2)) else 0)
      else 0 := by
  obtain ⟨hb1, hb2, hb3⟩ := idx_bounds (s.n - 2) a ha
  generalize hm : s.n - 2 = m at *
  have hmI : (s.n : Int) - 2 = (m : Int) := by omega
  generalize hA : a * m = A at *
  generalize hM : m * m = M at *
  simp only [nodeTriplets, hm, hmI, List.map_append, List.sum_append, sum_map_ite_singleton,
    List.map_cons, List.map_nil, List.sum_cons, List.sum_nil, add_zero]
  by_cases hr : A + q = r
  · subst hr
    rw [if_pos rfl, tripletTerm_at M (A + q) x _ _ (A + q) rfl (by omega)]
    congr 1
    · congr 1
      · congr 1
        · congr 1
          split_ifs with h
          · exact tripletTerm_at M (A + q) x _ _ (A + q + 1) (by push_cast; ring) (by omega)
          · rfl
        · split_ifs with h
          · exact tripletTerm_at M (A + q) x _ _ (A + q - 1) (by omega) (by omega)
          · rfl
      · split_ifs with h
        · exact tripletTerm_at M (A + q) x _ _ (A + q + m) (by push_cast; ring) (by omega)
        · rfl
    · split_ifs with h
      · exact tripletTerm_at M (A + q) x _ _ (A + q - m) (by omega) (by omega)
      · rfl
  · rw [if_neg hr]
    have hne : ((A + q : Nat) : Int) ≠ (r : Int) := by omega
    simp only [tripletTerm_other_row M r x _ _ _ hne, ite_self, add_zero]

theorem idx_inj (m a q a' q' : Nat) (hq : q < m) (hq' : q' < m)
    (h : a * m + q = a' * m + q') : a = a' ∧ q = q' := by
  have h1 := (div_mod_of_row m a (a * m + q) (by omega) (by omega)).1
  have h2 := (div_mod_of_row m a' (a * m + q) (by omega) (by omega)).1
  have ha : a = a' := by rw [← h1, h2]
  subst ha
  exact ⟨rfl, by omega⟩

theorem systemMatrix_rows (s : SquareThinFilmFDM K) (hn : 2 ≤ s.n) :
    (systemMatrix s).rows = (s.n - 2) * (s.n - 2) := n_unknowns_eq s hn

theorem systemMatrix_cols (s : SquareThinFilmFDM K) (hn : 2 ≤ s.n) :
    (systemMatrix s).cols = (s.n - 2) * (s.n - 2) := n_unknowns_eq s hn

/-- Row `a (n-2) + q` of `A * x`, for the assembled matrix `A`: the five-point row of interior
node `(a + 1, q + 1)`. -/
theorem systemMatrix_mulVec (s : SquareThinFilmFDM K) (x : VectorXd K) (a q : Nat)
    (ha : a < s.n - 2) (hq : q < s.n - 2) :
    (systemMatrix s).mulVec x (a * (s.n - 2) + q) =
      -(coef_e s (a + 1) (q + 1) + coef_w s (a + 1) (q + 1) + coef_n s (a + 1) (q + 1)
            + coef_s s (a + 1) (q + 1)) * x (a * (s.n - 2) + q)
        + (if q + 1 < s.n - 2 then coef_e s (a + 1) (q + 1) * x (a * (s.n - 2) + q + 1) else 0)
        + (if q + 1 > 1 then coef_w s (a + 1) (q + 1) * x (a * (s.n - 2) + q - 1) else 0)
        + (if a + 1 < s.n - 2 then
            coef_n s (a + 1) (q + 1) * x (a * (s.n - 2) + q + (s.n - 2)) else 0)
        + (if a + 1 > 1 then
            coef_s s (a + 1) (q + 1) * x (a * (s.n - 2) + q - (s.n - 2)) else 0) := by
  rw [systemMatrix, n_unknowns_eq s (by omega), setFromTriplets_mulVec, assemble_triplets,
    sum_map_flatMap,
    sum_map_range_single _ (s.n - 2) a ha, sum_map_flatMap,
    sum_map_range_single _ (s.n - 2) q hq, nodeTriplets_sum s x a q _ ha hq, if_pos rfl]
  · intro q' hq' hne
    rw [nodeTriplets_sum s x a q' _ ha hq', if_neg]
    intro h
    exact hne (idx_inj _ _ _ _ _ hq' hq h).2
  · intro a' ha' hne
    rw [sum_map_flatMap]
    refine List.sum_eq_zero ?_
    intro v hv
    obtain ⟨q', hq', rfl⟩ := List.mem_map.mp hv
    rw [List.mem_range] at hq'
    rw [nodeTriplets_sum s x a' q' _ ha' hq', if_neg]
    intro h
    exact hne (idx_inj _ _ _ _ _ hq' hq h).1

/-- The assembled equation of interior node `(a + 1, q + 1)`, read on the pressure field after the
write-back of `x`: row of `A x - b` is the five-point operator plus `6 U mu dh/dx`. -/
theorem system_row (s : SquareThinFilmFDM K) (x : VectorXd K) (a q : Nat)
    (ha : a < s.n - 2) (hq : q < s.n - 2) :
    (systemMatrix s).mulVec x (a * (s.n - 2) + q) - (assemble s).b (a * (s.n - 2) + q) =
      stencil s (scatter s x).2 (a + 1) (q + 1)
        + 6 * s.velocity * s.viscosity * dhdx s (a + 1) (q + 1) := by
  have hc : (scatter s x).2 (a + 1) (q + 1) = x (a * (s.n - 2) + q) := by
    rw [scatter_apply, if_pos (by omega)]; simp
  have hE : (scatter s x).2 (a + 1) (q + 1 + 1) =
      if q + 1 < s.n - 2 then x (a * (s.n - 2) + q + 1) else s.P (a + 1) (s.n - 1) := by
    rw [scatter_apply]
    by_cases h : q + 1 < s.n - 2
    · rw [if_pos (by omega), if_pos h]; simp [add_assoc]
    · rw [if_neg (by omega), if_neg h]; congr 1; omega
  have hW : (scatter s x).2 (a + 1) (q + 1 - 1) =
      if q + 1 > 1 then x (a * (s.n - 2) + q - 1) else s.P (a + 1) 0 := by
    rw [scatter_apply]
    by_cases h : q + 1 > 1
    · rw [if_pos (by omega), if_pos h]; congr 1; simp; omega
    · rw [if_neg (by omega), if_neg h]; congr 1; omega
  have hN : (scatter s x).2 (a + 1 + 1) (q + 1) =
      if a + 1 < s.n - 2 then x (a * (s.n - 2) + q + (s.n - 2)) else s.P (s.n - 1) (q + 1) := by
    rw [scatter_apply]
    by_cases h : a + 1 < s.n - 2
    · rw [if_pos (by omega), if_pos h]; congr 1; simp; ring
    · rw [if_neg (by omega), if_neg h]; congr 1; omega
  have hS : (scatter s x).2 (a + 1 - 1) (q + 1) =
      if a + 1 > 1 then x (a * (s.n - 2) + q - (s.n - 2)) else s.P 0 (q + 1) := by
    rw [scatter_apply]
    by_cases h : a + 1 > 1
    · rw [if_pos (by omega), if_pos h]
      obtain ⟨a', rfl⟩ : ∃ a', a = a' + 1 := ⟨a - 1, by omega⟩
      congr 1
      simp only [Nat.add_sub_cancel, Nat.succ_mul]
      omega
    · rw [if_neg (by omega), if_neg h]; congr 1; omega
  have e1 : (q + 1 = 1) = ¬ (q + 1 > 1) := propext (by omega)
  have e2 : (q + 1 = s.n - 2) = ¬ (q + 1 < s.n - 2) := propext (by omega)
  have e3 : (a + 1 = 1) = ¬ (a + 1 > 1) := propext (by omega)
  have e4 : (a + 1 = s.n - 2) = ¬ (a + 1 < s.n - 2) := propext (by omega)
  rw [systemMatrix_mulVec s x a q ha hq, assemble_b s a q ha hq, stencil, hc, hE, hW, hN, hS,
    nodeRhs]
  simp only [e1, e2, e3, e4, ite_not]
  split_ifs <;> ring

end SquareThinFilmFDM

theorem SparseMatrix.mulVec_sub (A : SparseMatrix K) (x y : VectorXd K) (r : Nat) :
    A.mulVec (fun c => x c - y c) r = A.mulVec x r - A.mulVec y r := by
  simp only [SparseMatrix.mulVec, mul_sub, Finset.sum_sub_distrib]

/-- A nonsingular system has at most one solution. -/
theorem SparseMatrix.Nonsingular.unique {A : SparseMatrix K} (hA : A.Nonsingular)
    {x y b : VectorXd K} (hx : A.Solves x b) (hy : A.Solves y b) :
    ∀ c, c < A.cols → x c = y c := by
  intro c hc
  have h := hA (fun c => x c - y c) (fun r hr => by
    rw [SparseMatrix.mulVec_sub, hx r hr, hy r hr, sub_self]) c hc
  exact sub_eq_zero.mp h

namespace SquareThinFilmFDM

/-- Discrete maximum principle for the five-point operator: a field that vanishes on the border
and is annihilated by the operator at every interior node is nowhere positive in the interior. -/
theorem stencil_le_zero (s : SquareThinFilmFDM K) (u : MatrixXd K)
    (hpos : ∀ i j, 1 ≤ i → i ≤ s.n - 2 → 1 ≤ j → j ≤ s.n - 2 →
      0 < coef_e s i j ∧ 0 < coef_w s i j ∧ 0 < coef_n s i j ∧ 0 < coef_s s i j)
    (hb : ∀ i j, i = 0 ∨ j = 0 ∨ i = s.n - 1 ∨ j = s.n - 1 → u i j = 0)
    (heq : ∀ i j, 1 ≤ i → i ≤ s.n - 2 → 1 ≤ j → j ≤ s.n - 2 → stencil s u i j = 0) :
    ∀ i j, 1 ≤ i → i ≤ s.n - 2 → 1 ≤ j → j ≤ s.n - 2 → u i j ≤ 0 := by
  intro i j hi1 hi2 hj1 hj2
  by_contra hcon
  rw [not_le] at hcon
  let S : Finset (Nat × Nat) := Finset.Icc 1 (s.n - 2) ×ˢ Finset.Icc 1 (s.n - 2)
  have hmem : (i, j) ∈ S := by
    simp only [S, Finset.mem_product, Finset.mem_Icc]; omega
  obtain ⟨⟨i0, j0⟩, h0, hmax⟩ := Finset.exists_max_image S (fun p => u p.1 p.2) ⟨(i, j), hmem⟩
  simp only [S, Finset.mem_product, Finset.mem_Icc] at h0
  have hM : 0 < u i0 j0 := lt_of_lt_of_le hcon (hmax (i, j) hmem)
  have hle : ∀ a b, a ≤ s.n - 1 → b ≤ s.n - 1 → u a b ≤ u i0 j0 := by
    intro a b ha hb'
    by_cases hin : 1 ≤ a ∧ a ≤ s.n - 2 ∧ 1 ≤ b ∧ b ≤ s.n - 2
    · exact hmax (a, b) (by simp only [S, Finset.mem_product, Finset.mem_Icc]; omega)
    · rw [hb a b (by omega)]; exact le_of_lt hM
  have hwalk : ∀ k, k ≤ i0 → u (i0 - k) j0 = u i0 j0 := by
    intro k
    induction k with
    | zero => intro _; rfl
    | succ k ih =>
      intro hk
      have hc := ih (by omega)
      obtain ⟨pe, pw, pn, ps⟩ := hpos (i0 - k) j0 (by omega) (by omega) (by omega) (by omega)
      have hst := heq (i0 - k) j0 (by omega) (by omega) (by omega) (by omega)
      unfold stencil at hst
      rw [hc] at hst
      have tE := mul_nonpos_of_nonneg_of_nonpos (le_of_lt pe)
        (sub_nonpos.mpr (hle (i0 - k) (j0 + 1) (by omega) (by omega)))
      have tW := mul_nonpos_of_nonneg_of_nonpos (le_of_lt pw)
        (sub_nonpos.mpr (hle (i0 - k) (j0 - 1) (by omega) (by omega)))
      have tN := mul_nonpos_of_nonneg_of_nonpos (le_of_lt pn)
        (sub_nonpos.mpr (hle (i0 - k + 1) j0 (by omega) (by omega)))
      have tS := mul_nonpos_of_nonneg_of_nonpos (le_of_lt ps)
        (sub_nonpos.mpr (hle (i0 - k - 1) j0 (by omega) (by omega)))
      have hz : coef_s s (i0 - k) j0 * (u (i0 - k - 1) j0 - u i0 j0) = 0 := by linarith
      rcases mul_eq_zero.mp hz with h | h
      · exact absurd h (ne_of_gt ps)
      · rw [show i0 - (k + 1) = i0 - k - 1 by omega]
        exact sub_eq_zero.mp h
  have h00 := hwalk i0 le_rfl
  rw [Nat.sub_self, hb 0 j0 (Or.inl rfl)] at h00
  exact absurd h00 (ne_of_lt hM)

/-- The assembled matrix depends on the state only through `n`, `h`, `viscosity`, `dx`, `dy`. -/
theorem systemMatrix_congr (s s' : SquareThinFilmFDM K) (hn : s.n = s'.n) (hh : s.h = s'.h)
    (hv : s.viscosity = s'.viscosity) (hdx : s.dx = s'.dx) (hdy : s.dy = s'.dy) :
    systemMatrix s = systemMatrix s' := by
  simp only [systemMatrix, n_unknowns, assemble_triplets, nodeTriplets, coef_e, coef_w, coef_n,
    coef_s, h3_12mu, hn, hh, hv, hdx, hdy]

/-- The five-point operator depends on the state only through `h`, `viscosity`, `dx`, `dy`. -/
theorem stencil_congr (s s' : SquareThinFilmFDM K) (hh : s.h = s'.h)
    (hv : s.viscosity = s'.viscosity) (hdx : s.dx = s'.dx) (hdy : s.dy = s'.dy)
    (u : MatrixXd K) (i j : Nat) : stencil s u i j = stencil s' u i j := by
  simp only [stencil, coef_e, coef_w, coef_n, coef_s, h3_12mu, hh, hv, hdx, hdy]

theorem stencil_neg (s : SquareThinFilmFDM K) (u : MatrixXd K) (i j : Nat) :
    stencil s (fun a b => -u a b) i j = -stencil s u i j := by
  simp only [stencil]; ring

/-- Face coefficients are positive when the film thickness is positive on the grid, the viscosity
is positive and the spacings are non-zero. -/
theorem coef_pos (s : SquareThinFilmFDM K) (hvis : 0 < s.viscosity) (hdx : s.dx ≠ 0)
    (hdy : s.dy ≠ 0) (hh : ∀ i j, i < s.n → j < s.n → 0 < s.h i j) (i j : Nat)
    (hi1 : 1 ≤ i) (hi2 : i ≤ s.n - 2) (hj1 : 1 ≤ j) (hj2 : j ≤ s.n - 2) :
    0 < coef_e s i j ∧ 0 < coef_w s i j ∧ 0 < coef_n s i j ∧ 0 < coef_s s i j := by
  have hc : ∀ a b, a < s.n → b < s.n → 0 < h3_12mu s a b := by
    intro a b ha hb
    unfold h3_12mu
    have := hh a b ha hb
    positivity
  have hx : 0 < s.dx * s.dx := mul_self_pos.mpr hdx
  have hy : 0 < s.dy * s.dy := mul_self_pos.mpr hdy
  have h0 := hc i j (by omega) (by omega)
  have hE := hc i (j + 1) (by omega) (by omega)
  have hW := hc i (j - 1) (by omega) (by omega)
  have hN := hc (i + 1) j (by omega) (by omega)
  have hS := hc (i - 1) j (by omega) (by omega)
  refine ⟨?_, ?_, ?_, ?_⟩
  · unfold coef_e; positivity
  · unfold coef_w; positivity
  · unfold coef_n; positivity
  · unfold coef_s; positivity

/-- With positive face coefficients the assembled matrix is nonsingular. -/
theorem systemMatrix_nonsingular_of_pos (s : SquareThinFilmFDM K) (hn : 2 ≤ s.n)
    (hpos : ∀ i j, 1 ≤ i → i ≤ s.n - 2 → 1 ≤ j → j ≤ s.n - 2 →
      0 < coef_e s i j ∧ 0 < coef_w s i j ∧ 0 < coef_n s i j ∧ 0 < coef_s s i j) :
    (systemMatrix s).Nonsingular := by
  intro x hx c hc
  let s0 : SquareThinFilmFDM K := { s with P := fun _ _ => 0, velocity := 0 }
  have hA : systemMatrix s0 = systemMatrix s := systemMatrix_congr s0 s rfl rfl rfl rfl rfl
  have hst : ∀ a q, a < s.n - 2 → q < s.n - 2 →
      stencil s (scatter s0 x).2 (a + 1) (q + 1) = 0 := by
    intro a q ha hq
    have hrow := system_row s0 x a q ha hq
    have hr : a * (s.n - 2) + q < (systemMatrix s).rows := by
      have := (idx_bounds (s.n - 2) a ha).1
      rw [systemMatrix_rows s hn]
      omega
    have hb0 : (assemble s0).b (a * (s0.n - 2) + q) = 0 := by
      rw [assemble_b s0 a q ha hq]
      simp [nodeRhs, s0]
    rw [hb0, hA] at hrow
    have h1 : (systemMatrix s).mulVec x (a * (s.n - 2) + q) = 0 := hx _ hr
    rw [show s0.n = s.n from rfl, h1] at hrow
    rw [stencil_congr s s0 rfl rfl rfl rfl]
    have hv0 : s0.velocity = 0 := rfl
    rw [hv0] at hrow
    linarith
  have hu : ∀ i j, (scatter s0 x).2 i j =
      if 1 ≤ i ∧ i ≤ s.n - 2 ∧ 1 ≤ j ∧ j ≤ s.n - 2
      then x ((i - 1) * (s.n - 2) + (j - 1)) else 0 := fun i j => scatter_apply s0 x i j
  have hbd : ∀ i j, i = 0 ∨ j = 0 ∨ i = s.n - 1 ∨ j = s.n - 1 → (scatter s0 x).2 i j = 0 := by
    intro i j hij
    rw [hu]
    by_cases hin : 1 ≤ i ∧ i ≤ s.n - 2 ∧ 1 ≤ j ∧ j ≤ s.n - 2
    · exfalso; omega
    · rw [if_neg hin]
  have heq : ∀ i j, 1 ≤ i → i ≤ s.n - 2 → 1 ≤ j → j ≤ s.n - 2 →
      stencil s (scatter s0 x).2 i j = 0 := by
    intro i j hi1 hi2 hj1 hj2
    have := hst (i - 1) (j - 1) (by omega) (by omega)
    rwa [Nat.sub_add_cancel hi1, Nat.sub_add_cancel hj1] at this
  have hle := stencil_le_zero s (scatter s0 x).2 hpos hbd heq
  have hge := stencil_le_zero s (fun a b => -(scatter s0 x).2 a b) hpos
    (fun i j hij => by simp only [hbd i j hij, neg_zero])
    (fun i j hi1 hi2 hj1 hj2 => by rw [stencil_neg, heq i j hi1 hi2 hj1 hj2, neg_zero])
  have hc' : c < (s.n - 2) * (s.n - 2) := by rw [← systemMatrix_cols s hn]; exact hc
  have hm : 0 < s.n - 2 := by
    rcases Nat.eq_zero_or_pos (s.n - 2) with h | h
    · rw [h] at hc'; simp at hc'
    · exact h
  have ha : c / (s.n - 2) < s.n - 2 := Nat.div_lt_of_lt_mul hc'
  have hq : c % (s.n - 2) < s.n - 2 := Nat.mod_lt _ hm
  have hdm : c / (s.n - 2) * (s.n - 2) + c % (s.n - 2) = c := Nat.div_add_mod' c (s.n - 2)
  generalize c / (s.n - 2) = a0 at ha hdm
  generalize c % (s.n - 2) = q0 at hq hdm
  have hcx : (scatter s0 x).2 (a0 + 1) (q0 + 1) = x c := by
    rw [hu, if_pos (by omega)]
    simp only [Nat.add_sub_cancel]
    rw [hdm]
  have h1 := hle (a0 + 1) (q0 + 1) (by omega) (by omega) (by omega) (by omega)
  have h2 := hge (a0 + 1) (q0 + 1) (by omega) (by omega) (by omega) (by omega)
  simp only at h2
  rw [hcx] at h1 h2
  linarith

theorem solveDirect_of_success (lu : SparseLU K) (s : SquareThinFilmFDM K)
    (h1 : lu.compute (systemMatrix s) = ComputationInfo.Success)
    (h2 : lu.solveInfo (systemMatrix s) (assemble s).b = ComputationInfo.Success) :
    solveDirect lu s =
      (true, { s with P := (scatter s (lu.solve (systemMatrix s) (assemble s).b)).2 }) := by
  simp [solveDirect, h1, h2]

theorem solveDirect_of_failure (lu : SparseLU K) (s : SquareThinFilmFDM K)
    (h : lu.compute (systemMatrix s) ≠ ComputationInfo.Success ∨
      lu.solveInfo (systemMatrix s) (assemble s).b ≠ ComputationInfo.Success) :
    solveDirect lu s = (false, s) := by
  unfold solveDirect
  by_cases h1 : lu.compute (systemMatrix s) = ComputationInfo.Success
  · rcases h with h | h
    · exact absurd h1 h
    · simp [h1, h]
  · simp [h1]

theorem solveDirect_true_iff (lu : SparseLU K) (s : SquareThinFilmFDM K) :
    (solveDirect lu s).1 = true ↔
      lu.compute (systemMatrix s) = ComputationInfo.Success ∧
        lu.solveInfo (systemMatrix s) (assemble s).b = ComputationInfo.Success := by
  constructor
  · intro h
    by_contra hc
    rw [not_and_or] at hc
    rw [solveDirect_of_failure lu s hc] at h
    exact absurd h (by simp)
  · rintro ⟨h1, h2⟩
    rw [solveDirect_of_success lu s h1 h2]

/-- After a successful call the pressure field is the write-back of the library answer. -/
theorem solveDirect_P (lu : SparseLU K) (s : SquareThinFilmFDM K)
    (hok : (solveDirect lu s).1 = true) :
    (solveDirect lu s).2.P = (scatter s (lu.solve (systemMatrix s) (assemble s).b)).2 := by
  obtain ⟨h1, h2⟩ := (solveDirect_true_iff lu s).mp hok
  rw [solveDirect_of_success lu s h1 h2]

/-- A vector solves the assembled system exactly when the field obtained by writing it into the
interior satisfies the five-point equation with right-hand side `-6 U mu dh/dx` at every
interior node. -/
theorem solves_iff_stencil (s : SquareThinFilmFDM K) (hn : 2 ≤ s.n) (x : VectorXd K) :
    (systemMatrix s).Solves x (assemble s).b ↔
      ∀ i j, 1 ≤ i → i ≤ s.n - 2 → 1 ≤ j → j ≤ s.n - 2 →
        stencil s (scatter s x).2 i j = -6 * s.velocity * s.viscosity * dhdx s i j := by
  constructor
  · intro h i j hi1 hi2 hj1 hj2
    have hrow := system_row s x (i - 1) (j - 1) (by omega) (by omega)
    have hr : (i - 1) * (s.n - 2) + (j - 1) < (systemMatrix s).rows := by
      have := (idx_bounds (s.n - 2) (i - 1) (by omega)).1
      rw [systemMatrix_rows s hn]
      omega
    rw [h _ hr, Nat.sub_add_cancel hi1, Nat.sub_add_cancel hj1] at hrow
    linarith
  · intro h r hr
    have hr' : r < (s.n - 2) * (s.n - 2) := by rw [← systemMatrix_rows s hn]; exact hr
    have hm : 0 < s.n - 2 := by
      rcases Nat.eq_zero_or_pos (s.n - 2) with h0 | h0
      · rw [h0] at hr'; simp at hr'
      · exact h0
    have ha : r / (s.n - 2) < s.n - 2 := Nat.div_lt_of_lt_mul hr'
    have hq : r % (s.n - 2) < s.n - 2 := Nat.mod_lt _ hm
    have hdm : r / (s.n - 2) * (s.n - 2) + r % (s.n - 2) = r := Nat.div_add_mod' r (s.n - 2)
    generalize r / (s.n - 2) = a at ha hdm
    generalize r % (s.n - 2) = q at hq hdm
    have hrow := system_row s x a q ha hq
    rw [hdm, h (a + 1) (q + 1) (by omega) (by omega) (by omega) (by omega)] at hrow
    linarith

/-- Soundness of the library turns a successful call into the five-point equations. -/
theorem solveDirect_stencil (lu : SparseLU K) (s : SquareThinFilmFDM K)
    (hsound : lu.SolveSound (systemMatrix s) (assemble s).b)
    (hok : (solveDirect lu s).1 = true) (i j : Nat)
    (hi1 : 1 ≤ i) (hi2 : i ≤ s.n - 2) (hj1 : 1 ≤ j) (hj2 : j ≤ s.n - 2) :
    stencil s (solveDirect lu s).2.P i j = -6 * s.velocity * s.viscosity * dhdx s i j := by
  obtain ⟨h1, h2⟩ := (solveDirect_true_iff lu s).mp hok
  rw [solveDirect_P lu s hok]
  exact (solves_iff_stencil s (by omega) _).mp (hsound h1 h2) i j hi1 hi2 hj1 hj2

end SquareThinFilmFDM

/-- The one-unknown library is sound on every system. -/
theorem scalarLU_solveSound (A : SparseMatrix K) (b : VectorXd K) :
    (scalarLU : SparseLU K).SolveSound A b := by
  intro h1 _ r hr
  simp only [scalarLU] at h1
  split_ifs at h1 with hc
  obtain ⟨hrows, hcols, hne⟩ := hc
  have hr0 : r = 0 := by omega
  subst hr0
  simp only [SparseMatrix.mulVec, hcols, Finset.sum_range_one, scalarLU]
  field_simp

namespace SquareThinFilmFDM

/-! ### The constructor -/

theorem construct_n (n : Nat) (w h : K) (f : Option (K → K → K)) (mu U : K) :
    (construct n w h f mu U).n = n := by
  cases f <;> rfl

theorem construct_width (n : Nat) (w h : K) (f : Option (K → K → K)) (mu U : K) :
    (construct n w h f mu U).width = w := by
  cases f <;> rfl

theorem construct_height (n : Nat) (w h : K) (f : Option (K → K → K)) (mu U : K) :
    (construct n w h f mu U).height = h := by
  cases f <;> rfl

theorem construct_viscosity (n : Nat) (w h : K) (f : Option (K → K → K)) (mu U : K) :
    (construct n w h f mu U).viscosity = mu := by
  cases f <;> rfl

theorem construct_velocity (n : Nat) (w h : K) (f : Option (K → K → K)) (mu U : K) :
    (construct n w h f mu U).velocity = U := by
  cases f <;> rfl

theorem construct_dx (n : Nat) (w h : K) (f : Option (K → K → K)) (mu U : K) :
    (construct n w h f mu U).dx = w / ((n : K) - 1) := by
  cases f <;> simp [construct, initializeHeight, initializeMesh]

theorem construct_dy (n : Nat) (w h : K) (f : Option (K → K → K)) (mu U : K) :
    (construct n w h f mu U).dy = h / ((n : K) - 1) := by
  cases f <;> simp [construct, initializeHeight, initializeMesh]

theorem construct_P (n : Nat) (w h : K) (f : Option (K → K → K)) (mu U : K) :
    (construct n w h f mu U).P = fun _ _ => 0 := by
  cases f <;> rfl

theorem construct_h_none (n : Nat) (w h : K) (mu U : K) (i j : Nat) :
    (construct n w h none mu U).h i j = if i < n ∧ j < n then 1 / 1000 else 0 := rfl

theorem construct_h_some (n : Nat) (w h : K) (f : K → K → K) (mu U : K) (i j : Nat) :
    (construct n w h (some f) mu U).h i j =
      if i < n ∧ j < n then f (LinSpaced n 0 w j) (LinSpaced n 0 h i) else 0 := rfl

/-! ### `setEdgeBoundary` -/

/-- Closed form of the pressure field after `setEdgeBoundary`: the last write wins. -/
theorem setEdgeBoundary_P_apply (s : SquareThinFilmFDM K) (bottom right top left : K)
    (i j : Nat) :
    (s.setEdgeBoundary bottom right top left).P i j =
      if i = s.n - 1 ∧ j = s.n - 1 then (top + right) / 2
      else if i = s.n - 1 ∧ j = 0 then (top + left) / 2
      else if i = 0 ∧ j = s.n - 1 then (bottom + right) / 2
      else if i = 0 ∧ j = 0 then (bottom + left) / 2
      else if j = s.n - 1 ∧ i < s.n then right
      else if j = 0 ∧ i < s.n then left
      else if i = s.n - 1 ∧ j < s.n then top
      else if i = 0 ∧ j < s.n then bottom
      else s.P i j := rfl

/-- On the border the result of `setEdgeBoundary` is a function of `n` and the four arguments. -/
theorem setEdgeBoundary_border_indep (s s' : SquareThinFilmFDM K) (hn : s'.n = s.n)
    (bottom right top left : K) (i j : Nat) (hi : i < s.n) (hj : j < s.n)
    (hb : i = 0 ∨ i = s.n - 1 ∨ j = 0 ∨ j = s.n - 1) :
    (s'.setEdgeBoundary bottom right top left).P i j =
      (s.setEdgeBoundary bottom right top left).P i j := by
  rw [setEdgeBoundary_P_apply, setEdgeBoundary_P_apply, hn]
  split_ifs <;> first | rfl | (exfalso; omega)

/-- Claim C1. For every grid size `n ≥ 2`, every prior state and all `bottom, right, top, left`:
after `setEdgeBoundary` the non-corner nodes of row `0` hold `bottom`, of row `n-1` hold `top`, of
column `0` hold `left`, of column `n-1` hold `right`, and the four corners hold the mean of their
two edge pressures. The border does not depend on the prior pressure field, so after two
successive calls every border entry is the one the latest call alone produces. -/
theorem setEdgeBoundary_border (s : SquareThinFilmFDM K) (bottom right top left : K)
    (hn : 2 ≤ s.n) :
    (∀ j, 0 < j → j < s.n - 1 →
      (s.setEdgeBoundary bottom right top left).P 0 j = bottom ∧
      (s.setEdgeBoundary bottom right top left).P (s.n - 1) j = top) ∧
    (∀ i, 0 < i → i < s.n - 1 →
      (s.setEdgeBoundary bottom right top left).P i 0 = left ∧
      (s.setEdgeBoundary bottom right top left).P i (s.n - 1) = right) ∧
    (s.setEdgeBoundary bottom right top left).P 0 0 = (bottom + left) / 2 ∧
    (s.setEdgeBoundary bottom right top left).P 0 (s.n - 1) = (bottom + right) / 2 ∧
    (s.setEdgeBoundary bottom right top left).P (s.n - 1) 0 = (top + left) / 2 ∧
    (s.setEdgeBoundary bottom right top left).P (s.n - 1) (s.n - 1) = (top + right) / 2 ∧
    (∀ (P0 : MatrixXd K) (i j : Nat), i < s.n → j < s.n →
      (i = 0 ∨ i = s.n - 1 ∨ j = 0 ∨ j = s.n - 1) →
      (setEdgeBoundary { s with P := P0 } bottom right top left).P i j =
        (s.setEdgeBoundary bottom right top left).P i j) ∧
    (∀ (b0 r0 t0 l0 : K) (i j : Nat), i < s.n → j < s.n →
      (i = 0 ∨ i = s.n - 1 ∨ j = 0 ∨ j = s.n - 1) →
      ((s.setEdgeBoundary b0 r0 t0 l0).setEdgeBoundary bottom right top left).P i j =
        (s.setEdgeBoundary bottom right top left).P i j) := by
  refine ⟨fun j h0 h1 => ⟨?_, ?_⟩, fun i h0 h1 => ⟨?_, ?_⟩, ?_, ?_, ?_, ?_, ?_, ?_⟩
  · rw [setEdgeBoundary_P_apply]
    repeat (first | rw [if_pos (by omega)] | rw [if_neg (by omega)])
  · rw [setEdgeBoundary_P_apply]
    repeat (first | rw [if_pos (by omega)] | rw [if_neg (by omega)])
  · rw [setEdgeBoundary_P_apply]
    repeat (first | rw [if_pos (by omega)] | rw [if_neg (by omega)])
  · rw [setEdgeBoundary_P_apply]
    repeat (first | rw [if_pos (by omega)] | rw [if_neg (by omega)])
  · rw [setEdgeBoundary_P_apply]
    repeat (first | rw [if_pos (by omega)] | rw [if_neg (by omega)])
  · rw [setEdgeBoundary_P_apply]
    repeat (first | rw [if_pos (by omega)] | rw [if_neg (by omega)])
  · rw [setEdgeBoundary_P_apply]
    repeat (first | rw [if_pos (by omega)] | rw [if_neg (by omega)])
  · rw [setEdgeBoundary_P_apply, if_pos ⟨rfl, rfl⟩]
  · intro P0 i j hi hj hb
    exact setEdgeBoundary_border_indep s { s with P := P0 } rfl bottom right top left i j hi hj hb
  · intro b0 r0 t0 l0 i j hi hj hb
    exact setEdgeBoundary_border_indep s (s.setEdgeBoundary b0 r0 t0 l0) rfl bottom right top
      left i j hi hj hb

/-- Instance of claim C1 on a 3 x 3 grid: two calls in a row, the corner `(0, 0)` holds the mean
of the latest `bottom` and `left`. -/
theorem setEdgeBoundary_border_witness :
    2 ≤ (construct 3 2 2 none (1 / 100) (1 : ℚ)).n ∧
      (((construct 3 2 2 none (1 / 100) (1 : ℚ)).setEdgeBoundary 1 2 3 4).setEdgeBoundary
        10 20 30 40).P 0 0 = (10 + 40) / 2 := by
  have hn : 2 ≤ (construct 3 2 2 none (1 / 100) (1 : ℚ)).n := by decide
  have h := setEdgeBoundary_border (construct 3 2 2 none (1 / 100) (1 : ℚ)) 10 20 30 40 hn
  refine ⟨hn, ?_⟩
  rw [h.2.2.2.2.2.2.2 1 2 3 4 0 0 (by decide) (by decide) (Or.inl rfl)]
  exact h.2.2.1

/-! ### `calculateTotalForce` -/

theorem edgeWeight_mul (n i j : Nat) :
    (if i = 0 ∨ i = n - 1 then (1 / 2 : K) else 1) * (if j = 0 ∨ j = n - 1 then (1 / 2 : K) else 1) =
      quadratureWeight n i j := by
  unfold quadratureWeight
  by_cases hi : i = 0 ∨ i = n - 1 <;> by_cases hj : j = 0 ∨ j = n - 1 <;>
    simp only [hi, hj, if_true, if_false, and_self, and_true, and_false, or_true, or_false,
      true_and, false_and, true_or, false_or] <;> norm_num

/-- Claim C7. For every pressure field on an `n x n` grid (any `n`, in particular `n ≥ 2`),
`calculateTotalForce()` is the sum over all nodes of `P(i,j) * dx * dy * w(i,j)` with the weight
`w` of the specification (`1/4` at corners, `1/2` on the rest of the border, `1` inside). The
member is `const`: it returns the number and has no effect on the state. -/
theorem calculateTotalForce_eq_weighted_sum (s : SquareThinFilmFDM K) :
    s.calculateTotalForce =
      ∑ i in Finset.range s.n, ∑ j in Finset.range s.n,
        s.P i j * s.dx * s.dy * quadratureWeight s.n i j := by
  rw [calculateTotalForce_eq_sum]
  refine Finset.sum_congr rfl (fun i _ => Finset.sum_congr rfl (fun j _ => ?_))
  rw [edgeWeight_mul]
  ring

/-- The force of a field that is constant on the grid. -/
theorem calculateTotalForce_const (s : SquareThinFilmFDM K) (p0 : K) (hn : 2 ≤ s.n)
    (hdx : s.dx = s.width / ((s.n : K) - 1)) (hdy : s.dy = s.height / ((s.n : K) - 1))
    (hP : ∀ i j, i < s.n → j < s.n → s.P i j = p0) :
    s.calculateTotalForce = p0 * s.width * s.height := by
  rw [calculateTotalForce_eq_sum]
  have h1 : ∀ i ∈ Finset.range s.n, ∑ j in Finset.range s.n,
      s.P i j * (s.dx * s.dy * ((if i = 0 ∨ i = s.n - 1 then (1 / 2 : K) else 1) *
        (if j = 0 ∨ j = s.n - 1 then (1 / 2 : K) else 1))) =
      p0 * s.dx * s.dy * ((s.n : K) - 1) * (if i = 0 ∨ i = s.n - 1 then (1 / 2 : K) else 1) := by
    intro i hi
    rw [Finset.mem_range] at hi
    rw [← sum_edgeWeight s.n hn, Finset.mul_sum, Finset.sum_mul]
    refine Finset.sum_congr rfl (fun j hj => ?_)
    rw [Finset.mem_range] at hj
    rw [hP i j hi hj]
    ring
  rw [Finset.sum_congr rfl h1, ← Finset.mul_sum, sum_edgeWeight s.n hn, hdx, hdy]
  have hne : (s.n : K) - 1 ≠ 0 := by
    have : (2 : K) ≤ (s.n : K) := by exact_mod_cast hn
    intro h
    linarith
  field_simp
  ring

/-- The weights of the specification sum to `(n - 1)^2`. -/
theorem sum_quadratureWeight (n : Nat) (hn : 2 ≤ n) :
    ∑ i in Finset.range n, ∑ j in Finset.range n, (quadratureWeight n i j : K) =
      ((n : K) - 1) ^ 2 := by
  simp only [← edgeWeight_mul, ← Finset.mul_sum, ← Finset.sum_mul, sum_edgeWeight n hn]
  ring

/-- Claim C2. For every `n ≥ 2` and every field with `P(i,j) = p0` on all `n * n` nodes, with
`dx = width/(n-1)` and `dy = height/(n-1)`: `calculateTotalForce()` is `p0 * width * height`
exactly, and the quadrature weights `1`, `1/2`, `1/4` sum to `(n-1)^2`. -/
theorem calculateTotalForce_constant_field (s : SquareThinFilmFDM K) (p0 : K) (hn : 2 ≤ s.n)
    (hdx : s.dx = s.width / ((s.n : K) - 1)) (hdy : s.dy = s.height / ((s.n : K) - 1))
    (hP : ∀ i j, i < s.n → j < s.n → s.P i j = p0) :
    s.calculateTotalForce = p0 * s.width * s.height ∧
      ∑ i in Finset.range s.n, ∑ j in Finset.range s.n, (quadratureWeight s.n i j : K) =
        ((s.n : K) - 1) ^ 2 :=
  ⟨calculateTotalForce_const s p0 hn hdx hdy hP, sum_quadratureWeight s.n hn⟩

/-- Instance of claim C2: a grid of size `n = 2`, width 2, height 4, all four nodes at
pressure 5 (written by `setEdgeBoundary 5 5 5 5`); the force is `5 * 2 * 4`. -/
theorem calculateTotalForce_constant_field_witness :
    ((construct 2 2 4 none (1 / 100) (1 : ℚ)).setEdgeBoundary 5 5 5 5).calculateTotalForce
      = 5 * 2 * 4 := by
  have h := calculateTotalForce_constant_field
    ((construct 2 2 4 none (1 / 100) (1 : ℚ)).setEdgeBoundary 5 5 5 5) 5 (by decide)
    (by show (construct 2 2 4 none (1 / 100) (1 : ℚ)).dx = _
        rw [construct_dx]; rfl)
    (by show (construct 2 2 4 none (1 / 100) (1 : ℚ)).dy = _
        rw [construct_dy]; rfl)
    (by
      intro i j hi hj
      have hi' : i < 2 := hi
      have hj' : j < 2 := hj
      rw [setEdgeBoundary_P_apply]
      have hn2 : (construct 2 2 4 none (1 / 100) (1 : ℚ)).n = 2 := rfl
      rw [hn2]
      interval_cases i <;> interval_cases j <;> norm_num)
  exact h.1

/-! ### Construction -/

/-- Claim C6, counterexample. Construction with `n = 3`, `width = -1`, `height = 0` (both extents
non-positive) does not fail: it returns the instance built by the constructor body. -/
theorem new_nonpositive_extent_ok :
    ((-1 : ℚ) ≤ 0 ∧ (0 : ℚ) ≤ 0) ∧
      (∀ e, new 3 (-1 : ℚ) 0 none (1 / 100) 1 ≠ Except.error e) ∧
      new 3 (-1 : ℚ) 0 none (1 / 100) 1 = Except.ok (construct 3 (-1) 0 none (1 / 100) 1) :=
  ⟨⟨by norm_num, le_refl 0⟩, fun e h => by simp [new] at h, rfl⟩

/-! ### Frame properties of `solveDirect` -/

/-- Whatever the outcome, `solveDirect` leaves every entry outside the interior block as it was. -/
theorem solveDirect_P_outside (lu : SparseLU K) (s : SquareThinFilmFDM K) (i j : Nat)
    (hb : ¬ (1 ≤ i ∧ i ≤ s.n - 2 ∧ 1 ≤ j ∧ j ≤ s.n - 2)) :
    (solveDirect lu s).2.P i j = s.P i j := by
  by_cases hok : (solveDirect lu s).1 = true
  · rw [solveDirect_P lu s hok, scatter_apply, if_neg hb]
  · have hf : solveDirect lu s = (false, s) := by
      apply solveDirect_of_failure
      by_contra hc
      rw [not_or, not_not, not_not] at hc
      exact hok ((solveDirect_true_iff lu s).mpr hc)
    rw [hf]

/-- Claim C8. For every `n ≥ 3` and every solver state, if `solveDirect()` returns true then every
border entry of `P` (rows `0` and `n-1`, columns `0` and `n-1`, corners included) has the value it
had before the call; when the state comes out of `setEdgeBoundary`, that is the value written by
that call. -/
theorem solveDirect_preserves_border (lu : SparseLU K) (s : SquareThinFilmFDM K) (hn : 3 ≤ s.n)
    (hok : (solveDirect lu s).1 = true) :
    (∀ i j, i < s.n → j < s.n → (i = 0 ∨ i = s.n - 1 ∨ j = 0 ∨ j = s.n - 1) →
      (solveDirect lu s).2.P i j = s.P i j) ∧
    (∀ (s0 : SquareThinFilmFDM K) (bottom right top left : K),
      s = s0.setEdgeBoundary bottom right top left →
      ∀ i j, i < s.n → j < s.n → (i = 0 ∨ i = s.n - 1 ∨ j = 0 ∨ j = s.n - 1) →
        (solveDirect lu s).2.P i j = (s0.setEdgeBoundary bottom right top left).P i j) := by
  have hborder : ∀ i j, (i = 0 ∨ i = s.n - 1 ∨ j = 0 ∨ j = s.n - 1) →
      (solveDirect lu s).2.P i j = s.P i j := by
    intro i j hb
    rw [solveDirect_P lu s hok, scatter_apply, if_neg (by omega)]
  refine ⟨fun i j _ _ hb => hborder i j hb, ?_⟩
  intro s0 bottom right top left hs i j _ _ hb
  rw [hborder i j hb, hs]

/-- Instance of claim C8: a 3 x 3 grid with edge pressures `1, 2, 3, 4`, a library run that reports
success with answer `7`; the corner `(0, 2)` still holds `(1 + 2) / 2`. -/
theorem solveDirect_preserves_border_witness :
    (solveDirect (oracleLU (fun _ => 7))
        ((construct 3 2 2 none (1 / 100) (1 : ℚ)).setEdgeBoundary 1 2 3 4)).1 = true ∧
      (solveDirect (oracleLU (fun _ => 7))
        ((construct 3 2 2 none (1 / 100) (1 : ℚ)).setEdgeBoundary 1 2 3 4)).2.P 0 2 =
        (1 + 2) / 2 := by
  have hok : (solveDirect (oracleLU (fun _ => 7))
      ((construct 3 2 2 none (1 / 100) (1 : ℚ)).setEdgeBoundary 1 2 3 4)).1 = true := by
    rw [solveDirect_true_iff]; exact ⟨rfl, rfl⟩
  have h := solveDirect_preserves_border (oracleLU (fun _ => 7))
    ((construct 3 2 2 none (1 / 100) (1 : ℚ)).setEdgeBoundary 1 2 3 4) (by decide) hok
  refine ⟨hok, ?_⟩
  rw [h.1 0 2 (by decide) (by decide) (Or.inl rfl)]
  rfl

/-- Claim C9. If the factorization step or the solve step reports failure, `solveDirect()`
returns false (a value, not an exception) and the solver state, in particular the whole pressure
field `P`, is exactly what it was before the call. -/
theorem solveDirect_failure_unchanged (lu : SparseLU K) (s : SquareThinFilmFDM K)
    (hfail : lu.compute (systemMatrix s) ≠ ComputationInfo.Success ∨
      lu.solveInfo (systemMatrix s) (assemble s).b ≠ ComputationInfo.Success) :
    (solveDirect lu s).1 = false ∧ (solveDirect lu s).2 = s ∧
      ∀ i j, (solveDirect lu s).2.P i j = s.P i j := by
  rw [solveDirect_of_failure lu s hfail]
  exact ⟨rfl, rfl, fun _ _ => rfl⟩

end SquareThinFilmFDM

/-- An entry of a matrix is the product of its row with a unit vector. -/
theorem SparseMatrix.coeff_eq_mulVec (A : SparseMatrix K) (r c : Nat) (hc : c < A.cols) :
    A.coeff r c = A.mulVec (fun k => if k = c then 1 else 0) r := by
  simp only [SparseMatrix.mulVec, mul_ite, mul_one, mul_zero]
  rw [Finset.sum_ite_eq' (Finset.range A.cols) c (fun k => A.coeff r k),
    if_pos (Finset.mem_range.mpr hc)]

namespace SquareThinFilmFDM

/-- On a 3 x 3 grid the single matrix entry is the diagonal coefficient of node `(1, 1)`. -/
theorem systemMatrix_coeff_three (s : SquareThinFilmFDM K) (hn : s.n = 3) :
    (systemMatrix s).coeff 0 0 = -(coef_e s 1 1 + coef_w s 1 1 + coef_n s 1 1 + coef_s s 1 1) := by
  have hm : s.n - 2 = 1 := by omega
  have hcols : 0 < (systemMatrix s).cols := by
    rw [systemMatrix_cols s (by omega), hm]; decide
  have h := systemMatrix_mulVec s (fun k => if k = 0 then 1 else 0) 0 0 (by omega) (by omega)
  rw [SparseMatrix.coeff_eq_mulVec _ 0 0 hcols]
  simp only [hm, Nat.zero_mul, Nat.zero_add, Nat.lt_irrefl, if_false, if_true, gt_iff_lt,
    add_zero, mul_one] at h
  exact h

/-- Instance of claim C9: a 3 x 3 grid whose film thickness is zero everywhere gives the singular
one-unknown system `0 * x = 0`; the exact one-unknown library reports failure, `solveDirect`
returns false and the pressure field is the one `setEdgeBoundary 1 2 3 4` left. -/
theorem solveDirect_failure_unchanged_witness :
    (solveDirect scalarLU
        ((construct 3 2 2 (some (fun _ _ => 0)) (1 / 100) (1 : ℚ)).setEdgeBoundary 1 2 3 4)).1
        = false ∧
      (solveDirect scalarLU
        ((construct 3 2 2 (some (fun _ _ => 0)) (1 / 100) (1 : ℚ)).setEdgeBoundary 1 2 3 4)).2
        = (construct 3 2 2 (some (fun _ _ => 0)) (1 / 100) (1 : ℚ)).setEdgeBoundary 1 2 3 4 := by
  have hfail : (scalarLU : SparseLU ℚ).compute (systemMatrix
      ((construct 3 2 2 (some (fun _ _ => 0)) (1 / 100) (1 : ℚ)).setEdgeBoundary 1 2 3 4))
      ≠ ComputationInfo.Success := by
    have hc : (systemMatrix
        ((construct 3 2 2 (some (fun _ _ => 0)) (1 / 100) (1 : ℚ)).setEdgeBoundary 1 2 3 4)).coeff
        0 0 = 0 := by
      rw [systemMatrix_coeff_three _ rfl]
      simp [coef_e, coef_w, coef_n, coef_s, h3_12mu, setEdgeBoundary, construct_h_some]
    simp only [scalarLU, hc, ne_eq, not_true_eq_false, and_false, if_false]
    decide
  have h := solveDirect_failure_unchanged scalarLU
    ((construct 3 2 2 (some (fun _ _ => 0)) (1 / 100) (1 : ℚ)).setEdgeBoundary 1 2 3 4)
    (Or.inl hfail)
  exact ⟨h.1, h.2.1⟩

/-! ### The five-point equations after a successful solve -/

/-- The data of `wedgeSolver`. -/
theorem wedgeSolver_facts :
    wedgeSolver.n = 3 ∧ wedgeSolver.dx = 1 ∧ wedgeSolver.dy = 1 ∧ wedgeSolver.viscosity = 1 ∧
    wedgeSolver.velocity = 1 ∧ (∀ i j, wedgeSolver.P i j = 0) ∧
    (∀ i j, wedgeSolver.h i j = if i < 3 ∧ j < 3 then 1 + (j : ℚ) else 0) := by
  refine ⟨rfl, ?_, ?_, rfl, rfl, fun _ _ => rfl, ?_⟩
  · rw [wedgeSolver, construct_dx]; norm_num
  · rw [wedgeSolver, construct_dy]; norm_num
  · intro i j
    rw [wedgeSolver, construct_h_some]
    simp only [LinSpaced]
    norm_num

/-- The library answer `36/19` solves the one-unknown system of `wedgeSolver`. -/
theorem wedgeSolver_sound :
    (oracleLU (fun _ => (36 / 19 : ℚ))).SolveSound (systemMatrix wedgeSolver)
      (assemble wedgeSolver).b := by
  intro _ _
  obtain ⟨hn, hdx, hdy, hmu, hU, hP, hh⟩ := wedgeSolver_facts
  show (systemMatrix _).Solves (fun _ => (36 / 19 : ℚ)) _
  rw [solves_iff_stencil _ (by rw [hn]; decide)]
  intro i j hi1 hi2 hj1 hj2
  rw [hn] at hi2 hj2
  obtain rfl : i = 1 := by omega
  obtain rfl : j = 1 := by omega
  simp only [stencil, scatter_apply, coef_e, coef_w, coef_n, coef_s, h3_12mu, dhdx, hn, hdx, hdy,
    hmu, hU, hP, hh]
  norm_num

/-- Claim C4, counterexample. On `wedgeSolver` (3 x 3 grid, `h = 1 + x`, `U = mu = 1`) a sound
library run succeeds, and at the interior node `(1, 1)` the five-point sum is not
`6 * velocity * viscosity * dhdx(1, 1)` (it is the opposite number). -/
theorem solveDirect_plus_sign_fails :
    (oracleLU (fun _ => (36 / 19 : ℚ))).SolveSound (systemMatrix wedgeSolver)
      (assemble wedgeSolver).b ∧
    (solveDirect (oracleLU (fun _ => 36 / 19)) wedgeSolver).1 = true ∧
    coef_e wedgeSolver 1 1 * ((solveDirect (oracleLU (fun _ => 36 / 19)) wedgeSolver).2.P 1 2
        - (solveDirect (oracleLU (fun _ => 36 / 19)) wedgeSolver).2.P 1 1)
      + coef_w wedgeSolver 1 1 * ((solveDirect (oracleLU (fun _ => 36 / 19)) wedgeSolver).2.P 1 0
        - (solveDirect (oracleLU (fun _ => 36 / 19)) wedgeSolver).2.P 1 1)
      + coef_n wedgeSolver 1 1 * ((solveDirect (oracleLU (fun _ => 36 / 19)) wedgeSolver).2.P 2 1
        - (solveDirect (oracleLU (fun _ => 36 / 19)) wedgeSolver).2.P 1 1)
      + coef_s wedgeSolver 1 1 * ((solveDirect (oracleLU (fun _ => 36 / 19)) wedgeSolver).2.P 0 1
        - (solveDirect (oracleLU (fun _ => 36 / 19)) wedgeSolver).2.P 1 1)
      ≠ 6 * wedgeSolver.velocity * wedgeSolver.viscosity *
          ((wedgeSolver.h 1 2 - wedgeSolver.h 1 0) / (2 * wedgeSolver.dx)) := by
  have hok : (solveDirect (oracleLU (fun _ => (36 / 19 : ℚ))) wedgeSolver).1 = true := by
    rw [solveDirect_true_iff]; exact ⟨rfl, rfl⟩
  refine ⟨wedgeSolver_sound, hok, ?_⟩
  have h := solveDirect_stencil _ wedgeSolver wedgeSolver_sound hok 1 1 (by decide) (by decide)
    (by decide) (by decide)
  obtain ⟨hn, hdx, hdy, hmu, hU, hP, hh⟩ := wedgeSolver_facts
  unfold stencil at h
  intro hc
  rw [h] at hc
  simp only [dhdx, hn, hdx, hmu, hU, hh] at hc
  norm_num at hc

/-- Claim C4, amended. After a successful `solveDirect()` (the library answer solving the
assembled system), at every interior node `(i, j)`, `1 ≤ i, j ≤ n-2`, the pressure field satisfies
the five-point equation with source term `-6 U mu dh/dx`:
`coef_e (P(i,j+1) - P(i,j)) + coef_w (P(i,j-1) - P(i,j)) + coef_n (P(i+1,j) - P(i,j))
 + coef_s (P(i-1,j) - P(i,j)) = -6 * velocity * viscosity * (h(i,j+1) - h(i,j-1)) / (2 dx)`,
where `coef_e`, `coef_w` are the means of `h^3 / (12 mu)` at the node and its east / west neighbour
divided by `dx^2`, and `coef_n`, `coef_s` likewise with `dy^2`. -/
theorem solveDirect_five_point (lu : SparseLU K) (s : SquareThinFilmFDM K)
    (hsound : lu.SolveSound (systemMatrix s) (assemble s).b)
    (hok : (solveDirect lu s).1 = true) (i j : Nat)
    (hi1 : 1 ≤ i) (hi2 : i ≤ s.n - 2) (hj1 : 1 ≤ j) (hj2 : j ≤ s.n - 2) :
    (coef_e s i j * ((solveDirect lu s).2.P i (j + 1) - (solveDirect lu s).2.P i j)
      + coef_w s i j * ((solveDirect lu s).2.P i (j - 1) - (solveDirect lu s).2.P i j)
      + coef_n s i j * ((solveDirect lu s).2.P (i + 1) j - (solveDirect lu s).2.P i j)
      + coef_s s i j * ((solveDirect lu s).2.P (i - 1) j - (solveDirect lu s).2.P i j)
      = -6 * s.velocity * s.viscosity * ((s.h i (j + 1) - s.h i (j - 1)) / (2 * s.dx))) ∧
    coef_e s i j
      = ((s.h i j ^ 3 / (12 * s.viscosity) + s.h i (j + 1) ^ 3 / (12 * s.viscosity)) / 2)
          / s.dx ^ 2 ∧
    coef_w s i j
      = ((s.h i j ^ 3 / (12 * s.viscosity) + s.h i (j - 1) ^ 3 / (12 * s.viscosity)) / 2)
          / s.dx ^ 2 ∧
    coef_n s i j
      = ((s.h i j ^ 3 / (12 * s.viscosity) + s.h (i + 1) j ^ 3 / (12 * s.viscosity)) / 2)
          / s.dy ^ 2 ∧
    coef_s s i j
      = ((s.h i j ^ 3 / (12 * s.viscosity) + s.h (i - 1) j ^ 3 / (12 * s.viscosity)) / 2)
          / s.dy ^ 2 := by
  have h := solveDirect_stencil lu s hsound hok i j hi1 hi2 hj1 hj2
  unfold stencil at h
  have hd : dhdx s i j = (s.h i (j + 1) - s.h i (j - 1)) / (2 * s.dx) := by
    unfold dhdx
    rw [if_pos (by omega)]
  rw [hd] at h
  refine ⟨h, ?_, ?_, ?_, ?_⟩
  · simp only [coef_e, h3_12mu]; ring
  · simp only [coef_w, h3_12mu]; ring
  · simp only [coef_n, h3_12mu]; ring
  · simp only [coef_s, h3_12mu]; ring

/-- Instance of claim C4 (amended) on `wedgeSolver`: the interior pressure `36/19` satisfies the
five-point equation with right-hand side `-6`. -/
theorem solveDirect_five_point_witness :
    (solveDirect (oracleLU (fun _ => 36 / 19)) wedgeSolver).1 = true ∧
    coef_e wedgeSolver 1 1 * ((solveDirect (oracleLU (fun _ => 36 / 19)) wedgeSolver).2.P 1 2
        - (solveDirect (oracleLU (fun _ => 36 / 19)) wedgeSolver).2.P 1 1)
      + coef_w wedgeSolver 1 1 * ((solveDirect (oracleLU (fun _ => 36 / 19)) wedgeSolver).2.P 1 0
        - (solveDirect (oracleLU (fun _ => 36 / 19)) wedgeSolver).2.P 1 1)
      + coef_n wedgeSolver 1 1 * ((solveDirect (oracleLU (fun _ => 36 / 19)) wedgeSolver).2.P 2 1
        - (solveDirect (oracleLU (fun _ => 36 / 19)) wedgeSolver).2.P 1 1)
      + coef_s wedgeSolver 1 1 * ((solveDirect (oracleLU (fun _ => 36 / 19)) wedgeSolver).2.P 0 1
        - (solveDirect (oracleLU (fun _ => 36 / 19)) wedgeSolver).2.P 1 1)
      = -6 * wedgeSolver.velocity * wedgeSolver.viscosity *
          ((wedgeSolver.h 1 2 - wedgeSolver.h 1 0) / (2 * wedgeSolver.dx)) := by
  have hok : (solveDirect (oracleLU (fun _ => (36 / 19 : ℚ))) wedgeSolver).1 = true := by
    rw [solveDirect_true_iff]; exact ⟨rfl, rfl⟩
  exact ⟨hok, (solveDirect_five_point _ wedgeSolver wedgeSolver_sound hok 1 1 (by decide)
    (by decide) (by decide) (by decide)).1⟩

/-! ### Uniform boundary, uniform film -/

/-- `solveDirect` changes nothing but the pressure field. -/
theorem solveDirect_frame (lu : SparseLU K) (s : SquareThinFilmFDM K) :
    (solveDirect lu s).2 = { s with P := (solveDirect lu s).2.P } := by
  by_cases hok : (solveDirect lu s).1 = true
  · obtain ⟨h1, h2⟩ := (solveDirect_true_iff lu s).mp hok
    rw [solveDirect_of_success lu s h1 h2]
  · have hf : solveDirect lu s = (false, s) := by
      apply solveDirect_of_failure
      by_contra hc
      rw [not_or, not_not, not_not] at hc
      exact hok ((solveDirect_true_iff lu s).mpr hc)
    rw [hf]

/-- With four equal edge pressures the whole border, corners included, holds that pressure. -/
theorem setEdgeBoundary_uniform (s : SquareThinFilmFDM K) (p0 : K) (i j : Nat)
    (hi : i < s.n) (hj : j < s.n) (hb : i = 0 ∨ i = s.n - 1 ∨ j = 0 ∨ j = s.n - 1) :
    (s.setEdgeBoundary p0 p0 p0 p0).P i j = p0 := by
  have h2 : (p0 + p0) / 2 = p0 := by ring
  rw [setEdgeBoundary_P_apply, h2]
  split_ifs <;> first | rfl | (exfalso; omega)

/-- The five-point operator annihilates a field that is constant on the grid. -/
theorem stencil_const (s : SquareThinFilmFDM K) (u : MatrixXd K) (p0 : K)
    (hu : ∀ a b, a < s.n → b < s.n → u a b = p0) (i j : Nat)
    (hi1 : 1 ≤ i) (hi2 : i ≤ s.n - 2) (hj1 : 1 ≤ j) (hj2 : j ≤ s.n - 2) :
    stencil s u i j = 0 := by
  unfold stencil
  rw [hu i j (by omega) (by omega), hu i (j + 1) (by omega) (by omega),
    hu i (j - 1) (by omega) (by omega), hu (i + 1) j (by omega) (by omega),
    hu (i - 1) j (by omega) (by omega)]
  ring

/-- The spacing `width / (n - 1)` is non-zero for a positive width and `n ≥ 2`. -/
theorem spacing_ne_zero (n : Nat) (w d : K) (hn : 2 ≤ n) (hw : 0 < w)
    (hd : d = w / ((n : K) - 1)) : d ≠ 0 := by
  have h2 : (2 : K) ≤ (n : K) := by exact_mod_cast hn
  have hpos : 0 < (n : K) - 1 := by linarith
  rw [hd]
  exact ne_of_gt (div_pos hw hpos)

/-- Uniform film, zero velocity, uniform border `p0`: the constant vector `p0` solves the
assembled system and the matrix is nonsingular. -/
theorem uniform_system (s1 : SquareThinFilmFDM K) (h0 p0 : K)
    (hn : 3 ≤ s1.n) (hmu : 0 < s1.viscosity) (hdx : s1.dx ≠ 0) (hdy : s1.dy ≠ 0)
    (hh0 : 0 < h0) (hconst : ∀ i j, i < s1.n → j < s1.n → s1.h i j = h0)
    (hU : s1.velocity = 0)
    (hbd : ∀ i j, i < s1.n → j < s1.n →
      (i = 0 ∨ i = s1.n - 1 ∨ j = 0 ∨ j = s1.n - 1) → s1.P i j = p0) :
    (systemMatrix s1).Solves (fun _ => p0) (assemble s1).b ∧ (systemMatrix s1).Nonsingular := by
  constructor
  · rw [solves_iff_stencil s1 (by omega)]
    intro i j hi1 hi2 hj1 hj2
    rw [stencil_const s1 _ p0 (scatter_const s1 p0 hbd _ (fun _ _ => rfl)) i j hi1 hi2 hj1 hj2,
      hU]
    ring
  · apply systemMatrix_nonsingular_of_pos s1 (by omega)
    intro i j hi1 hi2 hj1 hj2
    refine coef_pos s1 hmu hdx hdy ?_ i j hi1 hi2 hj1 hj2
    intro a b ha hb
    rw [hconst a b ha hb]
    exact hh0

/-- Claim C3. For every `n ≥ 3`, `width, height, viscosity > 0`, a film that is the constant
`h0 > 0` on the grid, velocity 0 and every `p0`: after `setEdgeBoundary(p0, p0, p0, p0)` the
constant vector `p0` solves the assembled system, every solution of the system is that vector
(uniqueness), and a successful `solveDirect` (library answer solving the system) leaves
`P(i, j) = p0` at every node, interior and border, so that `calculateTotalForce()` is
`p0 * width * height`. -/
theorem solveDirect_uniform (lu : SparseLU K) (s : SquareThinFilmFDM K) (h0 p0 : K)
    (hn : 3 ≤ s.n) (hw : 0 < s.width) (hh : 0 < s.height) (hmu : 0 < s.viscosity)
    (hdx : s.dx = s.width / ((s.n : K) - 1)) (hdy : s.dy = s.height / ((s.n : K) - 1))
    (hh0 : 0 < h0) (hconst : ∀ i j, i < s.n → j < s.n → s.h i j = h0)
    (hU : s.velocity = 0)
    (hsound : lu.SolveSound (systemMatrix (s.setEdgeBoundary p0 p0 p0 p0))
      (assemble (s.setEdgeBoundary p0 p0 p0 p0)).b) :
    (systemMatrix (s.setEdgeBoundary p0 p0 p0 p0)).Solves (fun _ => p0)
      (assemble (s.setEdgeBoundary p0 p0 p0 p0)).b ∧
    (∀ x : VectorXd K, (systemMatrix (s.setEdgeBoundary p0 p0 p0 p0)).Solves x
      (assemble (s.setEdgeBoundary p0 p0 p0 p0)).b →
      ∀ c, c < (s.n - 2) * (s.n - 2) → x c = p0) ∧
    ((solveDirect lu (s.setEdgeBoundary p0 p0 p0 p0)).1 = true →
      (∀ i j, i < s.n → j < s.n →
        (solveDirect lu (s.setEdgeBoundary p0 p0 p0 p0)).2.P i j = p0) ∧
      (solveDirect lu (s.setEdgeBoundary p0 p0 p0 p0)).2.calculateTotalForce
        = p0 * s.width * s.height) := by
  generalize hs1 : s.setEdgeBoundary p0 p0 p0 p0 = s1 at *
  have e_n : s1.n = s.n := by rw [← hs1]; rfl
  have e_h : s1.h = s.h := by rw [← hs1]; rfl
  have e_mu : s1.viscosity = s.viscosity := by rw [← hs1]; rfl
  have e_U : s1.velocity = s.velocity := by rw [← hs1]; rfl
  have e_dx : s1.dx = s.dx := by rw [← hs1]; rfl
  have e_dy : s1.dy = s.dy := by rw [← hs1]; rfl
  have e_w : s1.width = s.width := by rw [← hs1]; rfl
  have e_ht : s1.height = s.height := by rw [← hs1]; rfl
  have hbd : ∀ i j, i < s1.n → j < s1.n →
      (i = 0 ∨ i = s1.n - 1 ∨ j = 0 ∨ j = s1.n - 1) → s1.P i j = p0 := by
    intro i j hi hj hb
    rw [← hs1]
    rw [e_n] at hi hj hb
    exact setEdgeBoundary_uniform s p0 i j hi hj hb
  obtain ⟨hsol, hns⟩ := uniform_system s1 h0 p0 (by rw [e_n]; exact hn)
    (by rw [e_mu]; exact hmu)
    (by rw [e_dx]; exact spacing_ne_zero s.n s.width s.dx (by omega) hw hdx)
    (by rw [e_dy]; exact spacing_ne_zero s.n s.height s.dy (by omega) hh hdy)
    hh0 (by rw [e_n, e_h]; exact hconst) (by rw [e_U]; exact hU) hbd
  have huniq : ∀ x : VectorXd K, (systemMatrix s1).Solves x (assemble s1).b →
      ∀ c, c < (s.n - 2) * (s.n - 2) → x c = p0 := by
    intro x hx c hc
    refine hns.unique hx hsol c ?_
    rw [systemMatrix_cols s1 (by omega), e_n]; exact hc
  refine ⟨hsol, huniq, ?_⟩
  intro hok
  obtain ⟨h1, h2⟩ := (solveDirect_true_iff lu s1).mp hok
  have hP : ∀ i j, i < s.n → j < s.n → (solveDirect lu s1).2.P i j = p0 := by
    intro i j hi hj
    rw [solveDirect_P lu s1 hok]
    refine scatter_const s1 p0 hbd _ ?_ i j (by rw [e_n]; exact hi) (by rw [e_n]; exact hj)
    intro c hc
    rw [e_n] at hc
    exact huniq _ (hsound h1 h2) c hc
  refine ⟨hP, ?_⟩
  have hfr := solveDirect_frame lu s1
  have f_n : (solveDirect lu s1).2.n = s.n := by rw [hfr]; exact e_n
  have f_dx : (solveDirect lu s1).2.dx = s.dx := by rw [hfr]; exact e_dx
  have f_dy : (solveDirect lu s1).2.dy = s.dy := by rw [hfr]; exact e_dy
  have f_w : (solveDirect lu s1).2.width = s.width := by rw [hfr]; exact e_w
  have f_h : (solveDirect lu s1).2.height = s.height := by rw [hfr]; exact e_ht
  rw [calculateTotalForce_const (solveDirect lu s1).2 p0 (by rw [f_n]; omega)
    (by rw [f_dx, f_w, f_n]; exact hdx) (by rw [f_dy, f_h, f_n]; exact hdy)
    (by rw [f_n]; exact hP), f_w, f_h]

/-- The data of `scenarioSolver`. -/
theorem scenarioSolver_facts :
    scenarioSolver.n = 5 ∧ scenarioSolver.width = 1 ∧ scenarioSolver.height = 1 ∧
    scenarioSolver.dx = 1 / 4 ∧ scenarioSolver.dy = 1 / 4 ∧
    scenarioSolver.viscosity = 1 / 100 ∧ scenarioSolver.velocity = 0 ∧
    (∀ i j, i < 5 → j < 5 → scenarioSolver.h i j = 1 / 1000) := by
  refine ⟨rfl, rfl, rfl, ?_, ?_, rfl, rfl, ?_⟩
  · rw [scenarioSolver, construct_dx]; norm_num
  · rw [scenarioSolver, construct_dy]; norm_num
  · intro i j hi hj
    rw [scenarioSolver, construct_h_none, if_pos ⟨hi, hj⟩]

/-- Instance of claim C3, the end-to-end scenario of the specification: `n = 5`,
`width = height = 1`, film `0.001`, viscosity `0.01`, velocity 0, all four edges at 100. The library
answer `100` solves the system; `solveDirect` returns true, every node holds 100 and
`calculateTotalForce()` is 100. -/
theorem solveDirect_uniform_witness :
    (solveDirect (oracleLU (fun _ => 100)) (scenarioSolver.setEdgeBoundary 100 100 100 100)).1
      = true ∧
    (∀ i j, i < 5 → j < 5 →
      (solveDirect (oracleLU (fun _ => 100))
        (scenarioSolver.setEdgeBoundary 100 100 100 100)).2.P i j = 100) ∧
    (solveDirect (oracleLU (fun _ => 100))
      (scenarioSolver.setEdgeBoundary 100 100 100 100)).2.calculateTotalForce = 100 := by
  obtain ⟨hn, hw, hh, hdx, hdy, hmu, hU, hfilm⟩ := scenarioSolver_facts
  have hok : (solveDirect (oracleLU (fun _ => (100 : ℚ)))
      (scenarioSolver.setEdgeBoundary 100 100 100 100)).1 = true := by
    rw [solveDirect_true_iff]; exact ⟨rfl, rfl⟩
  have hsound : (oracleLU (fun _ => (100 : ℚ))).SolveSound
      (systemMatrix (scenarioSolver.setEdgeBoundary 100 100 100 100))
      (assemble (scenarioSolver.setEdgeBoundary 100 100 100 100)).b := by
    intro _ _
    exact (uniform_system (scenarioSolver.setEdgeBoundary 100 100 100 100) (1 / 1000) 100
      (by decide) (by show 0 < scenarioSolver.viscosity; rw [hmu]; norm_num)
      (by show scenarioSolver.dx ≠ 0; rw [hdx]; norm_num)
      (by show scenarioSolver.dy ≠ 0; rw [hdy]; norm_num)
      (by norm_num) hfilm hU
      (fun i j hi hj hb => setEdgeBoundary_uniform scenarioSolver 100 i j hi hj hb)).1
  have h := solveDirect_uniform (oracleLU (fun _ => 100)) scenarioSolver (1 / 1000) 100
    (by decide) (by rw [hw]; norm_num) (by rw [hh]; norm_num) (by rw [hmu]; norm_num)
    (by rw [hdx, hw, hn]; norm_num) (by rw [hdy, hh, hn]; norm_num) (by norm_num)
    (by rw [hn]; exact hfilm) hU hsound
  obtain ⟨hP, hF⟩ := h.2.2 hok
  refine ⟨hok, hP, ?_⟩
  rw [hF, hw, hh]
  norm_num

/-! ### The asymmetric boundary scenario -/

/-- With a positive film on the grid, positive viscosity and non-zero spacings the assembled
matrix is nonsingular. -/
theorem systemMatrix_nonsingular (s : SquareThinFilmFDM K) (hn : 2 ≤ s.n)
    (hmu : 0 < s.viscosity)
    (hdx : s.dx ≠ 0) (hdy : s.dy ≠ 0) (hfilm : ∀ i j, i < s.n → j < s.n → 0 < s.h i j) :
    (systemMatrix s).Nonsingular :=
  systemMatrix_nonsingular_of_pos s hn (fun i j hi1 hi2 hj1 hj2 =>
    coef_pos s hmu hdx hdy hfilm i j hi1 hi2 hj1 hj2)

/-- The film of `scenarioSolver`, at every index. -/
theorem scenarioSolver_h (i j : Nat) :
    scenarioSolver.h i j = if i < 5 ∧ j < 5 then 1 / 1000 else 0 := rfl

/-- The vector `scenarioAnswer` solves the system assembled for `bottom = 200`, other edges 0. -/
theorem scenario200_solves :
    (systemMatrix (scenarioSolver.setEdgeBoundary 200 0 0 0)).Solves scenarioAnswer
      (assemble (scenarioSolver.setEdgeBoundary 200 0 0 0)).b := by
  obtain ⟨hn, hw, hh, hdx, hdy, hmu, hU, -⟩ := scenarioSolver_facts
  have e_n : (scenarioSolver.setEdgeBoundary 200 0 0 0).n = 5 := rfl
  have e_h : (scenarioSolver.setEdgeBoundary 200 0 0 0).h = scenarioSolver.h := rfl
  have e_mu : (scenarioSolver.setEdgeBoundary 200 0 0 0).viscosity = 1 / 100 := rfl
  have e_U : (scenarioSolver.setEdgeBoundary 200 0 0 0).velocity = 0 := rfl
  have e_dx : (scenarioSolver.setEdgeBoundary 200 0 0 0).dx = 1 / 4 := hdx
  have e_dy : (scenarioSolver.setEdgeBoundary 200 0 0 0).dy = 1 / 4 := hdy
  rw [solves_iff_stencil _ (by rw [e_n]; decide)]
  intro i j hi1 hi2 hj1 hj2
  rw [e_n] at hi2 hj2
  have hi : i ≤ 3 := hi2
  have hj : j ≤ 3 := hj2
  interval_cases i <;> interval_cases j <;>
    simp only [stencil, scatter_apply, setEdgeBoundary_P_apply, coef_e, coef_w, coef_n, coef_s,
      h3_12mu, e_n, e_h, e_mu, e_U, e_dx, e_dy, hn, scenarioSolver_h, scenarioAnswer] <;>
    norm_num

/-- The matrix assembled for `scenarioSolver` (any pressure field) is nonsingular. -/
theorem scenario200_nonsingular :
    (systemMatrix (scenarioSolver.setEdgeBoundary 200 0 0 0)).Nonsingular := by
  obtain ⟨hn, hw, hh, hdx, hdy, hmu, hU, hfilm⟩ := scenarioSolver_facts
  refine systemMatrix_nonsingular _ (by decide) ?_ ?_ ?_ ?_
  · show 0 < scenarioSolver.viscosity; rw [hmu]; norm_num
  · show scenarioSolver.dx ≠ 0; rw [hdx]; norm_num
  · show scenarioSolver.dy ≠ 0; rw [hdy]; norm_num
  · intro i j hi hj
    show 0 < scenarioSolver.h i j
    rw [hfilm i j hi hj]; norm_num

/-- Claim C10. For `n = 5`, `width = height = 1`, film `0.001`, viscosity `0.01`, velocity 0 and
`setEdgeBoundary(bottom = 200, right = 0, top = 0, left = 0)`: the assembled system has a solution
and only one, so a library that is sound and complete on this system makes `solveDirect` return
true; every interior pressure `P(i, j)`, `1 ≤ i, j ≤ 3`, satisfies `0 < P(i, j) < 200`, and in
every interior column `j` the values strictly decrease away from the bottom edge:
`P(1, j) > P(2, j) > P(3, j)`. -/
theorem solveDirect_bottom_200 (lu : SparseLU ℚ)
    (hsound : lu.SolveSound (systemMatrix (scenarioSolver.setEdgeBoundary 200 0 0 0))
      (assemble (scenarioSolver.setEdgeBoundary 200 0 0 0)).b)
    (hcomplete : lu.Complete (systemMatrix (scenarioSolver.setEdgeBoundary 200 0 0 0))
      (assemble (scenarioSolver.setEdgeBoundary 200 0 0 0)).b) :
    (∃ x, (systemMatrix (scenarioSolver.setEdgeBoundary 200 0 0 0)).Solves x
      (assemble (scenarioSolver.setEdgeBoundary 200 0 0 0)).b) ∧
    (systemMatrix (scenarioSolver.setEdgeBoundary 200 0 0 0)).Nonsingular ∧
    (solveDirect lu (scenarioSolver.setEdgeBoundary 200 0 0 0)).1 = true ∧
    (∀ i j, 1 ≤ i → i ≤ 3 → 1 ≤ j → j ≤ 3 →
      0 < (solveDirect lu (scenarioSolver.setEdgeBoundary 200 0 0 0)).2.P i j ∧
      (solveDirect lu (scenarioSolver.setEdgeBoundary 200 0 0 0)).2.P i j < 200) ∧
    (∀ j, 1 ≤ j → j ≤ 3 →
      (solveDirect lu (scenarioSolver.setEdgeBoundary 200 0 0 0)).2.P 1 j >
        (solveDirect lu (scenarioSolver.setEdgeBoundary 200 0 0 0)).2.P 2 j ∧
      (solveDirect lu (scenarioSolver.setEdgeBoundary 200 0 0 0)).2.P 2 j >
        (solveDirect lu (scenarioSolver.setEdgeBoundary 200 0 0 0)).2.P 3 j) := by
  obtain ⟨h1, h2⟩ := hcomplete scenario200_nonsingular
  have hok : (solveDirect lu (scenarioSolver.setEdgeBoundary 200 0 0 0)).1 = true :=
    (solveDirect_true_iff lu _).mpr ⟨h1, h2⟩
  have hx := scenario200_nonsingular.unique (hsound h1 h2) scenario200_solves
  have hP : ∀ i j, 1 ≤ i → i ≤ 3 → 1 ≤ j → j ≤ 3 →
      (solveDirect lu (scenarioSolver.setEdgeBoundary 200 0 0 0)).2.P i j =
        scenarioAnswer ((i - 1) * 3 + (j - 1)) := by
    intro i j hi1 hi2 hj1 hj2
    have e_n : (scenarioSolver.setEdgeBoundary 200 0 0 0).n = 5 := rfl
    rw [solveDirect_P lu _ hok, scatter_apply, e_n, if_pos ⟨hi1, hi2, hj1, hj2⟩]
    apply hx
    rw [systemMatrix_cols _ (by decide), e_n]
    omega
  refine ⟨⟨scenarioAnswer, scenario200_solves⟩, scenario200_nonsingular, hok, ?_, ?_⟩
  · intro i j hi1 hi2 hj1 hj2
    rw [hP i j hi1 hi2 hj1 hj2]
    interval_cases i <;> interval_cases j <;> norm_num [scenarioAnswer]
  · intro j hj1 hj2
    rw [hP 1 j le_rfl (by decide) hj1 hj2, hP 2 j (by decide) (by decide) hj1 hj2,
      hP 3 j (by decide) le_rfl hj1 hj2]
    interval_cases j <;> norm_num [scenarioAnswer]

/-- Instance of claim C10 with the library run that answers `scenarioAnswer`: the call succeeds
and the pressures of the middle column are `1475/14 > 50 > 275/14`. -/
theorem solveDirect_bottom_200_witness :
    (solveDirect (oracleLU scenarioAnswer) (scenarioSolver.setEdgeBoundary 200 0 0 0)).1 = true ∧
    (solveDirect (oracleLU scenarioAnswer) (scenarioSolver.setEdgeBoundary 200 0 0 0)).2.P 1 2 >
      (solveDirect (oracleLU scenarioAnswer) (scenarioSolver.setEdgeBoundary 200 0 0 0)).2.P 2 2 ∧
    (solveDirect (oracleLU scenarioAnswer) (scenarioSolver.setEdgeBoundary 200 0 0 0)).2.P 2 2 >
      (solveDirect (oracleLU scenarioAnswer) (scenarioSolver.setEdgeBoundary 200 0 0 0)).2.P 3 2 := by
  have h := solveDirect_bottom_200 (oracleLU scenarioAnswer) (fun _ _ => scenario200_solves)
    (fun _ => ⟨rfl, rfl⟩)
  exact ⟨h.2.2.1, h.2.2.2.2 2 (by decide) (by decide)⟩

/-! ### Rotation by 90 degrees -/

/-- Row and column of the interior block recovered from the row-major index. -/
theorem idx_div_mod (m a q : Nat) (hq : q < m) :
    (a * m + q) / m = a ∧ (a * m + q) % m = q := by
  obtain ⟨h1, h2⟩ := div_mod_of_row m a (a * m + q) (by omega) (by omega)
  exact ⟨h1, by omega⟩

/-- The five-point operator commutes with the rotation `(i, j) ↦ (j, n-1-i)` when `dx = dy` and
the film is invariant under that rotation. -/
theorem stencil_rot (s : SquareThinFilmFDM K) (hd : s.dx = s.dy)
    (hrot : ∀ i j, i < s.n → j < s.n → s.h i j = s.h j (s.n - 1 - i))
    (u v : MatrixXd K) (hv : ∀ a b, a < s.n → b < s.n → v a b = u b (s.n - 1 - a))
    (i j : Nat) (hi1 : 1 ≤ i) (hi2 : i ≤ s.n - 2) (hj1 : 1 ≤ j) (hj2 : j ≤ s.n - 2) :
    stencil s v i j = stencil s u j (s.n - 1 - i) := by
  have k1 : s.n - 1 - (i + 1) = s.n - 1 - i - 1 := by omega
  have k2 : s.n - 1 - (i - 1) = s.n - 1 - i + 1 := by omega
  have v0 := hv i j (by omega) (by omega)
  have vE := hv i (j + 1) (by omega) (by omega)
  have vW := hv i (j - 1) (by omega) (by omega)
  have vN := hv (i + 1) j (by omega) (by omega)
  have vS := hv (i - 1) j (by omega) (by omega)
  have h0 := hrot i j (by omega) (by omega)
  have hE := hrot i (j + 1) (by omega) (by omega)
  have hW := hrot i (j - 1) (by omega) (by omega)
  have hN := hrot (i + 1) j (by omega) (by omega)
  have hS := hrot (i - 1) j (by omega) (by omega)
  rw [k1] at vN hN
  rw [k2] at vS hS
  simp only [stencil, coef_e, coef_w, coef_n, coef_s, h3_12mu, v0, vE, vW, vN, vS, h0, hE, hW,
    hN, hS, hd]
  ring

/-- The rotated copy of a solution of the assembled system is again a solution, when the border
is uniform, the film is rotation invariant, `dx = dy` and the source term is rotation invariant. -/
theorem rotated_solves (s : SquareThinFilmFDM K) (p : K) (hd : s.dx = s.dy)
    (hrot : ∀ i j, i < s.n → j < s.n → s.h i j = s.h j (s.n - 1 - i))
    (hsrc : ∀ i j, 1 ≤ i → i ≤ s.n - 2 → 1 ≤ j → j ≤ s.n - 2 →
      s.velocity * s.viscosity * dhdx s i j =
        s.velocity * s.viscosity * dhdx s j (s.n - 1 - i))
    (hbd : ∀ i j, i < s.n → j < s.n → (i = 0 ∨ i = s.n - 1 ∨ j = 0 ∨ j = s.n - 1) → s.P i j = p)
    (hn : 2 ≤ s.n) (x : VectorXd K) (hx : (systemMatrix s).Solves x (assemble s).b) :
    (systemMatrix s).Solves
      (fun c => (scatter s x).2 (c % (s.n - 2) + 1) (s.n - 1 - (c / (s.n - 2) + 1)))
      (assemble s).b := by
  rw [solves_iff_stencil s hn] at hx ⊢
  intro i j hi1 hi2 hj1 hj2
  have hv : ∀ a b, a < s.n → b < s.n →
      (scatter s (fun c =>
        (scatter s x).2 (c % (s.n - 2) + 1) (s.n - 1 - (c / (s.n - 2) + 1)))).2 a b =
        (scatter s x).2 b (s.n - 1 - a) := by
    intro a b ha hb
    rw [scatter_apply]
    by_cases hin : 1 ≤ a ∧ a ≤ s.n - 2 ∧ 1 ≤ b ∧ b ≤ s.n - 2
    · rw [if_pos hin]
      obtain ⟨hd', hm'⟩ := idx_div_mod (s.n - 2) (a - 1) (b - 1) (by omega)
      simp only [hd', hm']
      rw [Nat.sub_add_cancel hin.2.2.1, Nat.sub_add_cancel hin.1]
    · rw [if_neg hin, scatter_apply, if_neg (by omega), hbd a b ha hb (by omega),
        hbd b (s.n - 1 - a) hb (by omega) (by omega)]
  rw [stencil_rot s hd hrot _ _ hv i j hi1 hi2 hj1 hj2,
    hx j (s.n - 1 - i) hj1 hj2 (by omega) (by omega)]
  have := hsrc i j hi1 hi2 hj1 hj2
  linear_combination 6 * this

/-- Rotation invariance of the solved interior, from uniqueness of the solution. -/
theorem solveDirect_rot (lu : SparseLU K) (s : SquareThinFilmFDM K) (p : K) (hd : s.dx = s.dy)
    (hrot : ∀ i j, i < s.n → j < s.n → s.h i j = s.h j (s.n - 1 - i))
    (hsrc : ∀ i j, 1 ≤ i → i ≤ s.n - 2 → 1 ≤ j → j ≤ s.n - 2 →
      s.velocity * s.viscosity * dhdx s i j =
        s.velocity * s.viscosity * dhdx s j (s.n - 1 - i))
    (hbd : ∀ i j, i < s.n → j < s.n → (i = 0 ∨ i = s.n - 1 ∨ j = 0 ∨ j = s.n - 1) → s.P i j = p)
    (hcs : lu.ComputeSound (systemMatrix s))
    (hss : lu.SolveSound (systemMatrix s) (assemble s).b)
    (hok : (solveDirect lu s).1 = true)
    (i j : Nat) (hi1 : 1 ≤ i) (hi2 : i ≤ s.n - 2) (hj1 : 1 ≤ j) (hj2 : j ≤ s.n - 2) :
    (solveDirect lu s).2.P i j = (solveDirect lu s).2.P j (s.n - 1 - i) := by
  obtain ⟨h1, h2⟩ := (solveDirect_true_iff lu s).mp hok
  have hx := hss h1 h2
  have hx' := rotated_solves s p hd hrot hsrc hbd (by omega) _ hx
  have hidx : (i - 1) * (s.n - 2) + (j - 1) < (systemMatrix s).cols := by
    have := (idx_bounds (s.n - 2) (i - 1) (by omega)).1
    rw [systemMatrix_cols s (by omega)]
    omega
  have heq := (hcs h1).unique hx hx' _ hidx
  obtain ⟨hd', hm'⟩ := idx_div_mod (s.n - 2) (i - 1) (j - 1) (by omega)
  simp only [hd', hm'] at heq
  rw [solveDirect_P lu s hok]
  have hl : (scatter s (lu.solve (systemMatrix s) (assemble s).b)).2 i j =
      lu.solve (systemMatrix s) (assemble s).b ((i - 1) * (s.n - 2) + (j - 1)) := by
    rw [scatter_apply, if_pos ⟨hi1, hi2, hj1, hj2⟩]
  rw [hl, heq, Nat.sub_add_cancel hj1, Nat.sub_add_cancel hi1]

/-- The data of `bumpSolver`. -/
theorem bumpSolver_facts :
    bumpSolver.n = 5 ∧ bumpSolver.width = 4 ∧ bumpSolver.height = 4 ∧
    bumpSolver.dx = 1 ∧ bumpSolver.dy = 1 ∧
    bumpSolver.viscosity = 1 / 12 ∧ bumpSolver.velocity = 1 ∧
    (∀ i j, bumpSolver.P i j = 0) ∧
    (∀ i j, bumpSolver.h i j = if i < 5 ∧ j < 5 then (if j = 2 ∧ i = 2 then 2 else 1) else 0) := by
  refine ⟨rfl, rfl, rfl, ?_, ?_, rfl, rfl, ?_, ?_⟩
  · show (construct 5 4 4 (some (fun x y => if x = 2 ∧ y = 2 then 2 else 1)) (1 / 12)
      (1 : ℚ)).dx = 1
    rw [construct_dx]; norm_num
  · show (construct 5 4 4 (some (fun x y => if x = 2 ∧ y = 2 then 2 else 1)) (1 / 12)
      (1 : ℚ)).dy = 1
    rw [construct_dy]; norm_num
  · intro i j
    rw [bumpSolver, setEdgeBoundary_P_apply, construct_P]
    split_ifs <;> norm_num
  · intro i j
    show (construct 5 4 4 (some (fun x y => if x = 2 ∧ y = 2 then 2 else 1)) (1 / 12)
      (1 : ℚ)).h i j = _
    rw [construct_h_some]
    have e : ∀ k : Nat, (LinSpaced 5 0 (4 : ℚ) k = 2) ↔ k = 2 := by
      intro k
      simp only [LinSpaced]
      constructor
      · intro h
        have hk : (k : ℚ) = 2 := by
          norm_num at h
          exact h
        exact_mod_cast hk
      · intro h
        subst h
        norm_num
    simp only [e]

/-- The vector `bumpAnswer` solves the system assembled for `bumpSolver`. -/
theorem bumpSolver_solves :
    (systemMatrix bumpSolver).Solves bumpAnswer (assemble bumpSolver).b := by
  obtain ⟨hn, hw, hh, hdx, hdy, hmu, hU, hP, hfilm⟩ := bumpSolver_facts
  rw [solves_iff_stencil _ (by rw [hn]; decide)]
  intro i j hi1 hi2 hj1 hj2
  rw [hn] at hi2 hj2
  have hi : i ≤ 3 := hi2
  have hj : j ≤ 3 := hj2
  interval_cases i <;> interval_cases j <;>
    simp only [stencil, scatter_apply, coef_e, coef_w, coef_n, coef_s, h3_12mu, dhdx, hn, hdx,
      hdy, hmu, hU, hP, hfilm, bumpAnswer] <;>
    norm_num

/-- The matrix assembled for `bumpSolver` is nonsingular. -/
theorem bumpSolver_nonsingular : (systemMatrix bumpSolver).Nonsingular := by
  obtain ⟨hn, hw, hh, hdx, hdy, hmu, hU, hP, hfilm⟩ := bumpSolver_facts
  refine systemMatrix_nonsingular _ (by rw [hn]; decide) ?_ ?_ ?_ ?_
  · rw [hmu]; norm_num
  · rw [hdx]; norm_num
  · rw [hdy]; norm_num
  · intro i j hi hj
    rw [hn] at hi hj
    rw [hfilm, if_pos ⟨hi, hj⟩]
    split_ifs <;> norm_num

/-- Claim C5, counterexample. `bumpSolver` is a square domain (`width = height = 4`) with `n = 5`
odd, a film invariant under the rotation `(i, j) ↦ (j, n-1-i)`, all four edges at pressure 0 and
velocity 1. A sound library run succeeds, and the solved interior is not rotation invariant:
`P(2, 1) = 1/28` while the rotated node `(1, 2)` holds `0`. -/
theorem solveDirect_rotation_fails :
    bumpSolver.width = bumpSolver.height ∧ Odd bumpSolver.n ∧
    (∀ i j, i < bumpSolver.n → j < bumpSolver.n →
      bumpSolver.h i j = bumpSolver.h j (bumpSolver.n - 1 - i)) ∧
    (oracleLU bumpAnswer).ComputeSound (systemMatrix bumpSolver) ∧
    (oracleLU bumpAnswer).SolveSound (systemMatrix bumpSolver) (assemble bumpSolver).b ∧
    (solveDirect (oracleLU bumpAnswer) bumpSolver).1 = true ∧
    (solveDirect (oracleLU bumpAnswer) bumpSolver).2.P 2 1 ≠
      (solveDirect (oracleLU bumpAnswer) bumpSolver).2.P 1 (bumpSolver.n - 1 - 2) := by
  obtain ⟨hn, hw, hh, hdx, hdy, hmu, hU, hP, hfilm⟩ := bumpSolver_facts
  have hok : (solveDirect (oracleLU bumpAnswer) bumpSolver).1 = true := by
    rw [solveDirect_true_iff]; exact ⟨rfl, rfl⟩
  refine ⟨by rw [hw, hh], ⟨2, hn⟩, ?_, fun _ => bumpSolver_nonsingular,
    fun _ _ => bumpSolver_solves, hok, ?_⟩
  · intro i j hi hj
    rw [hn] at hi hj
    rw [hfilm, hfilm, hn]
    interval_cases i <;> interval_cases j <;> norm_num
  · rw [solveDirect_P _ _ hok, scatter_apply, scatter_apply, hn]
    show (if 1 ≤ 2 ∧ 2 ≤ 5 - 2 ∧ 1 ≤ 1 ∧ 1 ≤ 5 - 2 then bumpAnswer ((2 - 1) * (5 - 2) + (1 - 1))
      else bumpSolver.P 2 1) ≠
      (if 1 ≤ 1 ∧ 1 ≤ 5 - 2 ∧ 1 ≤ 5 - 1 - 2 ∧ 5 - 1 - 2 ≤ 5 - 2
        then bumpAnswer ((1 - 1) * (5 - 2) + (5 - 1 - 2 - 1)) else bumpSolver.P 1 (5 - 1 - 2))
    norm_num [bumpAnswer]

/-- Claim C5, amended. For a square domain (`width = height`, hence `dx = dy`), a film invariant
under the rotation `(i, j) ↦ (j, n-1-i)`, equal pressures `p` on all four edges, and a source
term that is itself rotation invariant at the interior nodes
(`velocity * viscosity * dhdx(i,j) = velocity * viscosity * dhdx(j, n-1-i)`, e.g. velocity 0): the
interior pressure field of a successful `solveDirect()` is invariant under the rotation,
`P(i, j) = P(j, n-1-i)`. The library is assumed to factorize only nonsingular matrices and to
return a solution of the system. -/
theorem solveDirect_rotation_invariant (lu : SparseLU K) (s : SquareThinFilmFDM K) (p : K)
    (hwh : s.width = s.height)
    (hdx : s.dx = s.width / ((s.n : K) - 1)) (hdy : s.dy = s.height / ((s.n : K) - 1))
    (hrot : ∀ i j, i < s.n → j < s.n → s.h i j = s.h j (s.n - 1 - i))
    (hsrc : ∀ i j, 1 ≤ i → i ≤ s.n - 2 → 1 ≤ j → j ≤ s.n - 2 →
      s.velocity * s.viscosity * dhdx s i j =
        s.velocity * s.viscosity * dhdx s j (s.n - 1 - i))
    (hcs : lu.ComputeSound (systemMatrix (s.setEdgeBoundary p p p p)))
    (hss : lu.SolveSound (systemMatrix (s.setEdgeBoundary p p p p))
      (assemble (s.setEdgeBoundary p p p p)).b)
    (hok : (solveDirect lu (s.setEdgeBoundary p p p p)).1 = true)
    (i j : Nat) (hi1 : 1 ≤ i) (hi2 : i ≤ s.n - 2) (hj1 : 1 ≤ j) (hj2 : j ≤ s.n - 2) :
    (solveDirect lu (s.setEdgeBoundary p p p p)).2.P i j =
      (solveDirect lu (s.setEdgeBoundary p p p p)).2.P j (s.n - 1 - i) :=
  solveDirect_rot lu (s.setEdgeBoundary p p p p) p
    (by show s.dx = s.dy; rw [hdx, hdy, hwh]) hrot hsrc
    (fun a b ha hb hab => setEdgeBoundary_uniform s p a b ha hb hab) hcs hss hok i j hi1 hi2
    hj1 hj2

/-- Instance of claim C5 (amended): `scenarioSolver` (uniform film, velocity 0) with all edges at
100 and the library answer `100`; `P(1, 2) = P(2, 3)`. -/
theorem solveDirect_rotation_invariant_witness :
    (solveDirect (oracleLU (fun _ => 100)) (scenarioSolver.setEdgeBoundary 100 100 100 100)).1
      = true ∧
    (solveDirect (oracleLU (fun _ => 100)) (scenarioSolver.setEdgeBoundary 100 100 100 100)).2.P
        1 2 =
      (solveDirect (oracleLU (fun _ => 100)) (scenarioSolver.setEdgeBoundary 100 100 100 100)).2.P
        2 (scenarioSolver.n - 1 - 1) := by
  obtain ⟨hn, hw, hh, hdx, hdy, hmu, hU, hfilm⟩ := scenarioSolver_facts
  have hok : (solveDirect (oracleLU (fun _ => (100 : ℚ)))
      (scenarioSolver.setEdgeBoundary 100 100 100 100)).1 = true := by
    rw [solveDirect_true_iff]; exact ⟨rfl, rfl⟩
  have hsys := uniform_system (scenarioSolver.setEdgeBoundary 100 100 100 100) (1 / 1000) 100
    (by decide) (by show 0 < scenarioSolver.viscosity; rw [hmu]; norm_num)
    (by show scenarioSolver.dx ≠ 0; rw [hdx]; norm_num)
    (by show scenarioSolver.dy ≠ 0; rw [hdy]; norm_num)
    (by norm_num) hfilm hU
    (fun i j hi hj hb => setEdgeBoundary_uniform scenarioSolver 100 i j hi hj hb)
  refine ⟨hok, solveDirect_rotation_invariant (oracleLU (fun _ => 100)) scenarioSolver 100
    (by rw [hw, hh]) (by rw [hdx, hw, hn]; norm_num) (by rw [hdy, hh, hn]; norm_num)
    ?_ ?_ (fun _ => hsys.2) (fun _ _ => hsys.1) hok 1 2 (by decide) (by decide) (by decide)
    (by decide)⟩
  · intro i j hi hj
    rw [hn] at hi hj
    rw [hfilm i j hi hj, hfilm j (scenarioSolver.n - 1 - i) hj (by rw [hn]; omega)]
  · intro i j _ _ _ _
    rw [hU]; ring

/-! ### What the assembled system reads -/

/-- The right-hand side as a function of the row-major index. -/
theorem assemble_b_fun (s : SquareThinFilmFDM K) :
    (assemble s).b = fun r =>
      if r < (s.n - 2) * (s.n - 2) then nodeRhs s (r / (s.n - 2) + 1) (r % (s.n - 2) + 1)
      else 0 := by
  simp only [assemble, assemble_rows]

theorem flatMap_range_congr {β : Type} (m : Nat) (f g : Nat → List β)
    (h : ∀ a, a < m → f a = g a) : (List.range m).flatMap f = (List.range m).flatMap g := by
  rw [List.flatMap_def, List.flatMap_def]
  congr 1
  exact List.map_congr_left (fun a ha => h a (List.mem_range.mp ha))

/-- The face coefficients of an interior node read `h` at the node and its four neighbours only. -/
theorem coef_congr (s s' : SquareThinFilmFDM K) (hn : s.n = s'.n)
    (hmu : s.viscosity = s'.viscosity) (hdx : s.dx = s'.dx) (hdy : s.dy = s'.dy)
    (hh : ∀ i j, i < s.n → j < s.n → s.h i j = s'.h i j) (i j : Nat)
    (hi1 : 1 ≤ i) (hi2 : i ≤ s.n - 2) (hj1 : 1 ≤ j) (hj2 : j ≤ s.n - 2) :
    coef_e s i j = coef_e s' i j ∧ coef_w s i j = coef_w s' i j ∧
      coef_n s i j = coef_n s' i j ∧ coef_s s i j = coef_s s' i j := by
  have h0 := hh i j (by omega) (by omega)
  have hE := hh i (j + 1) (by omega) (by omega)
  have hW := hh i (j - 1) (by omega) (by omega)
  have hN := hh (i + 1) j (by omega) (by omega)
  have hS := hh (i - 1) j (by omega) (by omega)
  simp only [coef_e, coef_w, coef_n, coef_s, h3_12mu, h0, hE, hW, hN, hS, hmu, hdx, hdy,
    and_self]

/-- The source term of an interior node reads `h` at its east and west neighbours only. -/
theorem dhdx_congr (s s' : SquareThinFilmFDM K) (hn : s.n = s'.n) (hdx : s.dx = s'.dx)
    (hh : ∀ i j, i < s.n → j < s.n → s.h i j = s'.h i j) (i j : Nat)
    (hi2 : i ≤ s.n - 2) (hj1 : 1 ≤ j) (hj2 : j ≤ s.n - 2) :
    dhdx s i j = dhdx s' i j := by
  unfold dhdx
  rw [if_pos (by omega), if_pos (by omega), hh i (j + 1) (by omega) (by omega),
    hh i (j - 1) (by omega) (by omega), hdx]

/-- Two states with the same grid, the same parameters, the same film on the grid and the same
pressures at the non-corner border nodes assemble the same matrix and the same right-hand side. -/
theorem assemble_congr (s s' : SquareThinFilmFDM K) (hn : s.n = s'.n)
    (hmu : s.viscosity = s'.viscosity) (hU : s.velocity = s'.velocity)
    (hdx : s.dx = s'.dx) (hdy : s.dy = s'.dy)
    (hh : ∀ i j, i < s.n → j < s.n → s.h i j = s'.h i j)
    (hP : ∀ k, 1 ≤ k → k ≤ s.n - 2 →
      s.P k 0 = s'.P k 0 ∧ s.P k (s.n - 1) = s'.P k (s.n - 1) ∧
      s.P 0 k = s'.P 0 k ∧ s.P (s.n - 1) k = s'.P (s.n - 1) k) :
    systemMatrix s = systemMatrix s' ∧ (assemble s).b = (assemble s').b := by
  constructor
  · have ht : (assemble s).triplets = (assemble s').triplets := by
      rw [assemble_triplets, assemble_triplets, ← hn]
      refine flatMap_range_congr _ _ _ (fun a ha => flatMap_range_congr _ _ _ (fun q hq => ?_))
      obtain ⟨e1, e2, e3, e4⟩ := coef_congr s s' hn hmu hdx hdy hh (a + 1) (q + 1) (by omega)
        (by omega) (by omega) (by omega)
      simp only [nodeTriplets, e1, e2, e3, e4, hn]
    simp only [systemMatrix, n_unknowns, ht, hn]
  · rw [assemble_b_fun, assemble_b_fun, ← hn]
    funext r
    by_cases hr : r < (s.n - 2) * (s.n - 2)
    · rw [if_pos hr, if_pos hr]
      have hm : 0 < s.n - 2 := by
        rcases Nat.eq_zero_or_pos (s.n - 2) with h0 | h0
        · rw [h0] at hr; simp at hr
        · exact h0
      have ha : r / (s.n - 2) < s.n - 2 := Nat.div_lt_of_lt_mul hr
      have hq : r % (s.n - 2) < s.n - 2 := Nat.mod_lt _ hm
      generalize r / (s.n - 2) = a at ha
      generalize r % (s.n - 2) = q at hq
      obtain ⟨e1, e2, e3, e4⟩ := coef_congr s s' hn hmu hdx hdy hh (a + 1) (q + 1) (by omega)
        (by omega) (by omega) (by omega)
      have ed := dhdx_congr s s' hn hdx hh (a + 1) (q + 1) (by omega) (by omega) (by omega)
      obtain ⟨p1, p2, -, -⟩ := hP (a + 1) (by omega) (by omega)
      obtain ⟨-, -, p3, p4⟩ := hP (q + 1) (by omega) (by omega)
      simp only [nodeRhs, e1, e2, e3, e4, ed, p1, p2, p3, p4, hU, hmu, ← hn]
    · rw [if_neg hr, if_neg hr]

/-- The total force reads the pressure field on the grid only. -/
theorem calculateTotalForce_congr (s s' : SquareThinFilmFDM K) (hn : s.n = s'.n)
    (hdx : s.dx = s'.dx) (hdy : s.dy = s'.dy)
    (hP : ∀ i j, i < s.n → j < s.n → s.P i j = s'.P i j) :
    s.calculateTotalForce = s'.calculateTotalForce := by
  rw [calculateTotalForce_eq_sum, calculateTotalForce_eq_sum, ← hn, ← hdx, ← hdy]
  refine Finset.sum_congr rfl (fun i hi => Finset.sum_congr rfl (fun j hj => ?_))
  rw [hP i j (Finset.mem_range.mp hi) (Finset.mem_range.mp hj)]

/-- The fields of the state after `solveDirect`, other than `P`. -/
theorem solveDirect_fields (lu : SparseLU K) (s : SquareThinFilmFDM K) :
    (solveDirect lu s).2.n = s.n ∧ (solveDirect lu s).2.h = s.h ∧
    (solveDirect lu s).2.viscosity = s.viscosity ∧ (solveDirect lu s).2.velocity = s.velocity ∧
    (solveDirect lu s).2.dx = s.dx ∧ (solveDirect lu s).2.dy = s.dy ∧
    (solveDirect lu s).2.width = s.width ∧ (solveDirect lu s).2.height = s.height := by
  have h := solveDirect_frame lu s
  generalize (solveDirect lu s).2 = s' at h
  rw [h]
  exact ⟨rfl, rfl, rfl, rfl, rfl, rfl, rfl, rfl⟩

/-- The system assembled after a call of `solveDirect` is the system assembled before it. -/
theorem solveDirect_same_system (lu : SparseLU K) (s : SquareThinFilmFDM K) :
    systemMatrix (solveDirect lu s).2 = systemMatrix s ∧
      (assemble (solveDirect lu s).2).b = (assemble s).b := by
  obtain ⟨f_n, f_h, f_mu, f_U, f_dx, f_dy, -, -⟩ := solveDirect_fields lu s
  refine assemble_congr _ s f_n f_mu f_U f_dx f_dy (fun i j _ _ => by rw [f_h]) ?_
  intro k hk1 hk2
  rw [f_n] at hk2 ⊢
  exact ⟨solveDirect_P_outside lu s k 0 (by omega),
    solveDirect_P_outside lu s k (s.n - 1) (by omega),
    solveDirect_P_outside lu s 0 k (by omega),
    solveDirect_P_outside lu s (s.n - 1) k (by omega)⟩

/-- A second call of `solveDirect` reproduces the state the first call left. -/
theorem solveDirect_idem (lu : SparseLU K) (s : SquareThinFilmFDM K) :
    solveDirect lu (solveDirect lu s).2 = solveDirect lu s := by
  obtain ⟨hA, hb⟩ := solveDirect_same_system lu s
  by_cases hok : (solveDirect lu s).1 = true
  · obtain ⟨h1, h2⟩ := (solveDirect_true_iff lu s).mp hok
    have hP := solveDirect_P lu s hok
    have hfr := solveDirect_frame lu s
    obtain ⟨f_n, -⟩ := solveDirect_fields lu s
    rw [solveDirect_of_success lu (solveDirect lu s).2 (by rw [hA]; exact h1)
      (by rw [hA, hb]; exact h2), hA, hb]
    have hsc : (scatter (solveDirect lu s).2 (lu.solve (systemMatrix s) (assemble s).b)).2 =
        (solveDirect lu s).2.P := by
      funext i j
      rw [scatter_apply, f_n]
      by_cases hin : 1 ≤ i ∧ i ≤ s.n - 2 ∧ 1 ≤ j ∧ j ≤ s.n - 2
      · rw [if_pos hin, hP, scatter_apply, if_pos hin]
      · rw [if_neg hin]
    rw [hsc]
    rw [solveDirect_of_success lu s h1 h2] at hok ⊢
  · have hf : solveDirect lu s = (false, s) := by
      apply solveDirect_of_failure
      by_contra hc
      rw [not_or, not_not, not_not] at hc
      exact hok ((solveDirect_true_iff lu s).mpr hc)
    rw [hf]
    exact hf

/-- Claim C11. Calling `solveDirect()` twice in a row with no intervening `setEdgeBoundary`: the
matrix and the right-hand side assembled by the second call are those assembled by the first,
both calls return the same status, and the state (in particular the pressure field) after the
second call is the state after the first. -/
theorem solveDirect_twice (lu : SparseLU K) (s : SquareThinFilmFDM K) :
    systemMatrix (solveDirect lu s).2 = systemMatrix s ∧
    (assemble (solveDirect lu s).2).b = (assemble s).b ∧
    (solveDirect lu (solveDirect lu s).2).1 = (solveDirect lu s).1 ∧
    (solveDirect lu (solveDirect lu s).2).2.P = (solveDirect lu s).2.P ∧
    (solveDirect lu (solveDirect lu s).2).2 = (solveDirect lu s).2 := by
  obtain ⟨hA, hb⟩ := solveDirect_same_system lu s
  have h := solveDirect_idem lu s
  exact ⟨hA, hb, by rw [h], by rw [h], by rw [h]⟩

/-! ### No state leaks between repetitions -/

/-- Two states with the same grid, parameters and film on the grid whose pressure fields agree on
the border return the same status, and after a success the same pressure field on the grid. -/
theorem solveDirect_agree (lu : SparseLU K) (t t' : SquareThinFilmFDM K) (hn : t'.n = t.n)
    (hfilm : ∀ i j, i < t.n → j < t.n → t'.h i j = t.h i j)
    (hmu : t'.viscosity = t.viscosity) (hU : t'.velocity = t.velocity)
    (hdx : t'.dx = t.dx) (hdy : t'.dy = t.dy)
    (hbd : ∀ i j, i < t.n → j < t.n → (i = 0 ∨ i = t.n - 1 ∨ j = 0 ∨ j = t.n - 1) →
      t'.P i j = t.P i j) :
    (solveDirect lu t').1 = (solveDirect lu t).1 ∧
      ((solveDirect lu t).1 = true → ∀ i j, i < t.n → j < t.n →
        (solveDirect lu t').2.P i j = (solveDirect lu t).2.P i j) := by
  obtain ⟨hA, hb⟩ := assemble_congr t' t hn hmu hU hdx hdy
    (fun i j hi hj => hfilm i j (by omega) (by omega))
    (fun k hk1 hk2 => by
      rw [hn] at hk2 ⊢
      exact ⟨hbd k 0 (by omega) (by omega) (by omega),
        hbd k (t.n - 1) (by omega) (by omega) (by omega),
        hbd 0 k (by omega) (by omega) (by omega),
        hbd (t.n - 1) k (by omega) (by omega) (by omega)⟩)
  have hiff : (solveDirect lu t').1 = true ↔ (solveDirect lu t).1 = true := by
    rw [solveDirect_true_iff, solveDirect_true_iff, hA, hb]
  refine ⟨Bool.eq_iff_iff.mpr hiff, ?_⟩
  intro hok i j hi hj
  rw [solveDirect_P lu t hok, solveDirect_P lu t' (hiff.mpr hok), scatter_apply, scatter_apply,
    hA, hb, hn]
  by_cases hin : 1 ≤ i ∧ i ≤ t.n - 2 ∧ 1 ≤ j ∧ j ≤ t.n - 2
  · rw [if_pos hin, if_pos hin]
  · rw [if_neg hin, if_neg hin]
    exact hbd i j hi hj (by omega)

/-- Claim C12. For every grid size (in particular `n ≥ 3`) and any two solver states that agree
on `n`, `width`, `height`, the film on the grid, viscosity and velocity (with `dx = width/(n-1)`, `dy = height/(n-1)` in
both) but carry arbitrary pressure fields: after `setEdgeBoundary` with the same four arguments
and a successful `solveDirect()`, the other call succeeds too, the two pressure fields are
equal at every node, and so are the two values of `calculateTotalForce()`. -/
theorem solveDirect_no_state_leak (lu : SparseLU K) (s s' : SquareThinFilmFDM K)
    (bottom right top left : K) (hn' : s'.n = s.n)
    (hw : s'.width = s.width) (hh : s'.height = s.height)
    (hfilm : ∀ i j, i < s.n → j < s.n → s'.h i j = s.h i j)
    (hmu : s'.viscosity = s.viscosity) (hU : s'.velocity = s.velocity)
    (hdx : s.dx = s.width / ((s.n : K) - 1)) (hdy : s.dy = s.height / ((s.n : K) - 1))
    (hdx' : s'.dx = s'.width / ((s'.n : K) - 1)) (hdy' : s'.dy = s'.height / ((s'.n : K) - 1))
    (hok : (solveDirect lu (s.setEdgeBoundary bottom right top left)).1 = true) :
    (solveDirect lu (s'.setEdgeBoundary bottom right top left)).1 = true ∧
    (∀ i j, i < s.n → j < s.n →
      (solveDirect lu (s'.setEdgeBoundary bottom right top left)).2.P i j =
        (solveDirect lu (s.setEdgeBoundary bottom right top left)).2.P i j) ∧
    (solveDirect lu (s'.setEdgeBoundary bottom right top left)).2.calculateTotalForce =
      (solveDirect lu (s.setEdgeBoundary bottom right top left)).2.calculateTotalForce := by
  have edx : s'.dx = s.dx := by rw [hdx', hdx, hw, hn']
  have edy : s'.dy = s.dy := by rw [hdy', hdy, hh, hn']
  obtain ⟨hst, hP⟩ := solveDirect_agree lu (s.setEdgeBoundary bottom right top left)
    (s'.setEdgeBoundary bottom right top left) hn' hfilm hmu hU edx edy
    (fun i j hi hj hb => setEdgeBoundary_border_indep s s' hn' bottom right top left i j hi hj hb)
  have hgrid := hP hok
  refine ⟨by rw [hst]; exact hok, hgrid, ?_⟩
  obtain ⟨f_n, -, -, -, f_dx, f_dy, -, -⟩ :=
    solveDirect_fields lu (s.setEdgeBoundary bottom right top left)
  obtain ⟨g_n, -, -, -, g_dx, g_dy, -, -⟩ :=
    solveDirect_fields lu (s'.setEdgeBoundary bottom right top left)
  refine calculateTotalForce_congr _ _ (by rw [g_n, f_n]; exact hn')
    (by rw [g_dx, f_dx]; exact edx) (by rw [g_dy, f_dy]; exact edy) ?_
  intro i j hi hj
  rw [g_n] at hi hj
  have hi' : i < s'.n := hi
  have hj' : j < s'.n := hj
  exact hgrid i j (by show i < s.n; omega) (by show j < s.n; omega)

/-- Instance of claim C12: `wedgeSolver` with its zero pressure field and the same solver after a
previous `setEdgeBoundary 9 9 9 9`; both get `setEdgeBoundary 1 2 3 4` and the library answer 7.
The second solve succeeds as well and the corner `(2, 2)` agrees. -/
theorem solveDirect_no_state_leak_witness :
    (solveDirect (oracleLU (fun _ => 7))
      ((wedgeSolver.setEdgeBoundary 9 9 9 9).setEdgeBoundary 1 2 3 4)).1 = true ∧
    (solveDirect (oracleLU (fun _ => 7))
      ((wedgeSolver.setEdgeBoundary 9 9 9 9).setEdgeBoundary 1 2 3 4)).2.P 2 2 =
      (solveDirect (oracleLU (fun _ => 7)) (wedgeSolver.setEdgeBoundary 1 2 3 4)).2.P 2 2 := by
  obtain ⟨hn, hdx, hdy, hmu, hU, hP, hh⟩ := wedgeSolver_facts
  have hw : wedgeSolver.width = 2 := rfl
  have hht : wedgeSolver.height = 2 := rfl
  have h := solveDirect_no_state_leak (oracleLU (fun _ => 7)) wedgeSolver
    (wedgeSolver.setEdgeBoundary 9 9 9 9) 1 2 3 4 rfl rfl rfl (fun _ _ _ _ => rfl)
    rfl rfl (by rw [hdx, hw, hn]; norm_num) (by rw [hdy, hht, hn]; norm_num)
    (by show wedgeSolver.dx = wedgeSolver.width / ((wedgeSolver.n : ℚ) - 1)
        rw [hdx, hw, hn]; norm_num)
    (by show wedgeSolver.dy = wedgeSolver.height / ((wedgeSolver.n : ℚ) - 1)
        rw [hdy, hht, hn]; norm_num)
    (by rw [solveDirect_true_iff]; exact ⟨rfl, rfl⟩)
  exact ⟨h.1, h.2.1 2 2 (by rw [hn]; decide) (by rw [hn]; decide)⟩

/-! ### Frame of `setEdgeBoundary` -/

/-- Claim C13. For every `n ≥ 2`, every prior state and all four arguments (negative pressures
included: the operation is total), `setEdgeBoundary` changes only border entries of `P`: every
entry that is not a border node of the grid, in particular every interior entry `P(i, j)` with
`1 ≤ i, j ≤ n-2`, is unchanged, and the film and all grid and physical parameters are
unchanged. -/
theorem setEdgeBoundary_frame (s : SquareThinFilmFDM K) (bottom right top left : K)
    (hn : 2 ≤ s.n) :
    (∀ i j, 1 ≤ i → i ≤ s.n - 2 → 1 ≤ j → j ≤ s.n - 2 →
      (s.setEdgeBoundary bottom right top left).P i j = s.P i j) ∧
    (∀ i j, ¬ (i < s.n ∧ j < s.n ∧ (i = 0 ∨ i = s.n - 1 ∨ j = 0 ∨ j = s.n - 1)) →
      (s.setEdgeBoundary bottom right top left).P i j = s.P i j) ∧
    (s.setEdgeBoundary bottom right top left).h = s.h ∧
    (s.setEdgeBoundary bottom right top left).n = s.n ∧
    (s.setEdgeBoundary bottom right top left).width = s.width ∧
    (s.setEdgeBoundary bottom right top left).height = s.height ∧
    (s.setEdgeBoundary bottom right top left).viscosity = s.viscosity ∧
    (s.setEdgeBoundary bottom right top left).velocity = s.velocity ∧
    (s.setEdgeBoundary bottom right top left).dx = s.dx ∧
    (s.setEdgeBoundary bottom right top left).dy = s.dy ∧
    (s.setEdgeBoundary bottom right top left).x = s.x ∧
    (s.setEdgeBoundary bottom right top left).y = s.y ∧
    (s.setEdgeBoundary bottom right top left).X = s.X ∧
    (s.setEdgeBoundary bottom right top left).Y = s.Y := by
  have hout : ∀ i j, ¬ (i < s.n ∧ j < s.n ∧ (i = 0 ∨ i = s.n - 1 ∨ j = 0 ∨ j = s.n - 1)) →
      (s.setEdgeBoundary bottom right top left).P i j = s.P i j := by
    intro i j hb
    rw [setEdgeBoundary_P_apply]
    repeat (first | rfl | rw [if_neg (by omega)])
  exact ⟨fun i j hi1 hi2 hj1 hj2 => hout i j (by omega), hout, rfl, rfl, rfl, rfl, rfl, rfl, rfl,
    rfl, rfl, rfl, rfl, rfl⟩

/-- Instance of claim C13: `scenarioSolver` after a solve that wrote 7 into the interior; a call
with negative pressures leaves the interior node `(2, 2)` at 7. -/
theorem setEdgeBoundary_frame_witness :
    2 ≤ (solveDirect (oracleLU (fun _ => 7)) scenarioSolver).2.n ∧
    ((solveDirect (oracleLU (fun _ => 7)) scenarioSolver).2.setEdgeBoundary
      (-1) (-2) (-3) (-4)).P 2 2 = 7 := by
  have hn : 2 ≤ (solveDirect (oracleLU (fun _ => 7)) scenarioSolver).2.n := by
    rw [(solveDirect_fields _ _).1]; decide
  have hok : (solveDirect (oracleLU (fun _ => (7 : ℚ))) scenarioSolver).1 = true := by
    rw [solveDirect_true_iff]; exact ⟨rfl, rfl⟩
  have h := setEdgeBoundary_frame (solveDirect (oracleLU (fun _ => 7)) scenarioSolver).2
    (-1) (-2) (-3) (-4) hn
  refine ⟨hn, ?_⟩
  rw [h.1 2 2 (by decide) (by rw [(solveDirect_fields _ _).1]; decide) (by decide)
    (by rw [(solveDirect_fields _ _).1]; decide), solveDirect_P _ _ hok, scatter_apply]
  rfl

/-! ### The corners of the pressure field -/

/-- Changing the corner entry `P(0, 0)` changes the total force by the change times the corner
weight `dx * dy / 4`. -/
theorem calculateTotalForce_corner (s : SquareThinFilmFDM K) (hn : 1 ≤ s.n) (v : K) :
    calculateTotalForce { s with P := setCoeff s.P 0 0 v } =
      s.calculateTotalForce + (v - s.P 0 0) * (s.dx * s.dy / 4) := by
  rw [calculateTotalForce_eq_sum, calculateTotalForce_eq_sum]
  have hterm : ∀ i j, setCoeff s.P 0 0 v i j *
      (s.dx * s.dy * ((if i = 0 ∨ i = s.n - 1 then (1 / 2 : K) else 1) *
        (if j = 0 ∨ j = s.n - 1 then (1 / 2 : K) else 1))) =
      s.P i j * (s.dx * s.dy * ((if i = 0 ∨ i = s.n - 1 then (1 / 2 : K) else 1) *
        (if j = 0 ∨ j = s.n - 1 then (1 / 2 : K) else 1))) +
      (if i = 0 then (if j = 0 then (v - s.P 0 0) * (s.dx * s.dy / 4) else 0) else 0) := by
    intro i j
    unfold setCoeff
    by_cases hi : i = 0
    · by_cases hj : j = 0
      · subst hi; subst hj
        simp only [and_self, if_true, true_or]
        ring
      · rw [if_neg (fun h => hj h.2), if_pos hi, if_neg hj, add_zero]
    · rw [if_neg (fun h => hi h.1), if_neg hi, add_zero]
  show ∑ i in Finset.range s.n, ∑ j in Finset.range s.n, setCoeff s.P 0 0 v i j *
      (s.dx * s.dy * ((if i = 0 ∨ i = s.n - 1 then (1 / 2 : K) else 1) *
        (if j = 0 ∨ j = s.n - 1 then (1 / 2 : K) else 1))) = _
  simp only [hterm, Finset.sum_add_distrib]
  congr 1
  rw [Finset.sum_eq_single 0]
  · simp only [eq_self_iff_true, if_true]
    rw [Finset.sum_ite_eq' (Finset.range s.n) 0, if_pos (Finset.mem_range.mpr (by omega))]
  · intro i _ hi
    simp only [hi, if_false, Finset.sum_const_zero]
  · intro h
    exact absurd (Finset.mem_range.mpr (by omega)) h

/-- Claim C20. For every `n ≥ 3`, the matrix and the right-hand side assembled by `solveDirect`
do not depend on the four corner entries of `P` nor on any interior entry: two pressure fields
that agree on all non-corner border entries give the same linear system, hence the same status
and, after a success, the same solved interior. A corner entry does enter
`calculateTotalForce()`, with weight `dx * dy / 4`. -/
theorem solveDirect_ignores_corners (lu : SparseLU K) (s : SquareThinFilmFDM K)
    (P1 P2 : MatrixXd K) (hn : 3 ≤ s.n)
    (hagree : ∀ k, 1 ≤ k → k ≤ s.n - 2 →
      P1 k 0 = P2 k 0 ∧ P1 k (s.n - 1) = P2 k (s.n - 1) ∧
      P1 0 k = P2 0 k ∧ P1 (s.n - 1) k = P2 (s.n - 1) k) :
    systemMatrix { s with P := P1 } = systemMatrix { s with P := P2 } ∧
    (assemble { s with P := P1 }).b = (assemble { s with P := P2 }).b ∧
    (solveDirect lu { s with P := P1 }).1 = (solveDirect lu { s with P := P2 }).1 ∧
    ((solveDirect lu { s with P := P1 }).1 = true →
      ∀ i j, 1 ≤ i → i ≤ s.n - 2 → 1 ≤ j → j ≤ s.n - 2 →
        (solveDirect lu { s with P := P1 }).2.P i j =
          (solveDirect lu { s with P := P2 }).2.P i j) ∧
    (∀ v : K, calculateTotalForce { s with P := setCoeff s.P 0 0 v } =
      s.calculateTotalForce + (v - s.P 0 0) * (s.dx * s.dy / 4)) := by
  obtain ⟨hA, hb⟩ := assemble_congr { s with P := P1 } { s with P := P2 } rfl rfl rfl rfl rfl
    (fun _ _ _ _ => rfl) hagree
  have hiff : (solveDirect lu { s with P := P1 }).1 = true ↔
      (solveDirect lu { s with P := P2 }).1 = true := by
    rw [solveDirect_true_iff, solveDirect_true_iff, hA, hb]
  refine ⟨hA, hb, Bool.eq_iff_iff.mpr hiff, ?_, fun v => calculateTotalForce_corner s (by omega) v⟩
  intro hok i j hi1 hi2 hj1 hj2
  rw [solveDirect_P lu _ hok, solveDirect_P lu _ (hiff.mp hok), scatter_apply, scatter_apply,
    hA, hb]
  have hin : 1 ≤ i ∧ i ≤ s.n - 2 ∧ 1 ≤ j ∧ j ≤ s.n - 2 := ⟨hi1, hi2, hj1, hj2⟩
  rw [if_pos hin, if_pos hin]

/-- Instance of claim C20: `scenarioSolver`, the field left by `setEdgeBoundary 200 0 0 0` and the
same field with the corner `(0, 0)` overwritten by 999; the library run answering
`scenarioAnswer` succeeds on both and the solved node `(1, 1)` is the same. -/
theorem solveDirect_ignores_corners_witness :
    (solveDirect (oracleLU scenarioAnswer)
      { scenarioSolver with P := (scenarioSolver.setEdgeBoundary 200 0 0 0).P }).1 = true ∧
    (solveDirect (oracleLU scenarioAnswer)
      { scenarioSolver with P := (scenarioSolver.setEdgeBoundary 200 0 0 0).P }).2.P 1 1 =
    (solveDirect (oracleLU scenarioAnswer)
      { scenarioSolver with
        P := setCoeff (scenarioSolver.setEdgeBoundary 200 0 0 0).P 0 0 999 }).2.P 1 1 := by
  have hok : (solveDirect (oracleLU scenarioAnswer)
      { scenarioSolver with P := (scenarioSolver.setEdgeBoundary 200 0 0 0).P }).1 = true := by
    rw [solveDirect_true_iff]; exact ⟨rfl, rfl⟩
  have h := solveDirect_ignores_corners (oracleLU scenarioAnswer) scenarioSolver
    (scenarioSolver.setEdgeBoundary 200 0 0 0).P
    (setCoeff (scenarioSolver.setEdgeBoundary 200 0 0 0).P 0 0 999) (by decide)
    (by
      intro k hk1 hk2
      unfold setCoeff
      refine ⟨?_, ?_, ?_, ?_⟩ <;> rw [if_neg (by omega)])
  exact ⟨hok, h.2.2.2.1 hok 1 1 (by decide) (by decide) (by decide) (by decide)⟩

/-! ### The constructed solver -/

/-- For `n ≥ 2` the coordinate `LinSpaced(n, 0, w)(k)` is `k` times the spacing `w / (n - 1)`. -/
theorem LinSpaced_eq (n : Nat) (w : K) (k : Nat) (hn : 2 ≤ n) :
    LinSpaced n 0 w k = (k : K) * (w / ((n : K) - 1)) := by
  unfold LinSpaced
  rw [if_neg (by omega)]
  ring

/-- Claim C15. For every `n ≥ 2`, `width`, `height` and height function `f`, construction
succeeds and the solver has `dx = width/(n-1)`, `dy = height/(n-1)`, film
`h(i, j) = f(j * dx, i * dy)` at every node (row index `i` is the `y` coordinate, column index `j`
the `x` coordinate), film `h(i, j) = 0.001` at every node when no height function is supplied,
and a pressure field that is zero at every node. -/
theorem new_spec (n : Nat) (side_width side_height : K) (h_func : Option (K → K → K))
    (viscosity velocity : K) (hn : 2 ≤ n) :
    ∃ s, new n side_width side_height h_func viscosity velocity = Except.ok s ∧
      s.n = n ∧
      s.dx = side_width / ((n : K) - 1) ∧ s.dy = side_height / ((n : K) - 1) ∧
      (∀ f, h_func = some f → ∀ i j, i < n → j < n →
        s.h i j = f ((j : K) * s.dx) ((i : K) * s.dy)) ∧
      (h_func = none → ∀ i j, i < n → j < n → s.h i j = 1 / 1000) ∧
      (∀ i j, s.P i j = 0) := by
  refine ⟨construct n side_width side_height h_func viscosity velocity, rfl,
    construct_n _ _ _ _ _ _, construct_dx _ _ _ _ _ _, construct_dy _ _ _ _ _ _, ?_, ?_, ?_⟩
  · intro f hf i j hi hj
    subst hf
    rw [construct_h_some, if_pos ⟨hi, hj⟩, construct_dx, construct_dy, LinSpaced_eq n _ j hn,
      LinSpaced_eq n _ i hn]
  · intro hf i j hi hj
    subst hf
    rw [construct_h_none, if_pos ⟨hi, hj⟩]
  · intro i j
    rw [construct_P]

/-- Instance of claim C15: `n = 3`, `width = 2`, `height = 4`, `f(x, y) = x + 10 y`; the node
`(i, j) = (2, 1)` has `x = 1`, `y = 4` and film `41`. -/
theorem new_spec_witness :
    ∃ s, new 3 (2 : ℚ) 4 (some (fun x y => x + 10 * y)) (1 / 100) 1 = Except.ok s ∧
      s.dx = 1 ∧ s.dy = 2 ∧ s.h 2 1 = 41 := by
  obtain ⟨s, hs, -, hdx, hdy, hf, -, -⟩ := new_spec 3 (2 : ℚ) 4 (some (fun x y => x + 10 * y))
    (1 / 100) 1 (by decide)
  have e1 : s.dx = 1 := by rw [hdx]; norm_num
  have e2 : s.dy = 2 := by rw [hdy]; norm_num
  refine ⟨s, hs, e1, e2, ?_⟩
  rw [hf _ rfl 2 1 (by decide) (by decide), e1, e2]
  norm_num

/-! ### The rows of the assembled system -/

/-- Entry `(a (n-2) + q, c)` of the assembled matrix: the sum of the contributions of the five
triplets of interior node `(a + 1, q + 1)`. -/
theorem systemMatrix_coeff (s : SquareThinFilmFDM K) (a q c : Nat)
    (ha : a < s.n - 2) (hq : q < s.n - 2) (hc : c < (s.n - 2) * (s.n - 2)) :
    (systemMatrix s).coeff (a * (s.n - 2) + q) c =
      (if a * (s.n - 2) + q = c then
          -(coef_e s (a + 1) (q + 1) + coef_w s (a + 1) (q + 1) + coef_n s (a + 1) (q + 1)
            + coef_s s (a + 1) (q + 1)) else 0)
        + (if q + 1 < s.n - 2 ∧ a * (s.n - 2) + q + 1 = c then coef_e s (a + 1) (q + 1) else 0)
        + (if q + 1 > 1 ∧ a * (s.n - 2) + q - 1 = c then coef_w s (a + 1) (q + 1) else 0)
        + (if a + 1 < s.n - 2 ∧ a * (s.n - 2) + q + (s.n - 2) = c
            then coef_n s (a + 1) (q + 1) else 0)
        + (if a + 1 > 1 ∧ a * (s.n - 2) + q - (s.n - 2) = c
            then coef_s s (a + 1) (q + 1) else 0) := by
  rw [SparseMatrix.coeff_eq_mulVec _ _ c (by rw [systemMatrix_cols s (by omega)]; exact hc),
    systemMatrix_mulVec s _ a q ha hq]
  simp only [mul_ite, mul_one, mul_zero, ite_and]

/-- The face coefficients written out: means of `h^3 / (12 mu)` over `dx^2` or `dy^2`. -/
theorem coef_formulas (s : SquareThinFilmFDM K) (i j : Nat) :
    coef_e s i j
      = ((s.h i j ^ 3 / (12 * s.viscosity) + s.h i (j + 1) ^ 3 / (12 * s.viscosity)) / 2)
          / s.dx ^ 2 ∧
    coef_w s i j
      = ((s.h i j ^ 3 / (12 * s.viscosity) + s.h i (j - 1) ^ 3 / (12 * s.viscosity)) / 2)
          / s.dx ^ 2 ∧
    coef_n s i j
      = ((s.h i j ^ 3 / (12 * s.viscosity) + s.h (i + 1) j ^ 3 / (12 * s.viscosity)) / 2)
          / s.dy ^ 2 ∧
    coef_s s i j
      = ((s.h i j ^ 3 / (12 * s.viscosity) + s.h (i - 1) j ^ 3 / (12 * s.viscosity)) / 2)
          / s.dy ^ 2 := by
  refine ⟨?_, ?_, ?_, ?_⟩
  · simp only [coef_e, h3_12mu]; ring
  · simp only [coef_w, h3_12mu]; ring
  · simp only [coef_n, h3_12mu]; ring
  · simp only [coef_s, h3_12mu]; ring

/-- The matrix row and the right-hand side entry of interior node `(a + 1, q + 1)`. -/
theorem system_row_entries (s : SquareThinFilmFDM K) (a q : Nat)
    (ha : a < s.n - 2) (hq : q < s.n - 2) :
    (systemMatrix s).coeff (a * (s.n - 2) + q) (a * (s.n - 2) + q) =
      -(coef_e s (a + 1) (q + 1) + coef_w s (a + 1) (q + 1) + coef_n s (a + 1) (q + 1)
        + coef_s s (a + 1) (q + 1)) ∧
    (q + 1 < s.n - 2 →
      (systemMatrix s).coeff (a * (s.n - 2) + q) (a * (s.n - 2) + q + 1) =
        coef_e s (a + 1) (q + 1)) ∧
    (q + 1 > 1 →
      (systemMatrix s).coeff (a * (s.n - 2) + q) (a * (s.n - 2) + q - 1) =
        coef_w s (a + 1) (q + 1)) ∧
    (a + 1 < s.n - 2 →
      (systemMatrix s).coeff (a * (s.n - 2) + q) (a * (s.n - 2) + q + (s.n - 2)) =
        coef_n s (a + 1) (q + 1)) ∧
    (a + 1 > 1 →
      (systemMatrix s).coeff (a * (s.n - 2) + q) (a * (s.n - 2) + q - (s.n - 2)) =
        coef_s s (a + 1) (q + 1)) ∧
    (∀ c, c < (s.n - 2) * (s.n - 2) → c ≠ a * (s.n - 2) + q →
      ¬ (q + 1 < s.n - 2 ∧ c = a * (s.n - 2) + q + 1) →
      ¬ (q + 1 > 1 ∧ c = a * (s.n - 2) + q - 1) →
      ¬ (a + 1 < s.n - 2 ∧ c = a * (s.n - 2) + q + (s.n - 2)) →
      ¬ (a + 1 > 1 ∧ c = a * (s.n - 2) + q - (s.n - 2)) →
      (systemMatrix s).coeff (a * (s.n - 2) + q) c = 0) := by
  obtain ⟨hb1, hb2, hb3⟩ := idx_bounds (s.n - 2) a ha
  have hcoef := systemMatrix_coeff s a q
  generalize systemMatrix s = A at hcoef ⊢
  generalize hm : s.n - 2 = m at *
  generalize a * m = A0 at *
  generalize m * m = M at *
  refine ⟨?_, ?_, ?_, ?_, ?_, ?_⟩
  · rw [hcoef _ ha hq (by omega), if_pos rfl, if_neg (by omega), if_neg (by omega),
      if_neg (by omega), if_neg (by omega)]
    simp only [add_zero]
  · intro h
    rw [hcoef _ ha hq (by omega), if_neg (by omega), if_pos ⟨h, rfl⟩, if_neg (by omega),
      if_neg (by omega), if_neg (by omega)]
    simp only [add_zero, zero_add]
  · intro h
    rw [hcoef _ ha hq (by omega), if_neg (by omega), if_neg (by omega), if_pos ⟨h, rfl⟩,
      if_neg (by omega), if_neg (by omega)]
    simp only [add_zero, zero_add]
  · intro h
    rw [hcoef _ ha hq (by omega), if_neg (by omega), if_neg (by omega), if_neg (by omega),
      if_pos ⟨h, rfl⟩, if_neg (by omega)]
    simp only [add_zero, zero_add]
  · intro h
    rw [hcoef _ ha hq (by omega), if_neg (by omega), if_neg (by omega), if_neg (by omega),
      if_neg (by omega), if_pos ⟨h, rfl⟩]
    simp only [add_zero, zero_add]
  · intro c hc h0 h1 h2 h3 h4
    rw [hcoef c ha hq hc, if_neg (by omega), if_neg (by omega), if_neg (by omega),
      if_neg (by omega), if_neg (by omega)]
    simp only [add_zero]

/-- Claim C16. For every `n ≥ 3` and every interior node `(i, j)`, with
`idx = (i-1)(n-2) + (j-1)`: row `idx` of the assembled matrix has the diagonal entry
`-(coef_e + coef_w + coef_n + coef_s)`, the entry `coef_e` at column `idx+1` when `j < n-2`,
`coef_w` at column `idx-1` when `j > 1`, `coef_n` at column `idx+(n-2)` when `i < n-2`, `coef_s`
at column `idx-(n-2)` when `i > 1`, and zero at every other column; the right-hand side is
`b(idx) = -6 * velocity * viscosity * dhdx(i,j)` minus `coef_w * P(i,0)` if `j = 1`, minus
`coef_e * P(i,n-1)` if `j = n-2`, minus `coef_s * P(0,j)` if `i = 1`, minus `coef_n * P(n-1,j)` if
`i = n-2`; each face coefficient is the mean of `h^3/(12 mu)` at the node and at the neighbour,
divided by `dx^2` (east, west) or `dy^2` (north, south). -/
theorem system_row_spec (s : SquareThinFilmFDM K) (i j : Nat)
    (hi1 : 1 ≤ i) (hi2 : i ≤ s.n - 2) (hj1 : 1 ≤ j) (hj2 : j ≤ s.n - 2) :
    nodeIdx s.n i j < (s.n - 2) * (s.n - 2) ∧
    (systemMatrix s).coeff (nodeIdx s.n i j) (nodeIdx s.n i j) =
      -(coef_e s i j + coef_w s i j + coef_n s i j + coef_s s i j) ∧
    (j < s.n - 2 → (systemMatrix s).coeff (nodeIdx s.n i j) (nodeIdx s.n i j + 1) = coef_e s i j) ∧
    (j > 1 → (systemMatrix s).coeff (nodeIdx s.n i j) (nodeIdx s.n i j - 1) = coef_w s i j) ∧
    (i < s.n - 2 →
      (systemMatrix s).coeff (nodeIdx s.n i j) (nodeIdx s.n i j + (s.n - 2)) = coef_n s i j) ∧
    (i > 1 →
      (systemMatrix s).coeff (nodeIdx s.n i j) (nodeIdx s.n i j - (s.n - 2)) = coef_s s i j) ∧
    (∀ c, c < (s.n - 2) * (s.n - 2) → c ≠ nodeIdx s.n i j →
      ¬ (j < s.n - 2 ∧ c = nodeIdx s.n i j + 1) →
      ¬ (j > 1 ∧ c = nodeIdx s.n i j - 1) →
      ¬ (i < s.n - 2 ∧ c = nodeIdx s.n i j + (s.n - 2)) →
      ¬ (i > 1 ∧ c = nodeIdx s.n i j - (s.n - 2)) →
      (systemMatrix s).coeff (nodeIdx s.n i j) c = 0) ∧
    (assemble s).b (nodeIdx s.n i j) =
      -6 * s.velocity * s.viscosity * ((s.h i (j + 1) - s.h i (j - 1)) / (2 * s.dx))
        - (if j = 1 then coef_w s i j * s.P i 0 else 0)
        - (if j = s.n - 2 then coef_e s i j * s.P i (s.n - 1) else 0)
        - (if i = 1 then coef_s s i j * s.P 0 j else 0)
        - (if i = s.n - 2 then coef_n s i j * s.P (s.n - 1) j else 0) ∧
    coef_e s i j
      = ((s.h i j ^ 3 / (12 * s.viscosity) + s.h i (j + 1) ^ 3 / (12 * s.viscosity)) / 2)
          / s.dx ^ 2 ∧
    coef_w s i j
      = ((s.h i j ^ 3 / (12 * s.viscosity) + s.h i (j - 1) ^ 3 / (12 * s.viscosity)) / 2)
          / s.dx ^ 2 ∧
    coef_n s i j
      = ((s.h i j ^ 3 / (12 * s.viscosity) + s.h (i + 1) j ^ 3 / (12 * s.viscosity)) / 2)
          / s.dy ^ 2 ∧
    coef_s s i j
      = ((s.h i j ^ 3 / (12 * s.viscosity) + s.h (i - 1) j ^ 3 / (12 * s.viscosity)) / 2)
          / s.dy ^ 2 := by
  obtain ⟨a, rfl⟩ : ∃ a, i = a + 1 := ⟨i - 1, by omega⟩
  obtain ⟨q, rfl⟩ : ∃ q, j = q + 1 := ⟨j - 1, by omega⟩
  have ha : a < s.n - 2 := by omega
  have hq : q < s.n - 2 := by omega
  have hidx : nodeIdx s.n (a + 1) (q + 1) = a * (s.n - 2) + q := by
    simp only [nodeIdx, Nat.add_sub_cancel]
  obtain ⟨e0, e1, e2, e3, e4, e5⟩ := system_row_entries s a q ha hq
  obtain ⟨f1, f2, f3, f4⟩ := coef_formulas s (a + 1) (q + 1)
  rw [hidx]
  refine ⟨?_, e0, e1, e2, e3, e4, e5, ?_, f1, f2, f3, f4⟩
  · have := (idx_bounds (s.n - 2) a ha).1
    omega
  · rw [assemble_b s a q ha hq, nodeRhs, dhdx, if_pos (by omega)]

/-- Instance of claim C16 on `scenarioSolver` with `bottom = 200`: node `(1, 1)` has index 0, no
west and no south unknown; its east entry sits in column 1 and its right-hand side collects the
two boundary contributions. -/
theorem system_row_spec_witness :
    (systemMatrix (scenarioSolver.setEdgeBoundary 200 0 0 0)).coeff 0 1 =
      coef_e (scenarioSolver.setEdgeBoundary 200 0 0 0) 1 1 := by
  have h := system_row_spec (scenarioSolver.setEdgeBoundary 200 0 0 0) 1 1 (by decide)
    (by decide) (by decide) (by decide)
  exact h.2.2.1 (by decide)

/-! ### Indices used by `solveDirect` -/

/-- The running counter on entry to node `(i, j)` of the assembly loop. -/
theorem assembleEntry_idx (s : SquareThinFilmFDM K) (i j : Nat) :
    (assembleEntry s i j).idx = (i - 1) * (s.n - 2) + (j - 1) := by
  unfold assembleEntry
  rw [assemble_rows, assemble_row]

/-- The row and the column of a triplet emitted at a node. -/
theorem nodeTriplets_mem (s : SquareThinFilmFDM K) (i j idx : Nat) (t : Triplet K)
    (ht : t ∈ nodeTriplets s i j idx) :
    t.row = (idx : Int) ∧
      (t.col = (idx : Int) ∨ (j < s.n - 2 ∧ t.col = (idx : Int) + 1) ∨
        (j > 1 ∧ t.col = (idx : Int) - 1) ∨
        (i < s.n - 2 ∧ t.col = (idx : Int) + ((s.n : Int) - 2)) ∨
        (i > 1 ∧ t.col = (idx : Int) - ((s.n : Int) - 2))) := by
  simp only [nodeTriplets, List.mem_append, List.mem_singleton] at ht
  rcases ht with (((ht | ht) | ht) | ht) | ht
  · subst ht
    exact ⟨rfl, Or.inl rfl⟩
  · by_cases h : j < s.n - 2
    · rw [if_pos h, List.mem_singleton] at ht
      subst ht
      exact ⟨rfl, Or.inr (Or.inl ⟨h, rfl⟩)⟩
    · rw [if_neg h] at ht
      exact absurd ht (List.not_mem_nil t)
  · by_cases h : j > 1
    · rw [if_pos h, List.mem_singleton] at ht
      subst ht
      exact ⟨rfl, Or.inr (Or.inr (Or.inl ⟨h, rfl⟩))⟩
    · rw [if_neg h] at ht
      exact absurd ht (List.not_mem_nil t)
  · by_cases h : i < s.n - 2
    · rw [if_pos h, List.mem_singleton] at ht
      subst ht
      exact ⟨rfl, Or.inr (Or.inr (Or.inr (Or.inl ⟨h, rfl⟩)))⟩
    · rw [if_neg h] at ht
      exact absurd ht (List.not_mem_nil t)
  · by_cases h : i > 1
    · rw [if_pos h, List.mem_singleton] at ht
      subst ht
      exact ⟨rfl, Or.inr (Or.inr (Or.inr (Or.inr ⟨h, rfl⟩)))⟩
    · rw [if_neg h] at ht
      exact absurd ht (List.not_mem_nil t)

/-- Every triplet of the assembly has its row and its column among the unknowns. -/
theorem assemble_triplets_range (s : SquareThinFilmFDM K) (t : Triplet K)
    (ht : t ∈ (assemble s).triplets) :
    0 ≤ t.row ∧ t.row < (((s.n - 2) * (s.n - 2) : Nat) : Int) ∧
      0 ≤ t.col ∧ t.col < (((s.n - 2) * (s.n - 2) : Nat) : Int) := by
  rw [assemble_triplets] at ht
  obtain ⟨a, ha, ht⟩ := List.mem_flatMap.mp ht
  obtain ⟨q, hq, ht⟩ := List.mem_flatMap.mp ht
  rw [List.mem_range] at ha hq
  obtain ⟨hrow, hcol⟩ := nodeTriplets_mem s _ _ _ t ht
  obtain ⟨hb1, hb2, hb3⟩ := idx_bounds (s.n - 2) a ha
  have hmI : (s.n : Int) - 2 = ((s.n - 2 : Nat) : Int) := by omega
  rw [hmI] at hcol
  generalize s.n - 2 = m at *
  generalize a * m = A0 at *
  generalize m * m = M at *
  rw [hrow]
  refine ⟨by omega, by omega, ?_, ?_⟩
  · rcases hcol with h | ⟨h1, h⟩ | ⟨h1, h⟩ | ⟨h1, h⟩ | ⟨h1, h⟩ <;> rw [h] <;> omega
  · rcases hcol with h | ⟨h1, h⟩ | ⟨h1, h⟩ | ⟨h1, h⟩ | ⟨h1, h⟩ <;> rw [h] <;> omega

/-! ### Range safety of `solveDirect` -/

/-- The checked `dhdx` loop never leaves the range of `h` and `dhdx`, and computes `dhdx`. -/
theorem dhdxChecked_eq (s : SquareThinFilmFDM K) : dhdxChecked s = some (dhdx s) := by
  have hfold : dhdxChecked s = some ((List.range s.n).foldl
      (fun M i => (List.range' 1 (s.n - 2)).foldl
        (fun M j => setCoeff M i j ((s.h i (j + 1) - s.h i (j - 1)) / (2 * s.dx))) M)
      (fun _ _ => 0)) := by
    unfold dhdxChecked
    rw [List.range_eq_range']
    apply foldlM_range'_some
    intro i hi
    apply foldlM_range'_some
    intro k hk
    have eE : readChecked s.h s.n s.n ((0 + i : Nat) : Int) (((1 + k : Nat) : Int) + 1)
        = some (s.h (0 + i) (1 + k + 1)) := by
      have := readChecked_nat s.h s.n s.n (0 + i) (1 + k + 1) (by omega) (by omega)
      rw [← this]
      push_cast
      rfl
    have eW : readChecked s.h s.n s.n ((0 + i : Nat) : Int) (((1 + k : Nat) : Int) - 1)
        = some (s.h (0 + i) (1 + k - 1)) := by
      have := readChecked_nat s.h s.n s.n (0 + i) (1 + k - 1) (by omega) (by omega)
      rw [← this]
      congr 1
      omega
    simp only [eE, eW, Option.bind_eq_bind, Option.some_bind]
    exact writeChecked_nat _ s.n s.n (0 + i) (1 + k) _ (by omega) (by omega)
  rw [hfold, fill_rows (fun i j => (s.h i (j + 1) - s.h i (j - 1)) / (2 * s.dx))]
  congr 1
  ext a b
  unfold dhdx
  by_cases h : a < s.n ∧ 1 ≤ b ∧ b ≤ s.n - 2
  · rw [if_pos h, if_pos ⟨h.1, h.2.1, by omega⟩]
  · rw [if_neg h, if_neg (by omega)]

/-- At an interior node with the counter inside `[0, n_unknowns)`, every access of the loop
body is in range and the checked body computes what the loop body computes. -/
theorem assembleNodeChecked_eq (s : SquareThinFilmFDM K) (i j : Nat) (st : Assembly K)
    (hi1 : 1 ≤ i) (hi2 : i ≤ s.n - 2) (hj1 : 1 ≤ j) (hj2 : j ≤ s.n - 2)
    (hidx : st.idx < n_unknowns s) :
    assembleNodeChecked s (dhdx s) i j st = some (assembleNode s i j st) := by
  have e0 := readChecked_nat (h3_12mu s) s.n s.n i j (by omega) (by omega)
  have eE : readChecked (h3_12mu s) s.n s.n (i : Int) ((j : Int) + 1)
      = some (h3_12mu s i (j + 1)) :=
    readChecked_nat (h3_12mu s) s.n s.n i (j + 1) (by omega) (by omega)
  have eW : readChecked (h3_12mu s) s.n s.n (i : Int) ((j : Int) - 1)
      = some (h3_12mu s i (j - 1)) := by
    rw [← readChecked_nat (h3_12mu s) s.n s.n i (j - 1) (by omega) (by omega)]
    congr 1
    omega
  have eN : readChecked (h3_12mu s) s.n s.n ((i : Int) + 1) (j : Int)
      = some (h3_12mu s (i + 1) j) :=
    readChecked_nat (h3_12mu s) s.n s.n (i + 1) j (by omega) (by omega)
  have eS : readChecked (h3_12mu s) s.n s.n ((i : Int) - 1) (j : Int)
      = some (h3_12mu s (i - 1) j) := by
    rw [← readChecked_nat (h3_12mu s) s.n s.n (i - 1) j (by omega) (by omega)]
    congr 1
    omega
  have eD := readChecked_nat (dhdx s) s.n s.n i j (by omega) (by omega)
  have eP1 : readChecked s.P s.n s.n (i : Int) 0 = some (s.P i 0) :=
    readChecked_nat s.P s.n s.n i 0 (by omega) (by omega)
  have eP2 : readChecked s.P s.n s.n (i : Int) ((s.n : Int) - 1) = some (s.P i (s.n - 1)) := by
    rw [← readChecked_nat s.P s.n s.n i (s.n - 1) (by omega) (by omega)]
    congr 1
    omega
  have eP3 : readChecked s.P s.n s.n 0 (j : Int) = some (s.P 0 j) :=
    readChecked_nat s.P s.n s.n 0 j (by omega) (by omega)
  have eP4 : readChecked s.P s.n s.n ((s.n : Int) - 1) (j : Int) = some (s.P (s.n - 1) j) := by
    rw [← readChecked_nat s.P s.n s.n (s.n - 1) j (by omega) (by omega)]
    congr 1
    omega
  have eR : ∀ v : VectorXd K, readVecChecked v (n_unknowns s) (st.idx : Int) = some (v st.idx) :=
    fun v => readVecChecked_nat v _ _ hidx
  have eWr : ∀ (v : VectorXd K) (x : K),
      writeVecChecked v (n_unknowns s) (st.idx : Int) x = some (Function.update v st.idx x) :=
    fun v x => writeVecChecked_nat v _ _ x hidx
  unfold assembleNodeChecked
  simp only [subChecked, e0, eE, eW, eN, eS, eD, eP1, eP2, eP3, eP4, eR, eWr,
    Option.bind_eq_bind, Option.some_bind, Option.pure_def, ite_some_some]
  rfl

/-- One row of the checked assembly loop. -/
theorem assembleChecked_row (s : SquareThinFilmFDM K) (i : Nat) (st : Assembly K)
    (hi1 : 1 ≤ i) (hi2 : i ≤ s.n - 2) (hidx : st.idx + (s.n - 2) ≤ n_unknowns s) :
    (List.range' 1 (s.n - 2)).foldlM
        (fun (st : Assembly K) (j : Nat) => assembleNodeChecked s (dhdx s) i j st) st =
      some ((List.range' 1 (s.n - 2)).foldl (fun st j => assembleNode s i j st) st) := by
  apply foldlM_range'_some
  intro k hk
  apply assembleNodeChecked_eq s i (1 + k) _ hi1 hi2 (by omega) (by omega)
  rw [assemble_row]
  show st.idx + k < n_unknowns s
  omega

/-- The checked assembly loop never leaves a range and computes what `assemble` computes. -/
theorem assembleChecked_eq (s : SquareThinFilmFDM K) (hn : 2 ≤ s.n) :
    assembleChecked s (dhdx s) = some (assemble s) := by
  unfold assembleChecked assemble
  apply foldlM_range'_some
  intro p hp
  apply assembleChecked_row s (1 + p) _ (by omega) (by omega)
  rw [assemble_rows, n_unknowns_eq s hn]
  show p * (s.n - 2) + (s.n - 2) ≤ (s.n - 2) * (s.n - 2)
  exact (idx_bounds (s.n - 2) p hp).1

/-- Every triplet of the assembly passes the assertion of `setFromTriplets`. -/
theorem setFromTripletsChecked_eq (s : SquareThinFilmFDM K) (hn : 2 ≤ s.n) :
    setFromTripletsChecked (n_unknowns s) (n_unknowns s) (assemble s).triplets =
      some (systemMatrix s) := by
  unfold setFromTripletsChecked
  rw [if_pos]
  · rfl
  · rw [List.all_eq_true]
    intro t ht
    rw [decide_eq_true_eq, n_unknowns_eq s hn]
    exact assemble_triplets_range s t ht

/-- Running `solveDirect` with every coefficient access checked never fails an assertion and
gives the result of `solveDirect`. -/
theorem solveDirectChecked_eq (lu : SparseLU K) (s : SquareThinFilmFDM K) (hn : 2 ≤ s.n) :
    solveDirectChecked lu s = some (solveDirect lu s) := by
  unfold solveDirectChecked solveDirect
  simp only [dhdxChecked_eq, assembleChecked_eq s hn, setFromTripletsChecked_eq s hn,
    Option.bind_eq_bind, Option.some_bind, Option.pure_def]
  split_ifs
  · rfl
  · rfl
  · rw [scatterChecked_eq s _ hn]
    rfl

/-- The assembly loop is the continuation of its state on entry to node `(i, j)`. -/
theorem assemble_from_entry (s : SquareThinFilmFDM K) (i j : Nat)
    (hi1 : 1 ≤ i) (hi2 : i ≤ s.n - 2) (hj1 : 1 ≤ j) (hj2 : j ≤ s.n - 2) :
    assemble s =
      (List.range' (i + 1) (s.n - 2 - i)).foldl
        (fun st i => (List.range' 1 (s.n - 2)).foldl (fun st j => assembleNode s i j st) st)
        ((List.range' j (s.n - 2 + 1 - j)).foldl (fun st j => assembleNode s i j st)
          (assembleEntry s i j)) :=
  nested_foldl_split (fun i st j => assembleNode s i j st)
    { idx := 0, triplets := [], b := fun _ => 0 } (s.n - 2) i j hi1 hi2 hj1 hj2

/-- The triplets emitted at interior node `(i, j)` carry the counter `(i-1)(n-2) + (j-1)` and
are part of the assembled list. -/
theorem assemble_node_triplets (s : SquareThinFilmFDM K) (i j : Nat)
    (hi1 : 1 ≤ i) (hi2 : i ≤ s.n - 2) (hj1 : 1 ≤ j) (hj2 : j ≤ s.n - 2) (t : Triplet K)
    (ht : t ∈ nodeTriplets s i j (nodeIdx s.n i j)) : t ∈ (assemble s).triplets := by
  rw [assemble_triplets]
  refine List.mem_flatMap.mpr ⟨i - 1, List.mem_range.mpr (by omega), ?_⟩
  refine List.mem_flatMap.mpr ⟨j - 1, List.mem_range.mpr (by omega), ?_⟩
  rw [Nat.sub_add_cancel hi1, Nat.sub_add_cancel hj1]
  exact ht

/-- Claim C17. For every `n ≥ 3`:
* on entry to interior node `(i, j)` the running counter `idx` equals `(i-1)(n-2) + (j-1)`, in
  the assembly loop and in the write-back loop alike, where the entry states are genuine
  intermediate states of `assemble` and `scatter` (each loop is the continuation of its entry
  state); accordingly the triplets of node `(i, j)` in the assembled list carry that row index,
  `b` holds the right-hand side of node `(i, j)` at that index, and the write-back stores
  `p_inner` of that index in `P(i, j)`;
* this map is a bijection from the interior nodes onto `[0, (n-2)^2)`, and `n_unknowns` is
  `(n-2)^2`;
* every row and column index stored in a triplet lies in `[0, n_unknowns)`;
* `solveDirect` run with Eigen's range assertion on every access to `h`, `h3_12mu`, `dhdx`, `P`
  (all `n x n`), `b` and `p_inner` (both of size `n_unknowns`) and on every triplet fails no
  assertion and returns the result of `solveDirect`, and so does each of its loops;
* the assembled system is a function of the entries of `h` and `P` inside `[0, n) x [0, n)`
  only, and the write-back changes no entry outside the interior of the grid. -/
theorem solveDirect_index_safety (lu : SparseLU K) (s : SquareThinFilmFDM K)
    (p_inner : VectorXd K) (hn : 3 ≤ s.n) :
    (∀ i j, 1 ≤ i → i ≤ s.n - 2 → 1 ≤ j → j ≤ s.n - 2 →
      (assembleEntry s i j).idx = nodeIdx s.n i j ∧
      (scatterEntry s p_inner i j).1 = nodeIdx s.n i j ∧
      nodeIdx s.n i j < n_unknowns s ∧
      assemble s =
        (List.range' (i + 1) (s.n - 2 - i)).foldl
          (fun st i => (List.range' 1 (s.n - 2)).foldl (fun st j => assembleNode s i j st) st)
          ((List.range' j (s.n - 2 + 1 - j)).foldl (fun st j => assembleNode s i j st)
            (assembleEntry s i j)) ∧
      scatter s p_inner =
        (List.range' (i + 1) (s.n - 2 - i)).foldl
          (fun st i => (List.range' 1 (s.n - 2)).foldl
            (fun st j => (st.1 + 1, setCoeff st.2 i j (p_inner st.1))) st)
          ((List.range' j (s.n - 2 + 1 - j)).foldl
            (fun st j => (st.1 + 1, setCoeff st.2 i j (p_inner st.1)))
            (scatterEntry s p_inner i j)) ∧
      (∀ t, t ∈ nodeTriplets s i j (nodeIdx s.n i j) →
        t ∈ (assemble s).triplets ∧ t.row = (nodeIdx s.n i j : Int)) ∧
      (assemble s).b (nodeIdx s.n i j) = nodeRhs s i j ∧
      (scatter s p_inner).2 i j = p_inner (nodeIdx s.n i j)) ∧
    (∀ i j i' j', 1 ≤ i → i ≤ s.n - 2 → 1 ≤ j → j ≤ s.n - 2 →
      1 ≤ i' → i' ≤ s.n - 2 → 1 ≤ j' → j' ≤ s.n - 2 →
      nodeIdx s.n i j = nodeIdx s.n i' j' → i = i' ∧ j = j') ∧
    (∀ r, r < n_unknowns s →
      ∃ i j, 1 ≤ i ∧ i ≤ s.n - 2 ∧ 1 ≤ j ∧ j ≤ s.n - 2 ∧ nodeIdx s.n i j = r) ∧
    n_unknowns s = (s.n - 2) * (s.n - 2) ∧
    (assemble s).idx = n_unknowns s ∧ (scatter s p_inner).1 = n_unknowns s ∧
    (∀ t, t ∈ (assemble s).triplets →
      0 ≤ t.row ∧ t.row < (n_unknowns s : Int) ∧ 0 ≤ t.col ∧ t.col < (n_unknowns s : Int)) ∧
    (dhdxChecked s = some (dhdx s) ∧
      assembleChecked s (dhdx s) = some (assemble s) ∧
      setFromTripletsChecked (n_unknowns s) (n_unknowns s) (assemble s).triplets
        = some (systemMatrix s) ∧
      scatterChecked s p_inner = some (scatter s p_inner) ∧
      solveDirectChecked lu s = some (solveDirect lu s)) ∧
    (∀ s' : SquareThinFilmFDM K, s.n = s'.n → s.viscosity = s'.viscosity →
      s.velocity = s'.velocity → s.dx = s'.dx → s.dy = s'.dy →
      (∀ i j, i < s.n → j < s.n → s.h i j = s'.h i j) →
      (∀ i j, i < s.n → j < s.n → s.P i j = s'.P i j) →
      systemMatrix s = systemMatrix s' ∧ (assemble s).b = (assemble s').b) ∧
    (∀ i j, ¬ (1 ≤ i ∧ i ≤ s.n - 2 ∧ 1 ≤ j ∧ j ≤ s.n - 2) →
      (scatter s p_inner).2 i j = s.P i j) := by
  have hN := n_unknowns_eq s (by omega)
  have hn2 : 2 ≤ s.n := by omega
  refine ⟨?_, ?_, ?_, hN, ?_, ?_, ?_,
    ⟨dhdxChecked_eq s, assembleChecked_eq s hn2, setFromTripletsChecked_eq s hn2,
      scatterChecked_eq s p_inner hn2, solveDirectChecked_eq lu s hn2⟩,
    ?_, fun i j h => scatter_outside s p_inner i j h⟩
  · intro i j hi1 hi2 hj1 hj2
    have hlt : nodeIdx s.n i j < n_unknowns s := by
      rw [hN]
      have := (idx_bounds (s.n - 2) (i - 1) (by omega)).1
      unfold nodeIdx
      omega
    refine ⟨assembleEntry_idx s i j, scatterEntry_idx s p_inner i j, hlt,
      assemble_from_entry s i j hi1 hi2 hj1 hj2,
      scatter_from_entry s p_inner i j hi1 hi2 hj1 hj2, ?_, ?_, ?_⟩
    · intro t ht
      exact ⟨assemble_node_triplets s i j hi1 hi2 hj1 hj2 t ht, (nodeTriplets_mem s i j _ t ht).1⟩
    · have h := assemble_b s (i - 1) (j - 1) (by omega) (by omega)
      rw [Nat.sub_add_cancel hi1, Nat.sub_add_cancel hj1] at h
      exact h
    · rw [scatter_apply, if_pos ⟨hi1, hi2, hj1, hj2⟩]
      rfl
  · intro i j i' j' hi1 hi2 hj1 hj2 hi1' hi2' hj1' hj2' h
    obtain ⟨e1, e2⟩ := idx_inj (s.n - 2) (i - 1) (j - 1) (i' - 1) (j' - 1) (by omega) (by omega) h
    omega
  · intro r hr
    rw [hN] at hr
    have hm : 0 < s.n - 2 := by omega
    have ha : r / (s.n - 2) < s.n - 2 := Nat.div_lt_of_lt_mul hr
    have hq : r % (s.n - 2) < s.n - 2 := Nat.mod_lt _ hm
    have hdm : r / (s.n - 2) * (s.n - 2) + r % (s.n - 2) = r := Nat.div_add_mod' r (s.n - 2)
    generalize r / (s.n - 2) = a at ha hdm
    generalize r % (s.n - 2) = q at hq hdm
    refine ⟨a + 1, q + 1, by omega, by omega, by omega, by omega, ?_⟩
    simp only [nodeIdx, Nat.add_sub_cancel]
    exact hdm
  · rw [hN, assemble_idx]
  · rw [hN]
    simp only [scatter, scatter_rows]
  · intro t ht
    rw [hN]
    exact assemble_triplets_range s t ht
  · intro s' e_n e_mu e_U e_dx e_dy e_h e_P
    exact assemble_congr s s' e_n e_mu e_U e_dx e_dy e_h (fun k hk1 hk2 =>
      ⟨e_P k 0 (by omega) (by omega), e_P k (s.n - 1) (by omega) (by omega),
        e_P 0 k (by omega) (by omega), e_P (s.n - 1) k (by omega) (by omega)⟩)

/-- Instance of claim C17 on `scenarioSolver` (`n = 5`, nine unknowns): on entry to node `(2, 3)`
the counter of the assembly loop is 5, the write-back stores `p_inner(5)` at `(2, 3)`, and the
checked run of `solveDirect` fails no range assertion. -/
theorem solveDirect_index_safety_witness :
    3 ≤ scenarioSolver.n ∧ (assembleEntry scenarioSolver 2 3).idx = 5 ∧
    (scatter scenarioSolver scenarioAnswer).2 2 3 = scenarioAnswer 5 ∧
    solveDirectChecked (oracleLU scenarioAnswer) scenarioSolver
      = some (solveDirect (oracleLU scenarioAnswer) scenarioSolver) := by
  have h := solveDirect_index_safety (oracleLU scenarioAnswer) scenarioSolver scenarioAnswer
    (by decide)
  obtain ⟨h1, -, -, -, -⟩ := h.1 2 3 (by decide) (by decide) (by decide) (by decide)
  exact ⟨by decide, h1,
    (h.1 2 3 (by decide) (by decide) (by decide) (by decide)).2.2.2.2.2.2.2,
    h.2.2.2.2.2.2.2.1.2.2.2.2⟩

end SquareThinFilmFDM

/-! ### Nearest-time lookup -/

/-- Invariant of the scan of `findClosestTimeIndex` after the indices `1 .. m`: the state holds
the first minimiser of the distance among the indices `0 .. m`. -/
theorem closest_scan (time_col : List K) (target_time : K) (m : Nat) :
    ((List.range' 1 m).foldl
        (fun (st : Nat × K) i =>
          let diff := |time_col.getD i 0 - target_time|
          if diff < st.2 then (i, diff) else st)
        (0, |time_col.getD 0 0 - target_time|)).1 ≤ m ∧
    ((List.range' 1 m).foldl
        (fun (st : Nat × K) i =>
          let diff := |time_col.getD i 0 - target_time|
          if diff < st.2 then (i, diff) else st)
        (0, |time_col.getD 0 0 - target_time|)).2 =
      |time_col.getD ((List.range' 1 m).foldl
        (fun (st : Nat × K) i =>
          let diff := |time_col.getD i 0 - target_time|
          if diff < st.2 then (i, diff) else st)
        (0, |time_col.getD 0 0 - target_time|)).1 0 - target_time| ∧
    (∀ i, i ≤ m → ((List.range' 1 m).foldl
        (fun (st : Nat × K) i =>
          let diff := |time_col.getD i 0 - target_time|
          if diff < st.2 then (i, diff) else st)
        (0, |time_col.getD 0 0 - target_time|)).2 ≤ |time_col.getD i 0 - target_time|) ∧
    (∀ i, i < ((List.range' 1 m).foldl
        (fun (st : Nat × K) i =>
          let diff := |time_col.getD i 0 - target_time|
          if diff < st.2 then (i, diff) else st)
        (0, |time_col.getD 0 0 - target_time|)).1 →
      ((List.range' 1 m).foldl
        (fun (st : Nat × K) i =>
          let diff := |time_col.getD i 0 - target_time|
          if diff < st.2 then (i, diff) else st)
        (0, |time_col.getD 0 0 - target_time|)).2 < |time_col.getD i 0 - target_time|) := by
  induction m with
  | zero =>
    refine ⟨Nat.le_refl 0, rfl, ?_, ?_⟩
    · intro i hi
      obtain rfl : i = 0 := by omega
      exact le_refl _
    · intro i hi
      exact absurd hi (Nat.not_lt_zero i)
  | succ m ih =>
    rw [List.range'_1_concat, List.foldl_append]
    generalize (List.range' 1 m).foldl
        (fun (st : Nat × K) i =>
          let diff := |time_col.getD i 0 - target_time|
          if diff < st.2 then (i, diff) else st)
        (0, |time_col.getD 0 0 - target_time|) = st at ih ⊢
    obtain ⟨h1, h2, h3, h4⟩ := ih
    simp only [List.foldl_cons, List.foldl_nil]
    by_cases hd : |time_col.getD (1 + m) 0 - target_time| < st.2
    · rw [if_pos hd]
      refine ⟨by simp only; omega, rfl, ?_, ?_⟩
      · intro i hi
        simp only
        by_cases him : i ≤ m
        · exact le_of_lt (lt_of_lt_of_le hd (h3 i him))
        · obtain rfl : i = 1 + m := by omega
          exact le_rfl
      · intro i hi
        simp only at hi ⊢
        exact lt_of_lt_of_le hd (h3 i (by omega))
    · rw [if_neg hd]
      refine ⟨by omega, h2, ?_, h4⟩
      intro i hi
      by_cases him : i ≤ m
      · exact h3 i him
      · obtain rfl : i = 1 + m := by omega
        exact not_lt.mp hd

/-- Claim C14. For every non-empty time column and every target time, `findClosestTimeIndex`
returns the smallest index `k` that minimises `|time[k] - target|`: `k` is a valid index,
`|time[k] - target| ≤ |time[i] - target|` for every index `i`, and
`|time[i] - target| > |time[k] - target|` for every `i < k` (ties go to the earlier entry). -/
theorem findClosestTimeIndex_spec (data : CSVReader.CSVData K) (time_column : String)
    (target_time : K) (time_col : List K) (hcol : data.columns time_column = some time_col)
    (hne : time_col ≠ []) :
    ∃ k, data.findClosestTimeIndex time_column target_time = Except.ok k ∧
      k < time_col.length ∧
      (∀ i, i < time_col.length →
        |time_col.getD k 0 - target_time| ≤ |time_col.getD i 0 - target_time|) ∧
      (∀ i, i < k → |time_col.getD i 0 - target_time| > |time_col.getD k 0 - target_time|) := by
  have hlen : 0 < time_col.length := List.length_pos.mpr hne
  obtain ⟨h1, h2, h3, h4⟩ := closest_scan time_col target_time (time_col.length - 1)
  have hres : data.findClosestTimeIndex time_column target_time =
      Except.ok ((List.range' 1 (time_col.length - 1)).foldl
        (fun (st : Nat × K) i =>
          let diff := |time_col.getD i 0 - target_time|
          if diff < st.2 then (i, diff) else st)
        (0, |time_col.getD 0 0 - target_time|)).1 := by
    simp only [CSVReader.CSVData.findClosestTimeIndex, CSVReader.CSVData.getColumn, hcol]
  refine ⟨_, hres, ?_, ?_, ?_⟩
  · omega
  · intro i hi
    rw [← h2]
    exact h3 i (by omega)
  · intro i hi
    rw [gt_iff_lt, ← h2]
    exact h4 i hi

/-- Instance of claim C14: times `1, 3, 5, 3` and target 4; the distances are `3, 1, 1, 1` and the
first of the three tied entries, index 1, is returned. -/
theorem findClosestTimeIndex_spec_witness :
    sampleTimes.findClosestTimeIndex "simulation_time" 4 = Except.ok 1 := by
  obtain ⟨k, hk, hlt, hmin, hfirst⟩ := findClosestTimeIndex_spec sampleTimes "simulation_time" 4
    [1, 3, 5, 3] rfl (by simp)
  rw [hk]
  have h1 := hmin 1 (by simp)
  have hk4 : k < 4 := by simpa using hlt
  interval_cases k
  · norm_num [List.getD] at h1
  · rfl
  · have := hfirst 1 (by decide)
    norm_num [List.getD] at this
  · have := hfirst 1 (by decide)
    norm_num [List.getD] at this

/-! ### Existence of the solution -/

/-- A square nonsingular system has a solution for every right-hand side: an injective linear
map of a finite-dimensional space into itself is surjective. -/
theorem SparseMatrix.Nonsingular.exists_solves {A : SparseMatrix K} (hA : A.Nonsingular)
    (hsq : A.rows = A.cols) (b : VectorXd K) : ∃ x, A.Solves x b := by
  let M : Matrix (Fin A.cols) (Fin A.cols) K := fun r c => A.coeff r c
  have hmul : ∀ (v : Fin A.cols → K) (r : Fin A.cols),
      A.mulVec (fun c => if h : c < A.cols then v ⟨c, h⟩ else 0) r = M.mulVec v r := by
    intro v r
    simp only [SparseMatrix.mulVec, Matrix.mulVec, Matrix.dotProduct, M]
    rw [Finset.sum_range]
    refine Finset.sum_congr rfl (fun c _ => ?_)
    rw [dif_pos c.isLt]
  have hinj : Function.Injective (Matrix.mulVecLin M) := by
    rw [injective_iff_map_eq_zero]
    intro v hv
    have hsol : A.Solves (fun c => if h : c < A.cols then v ⟨c, h⟩ else 0) (fun _ => 0) := by
      intro r hr
      rw [hsq] at hr
      rw [hmul v ⟨r, hr⟩]
      have := congrFun hv ⟨r, hr⟩
      simpa using this
    funext c
    have := hA _ hsol c c.isLt
    rw [dif_pos c.isLt] at this
    exact this
  have hsurj : Function.Surjective (Matrix.mulVecLin M) :=
    LinearMap.surjective_of_injective hinj
  obtain ⟨v, hv⟩ := hsurj (fun r => b r)
  refine ⟨fun c => if h : c < A.cols then v ⟨c, h⟩ else 0, ?_⟩
  intro r hr
  rw [hsq] at hr
  rw [hmul v ⟨r, hr⟩]
  have := congrFun hv ⟨r, hr⟩
  simpa using this

namespace SquareThinFilmFDM

/-- Claim C19. For every `n ≥ 3`, `width > 0`, `height > 0`, `viscosity > 0` (with
`dx = width/(n-1)`, `dy = height/(n-1)`) and every film that is strictly positive on the grid, the
`(n-2)^2 x (n-2)^2` matrix assembled by `solveDirect` is nonsingular, and for every boundary
setting (every pressure field) and every velocity the linear system has exactly one solution. -/
theorem systemMatrix_unique_solution (s : SquareThinFilmFDM K) (hn : 3 ≤ s.n)
    (hw : 0 < s.width) (hh : 0 < s.height) (hmu : 0 < s.viscosity)
    (hdx : s.dx = s.width / ((s.n : K) - 1)) (hdy : s.dy = s.height / ((s.n : K) - 1))
    (hfilm : ∀ i j, i < s.n → j < s.n → 0 < s.h i j) :
    (systemMatrix s).rows = (s.n - 2) * (s.n - 2) ∧
    (systemMatrix s).cols = (s.n - 2) * (s.n - 2) ∧
    (systemMatrix s).Nonsingular ∧
    (∀ (P0 : MatrixXd K) (U : K),
      systemMatrix { s with P := P0, velocity := U } = systemMatrix s ∧
      ∃ x, (systemMatrix { s with P := P0, velocity := U }).Solves x
          (assemble { s with P := P0, velocity := U }).b ∧
        ∀ y, (systemMatrix { s with P := P0, velocity := U }).Solves y
          (assemble { s with P := P0, velocity := U }).b →
          ∀ c, c < (s.n - 2) * (s.n - 2) → y c = x c) := by
  have hrows := systemMatrix_rows s (by omega)
  have hcols := systemMatrix_cols s (by omega)
  have hns : (systemMatrix s).Nonsingular :=
    systemMatrix_nonsingular s (by omega) hmu
      (spacing_ne_zero s.n s.width s.dx (by omega) hw hdx)
      (spacing_ne_zero s.n s.height s.dy (by omega) hh hdy) hfilm
  refine ⟨hrows, hcols, hns, ?_⟩
  intro P0 U
  have hA : systemMatrix { s with P := P0, velocity := U } = systemMatrix s :=
    systemMatrix_congr _ s rfl rfl rfl rfl rfl
  refine ⟨hA, ?_⟩
  rw [hA]
  obtain ⟨x, hx⟩ := hns.exists_solves (by rw [hrows, hcols])
    (assemble { s with P := P0, velocity := U }).b
  refine ⟨x, hx, ?_⟩
  intro y hy c hc
  exact hns.unique hy hx c (by rw [hcols]; exact hc)

/-- Instance of claim C19 on `scenarioSolver`: the nine-unknown matrix is nonsingular. -/
theorem systemMatrix_unique_solution_witness :
    (systemMatrix scenarioSolver).cols = 9 ∧ (systemMatrix scenarioSolver).Nonsingular := by
  obtain ⟨hn, hw, hh, hdx, hdy, hmu, hU, hfilm⟩ := scenarioSolver_facts
  have h := systemMatrix_unique_solution scenarioSolver (by decide) (by rw [hw]; norm_num)
    (by rw [hh]; norm_num) (by rw [hmu]; norm_num) (by rw [hdx, hw, hn]; norm_num)
    (by rw [hdy, hh, hn]; norm_num)
    (by intro i j hi hj; rw [hn] at hi hj; rw [hfilm i j hi hj]; norm_num)
  exact ⟨h.2.1, h.2.2.1⟩

/-! ### A film that vanishes somewhere -/

/-- A face coefficient is positive as soon as the film is non-negative at its two nodes and
positive at one of them. -/
theorem face_pos (x y mu d : K) (hx : 0 ≤ x) (hy : 0 ≤ y) (hxy : 0 < x ∨ 0 < y) (hmu : 0 < mu)
    (hd : d ≠ 0) : 0 < (1 / 2 * (x ^ 3 / (12 * mu) + y ^ 3 / (12 * mu))) / (d * d) := by
  have hdd : 0 < d * d := mul_self_pos.mpr hd
  have h12 : 0 < 12 * mu := by positivity
  have hx3 : 0 ≤ x ^ 3 / (12 * mu) := by positivity
  have hy3 : 0 ≤ y ^ 3 / (12 * mu) := by positivity
  have hsum : 0 < x ^ 3 / (12 * mu) + y ^ 3 / (12 * mu) := by
    rcases hxy with h | h
    · have : 0 < x ^ 3 / (12 * mu) := by positivity
      linarith
    · have : 0 < y ^ 3 / (12 * mu) := by positivity
      linarith
  positivity

/-- With the film zero at one node and positive at every other node of the grid, all face
coefficients of the interior nodes are positive. -/
theorem coef_pos_of_single_zero (s : SquareThinFilmFDM K) (hmu : 0 < s.viscosity)
    (hdx : s.dx ≠ 0) (hdy : s.dy ≠ 0) (i0 j0 : Nat) (hzero : s.h i0 j0 = 0)
    (hpos : ∀ i j, i < s.n → j < s.n → (i ≠ i0 ∨ j ≠ j0) → 0 < s.h i j) (i j : Nat)
    (hi1 : 1 ≤ i) (hi2 : i ≤ s.n - 2) (hj1 : 1 ≤ j) (hj2 : j ≤ s.n - 2) :
    0 < coef_e s i j ∧ 0 < coef_w s i j ∧ 0 < coef_n s i j ∧ 0 < coef_s s i j := by
  have hnn : ∀ a b, a < s.n → b < s.n → 0 ≤ s.h a b ∧ ((a ≠ i0 ∨ b ≠ j0) → 0 < s.h a b) := by
    intro a b ha hb
    by_cases hab : a ≠ i0 ∨ b ≠ j0
    · exact ⟨le_of_lt (hpos a b ha hb hab), fun _ => hpos a b ha hb hab⟩
    · have hab' := hab
      rw [not_or, not_not, not_not] at hab'
      rw [hab'.1, hab'.2, hzero]
      refine ⟨le_refl 0, fun h => ?_⟩
      rcases h with h | h
      · exact absurd rfl h
      · exact absurd rfl h
  have key : ∀ a b a' b', a < s.n → b < s.n → a' < s.n → b' < s.n → (a ≠ a' ∨ b ≠ b') →
      ∀ d : K, d ≠ 0 →
      0 < (1 / 2 * (s.h a b ^ 3 / (12 * s.viscosity) + s.h a' b' ^ 3 / (12 * s.viscosity)))
        / (d * d) := by
    intro a b a' b' ha hb ha' hb' hne d hd
    obtain ⟨n1, p1⟩ := hnn a b ha hb
    obtain ⟨n2, p2⟩ := hnn a' b' ha' hb'
    refine face_pos _ _ _ _ n1 n2 ?_ hmu hd
    by_cases h1 : a ≠ i0 ∨ b ≠ j0
    · exact Or.inl (p1 h1)
    · refine Or.inr (p2 ?_)
      rw [not_or, not_not, not_not] at h1
      omega
  refine ⟨?_, ?_, ?_, ?_⟩
  · exact key i j i (j + 1) (by omega) (by omega) (by omega) (by omega) (by omega) _ hdx
  · exact key i j i (j - 1) (by omega) (by omega) (by omega) (by omega) (by omega) _ hdx
  · exact key i j (i + 1) j (by omega) (by omega) (by omega) (by omega) (by omega) _ hdy
  · exact key i j (i - 1) j (by omega) (by omega) (by omega) (by omega) (by omega) _ hdy

theorem coef_e_zero (s : SquareThinFilmFDM K) (i j : Nat) (h1 : s.h i j = 0)
    (h2 : s.h i (j + 1) = 0) : coef_e s i j = 0 := by
  simp [coef_e, h3_12mu, h1, h2]

theorem coef_w_zero (s : SquareThinFilmFDM K) (i j : Nat) (h1 : s.h i j = 0)
    (h2 : s.h i (j - 1) = 0) : coef_w s i j = 0 := by
  simp [coef_w, h3_12mu, h1, h2]

theorem coef_n_zero (s : SquareThinFilmFDM K) (i j : Nat) (h1 : s.h i j = 0)
    (h2 : s.h (i + 1) j = 0) : coef_n s i j = 0 := by
  simp [coef_n, h3_12mu, h1, h2]

theorem coef_s_zero (s : SquareThinFilmFDM K) (i j : Nat) (h1 : s.h i j = 0)
    (h2 : s.h (i - 1) j = 0) : coef_s s i j = 0 := by
  simp [coef_s, h3_12mu, h1, h2]

/-- When the film vanishes at interior node `(a0 + 1, q0 + 1)` and at its four neighbours, the
column of that node in the assembled matrix is zero. -/
theorem systemMatrix_col_zero (s : SquareThinFilmFDM K) (a0 q0 : Nat)
    (ha0 : a0 < s.n - 2) (hq0 : q0 < s.n - 2)
    (hZ : s.h (a0 + 1) (q0 + 1) = 0) (hE : s.h (a0 + 1) (q0 + 1 + 1) = 0)
    (hW : s.h (a0 + 1) (q0 + 1 - 1) = 0) (hN : s.h (a0 + 1 + 1) (q0 + 1) = 0)
    (hS : s.h (a0 + 1 - 1) (q0 + 1) = 0) (a q : Nat) (ha : a < s.n - 2) (hq : q < s.n - 2) :
    (systemMatrix s).coeff (a * (s.n - 2) + q) (a0 * (s.n - 2) + q0) = 0 := by
  have hc : a0 * (s.n - 2) + q0 < (s.n - 2) * (s.n - 2) := by
    have := (idx_bounds (s.n - 2) a0 ha0).1
    omega
  rw [systemMatrix_coeff s a q _ ha hq hc]
  have t1 : (if a * (s.n - 2) + q = a0 * (s.n - 2) + q0 then
      -(coef_e s (a + 1) (q + 1) + coef_w s (a + 1) (q + 1) + coef_n s (a + 1) (q + 1)
        + coef_s s (a + 1) (q + 1)) else 0) = 0 := by
    split_ifs with h
    · obtain ⟨rfl, rfl⟩ := idx_inj _ _ _ _ _ hq hq0 h
      rw [coef_e_zero s _ _ hZ hE, coef_w_zero s _ _ hZ hW, coef_n_zero s _ _ hZ hN,
        coef_s_zero s _ _ hZ hS]
      simp
    · rfl
  have t2 : (if q + 1 < s.n - 2 ∧ a * (s.n - 2) + q + 1 = a0 * (s.n - 2) + q0
      then coef_e s (a + 1) (q + 1) else 0) = 0 := by
    split_ifs with h
    · obtain ⟨rfl, rfl⟩ := idx_inj (s.n - 2) a (q + 1) a0 q0 h.1 hq0 (by omega)
      exact coef_e_zero s _ _ hW hZ
    · rfl
  have t3 : (if q + 1 > 1 ∧ a * (s.n - 2) + q - 1 = a0 * (s.n - 2) + q0
      then coef_w s (a + 1) (q + 1) else 0) = 0 := by
    split_ifs with h
    · obtain ⟨rfl, h2⟩ := idx_inj (s.n - 2) a (q - 1) a0 q0 (by omega) hq0 (by omega)
      obtain rfl : q = q0 + 1 := by omega
      exact coef_w_zero s _ _ hE hZ
    · rfl
  have t4 : (if a + 1 < s.n - 2 ∧ a * (s.n - 2) + q + (s.n - 2) = a0 * (s.n - 2) + q0
      then coef_n s (a + 1) (q + 1) else 0) = 0 := by
    split_ifs with h
    · have e : (a + 1) * (s.n - 2) = a * (s.n - 2) + (s.n - 2) := by ring
      obtain ⟨rfl, rfl⟩ := idx_inj (s.n - 2) (a + 1) q a0 q0 hq hq0 (by omega)
      exact coef_n_zero s _ _ hS hZ
    · rfl
  have t5 : (if a + 1 > 1 ∧ a * (s.n - 2) + q - (s.n - 2) = a0 * (s.n - 2) + q0
      then coef_s s (a + 1) (q + 1) else 0) = 0 := by
    split_ifs with h
    · obtain ⟨a', rfl⟩ : ∃ a', a = a' + 1 := ⟨a - 1, by omega⟩
      have e : (a' + 1) * (s.n - 2) = a' * (s.n - 2) + (s.n - 2) := by ring
      obtain ⟨rfl, rfl⟩ := idx_inj (s.n - 2) a' q a0 q0 hq hq0 (by omega)
      exact coef_s_zero s _ _ hN hZ
    · rfl
  rw [t1, t2, t3, t4, t5]
  simp

/-- When the film vanishes at interior node `(a0 + 1, q0 + 1)` and at its four neighbours, the
row of that node is zero and the assembled matrix is singular. -/
theorem systemMatrix_singular_of_zero_patch (s : SquareThinFilmFDM K) (a0 q0 : Nat)
    (ha0 : a0 < s.n - 2) (hq0 : q0 < s.n - 2)
    (hZ : s.h (a0 + 1) (q0 + 1) = 0) (hE : s.h (a0 + 1) (q0 + 1 + 1) = 0)
    (hW : s.h (a0 + 1) (q0 + 1 - 1) = 0) (hN : s.h (a0 + 1 + 1) (q0 + 1) = 0)
    (hS : s.h (a0 + 1 - 1) (q0 + 1) = 0) :
    (∀ c, c < (s.n - 2) * (s.n - 2) →
      (systemMatrix s).coeff (a0 * (s.n - 2) + q0) c = 0) ∧
    ¬ (systemMatrix s).Nonsingular := by
  have hidx : a0 * (s.n - 2) + q0 < (s.n - 2) * (s.n - 2) := by
    have := (idx_bounds (s.n - 2) a0 ha0).1
    omega
  constructor
  · intro c hc
    rw [systemMatrix_coeff s a0 q0 c ha0 hq0 hc, coef_e_zero s _ _ hZ hE,
      coef_w_zero s _ _ hZ hW, coef_n_zero s _ _ hZ hN, coef_s_zero s _ _ hZ hS]
    simp
  · intro hns
    have hcols := systemMatrix_cols s (by omega)
    have hrows := systemMatrix_rows s (by omega)
    have hsol : (systemMatrix s).Solves
        (fun k => if k = a0 * (s.n - 2) + q0 then 1 else 0) (fun _ => 0) := by
      intro r hr
      rw [hrows] at hr
      rw [← SparseMatrix.coeff_eq_mulVec _ r _ (by rw [hcols]; exact hidx)]
      have hm : 0 < s.n - 2 := by omega
      have ha : r / (s.n - 2) < s.n - 2 := Nat.div_lt_of_lt_mul hr
      have hq : r % (s.n - 2) < s.n - 2 := Nat.mod_lt _ hm
      have hdm : r / (s.n - 2) * (s.n - 2) + r % (s.n - 2) = r := Nat.div_add_mod' r (s.n - 2)
      rw [← hdm]
      exact systemMatrix_col_zero s a0 q0 ha0 hq0 hZ hE hW hN hS _ _ ha hq
    have h1 := hns _ hsol (a0 * (s.n - 2) + q0) (by rw [hcols]; exact hidx)
    rw [if_pos rfl] at h1
    exact one_ne_zero h1

/-- With the film zero at one node and positive at every other node of the grid, the assembled
matrix is nonsingular and each of its diagonal entries is negative. -/
theorem systemMatrix_regular_of_single_zero (s : SquareThinFilmFDM K) (hn : 2 ≤ s.n)
    (hmu : 0 < s.viscosity) (hdx : s.dx ≠ 0) (hdy : s.dy ≠ 0) (i0 j0 : Nat)
    (hzero : s.h i0 j0 = 0)
    (hpos : ∀ i j, i < s.n → j < s.n → (i ≠ i0 ∨ j ≠ j0) → 0 < s.h i j) :
    (systemMatrix s).Nonsingular ∧
    ∀ r, r < (s.n - 2) * (s.n - 2) → (systemMatrix s).coeff r r < 0 := by
  have hc := coef_pos_of_single_zero s hmu hdx hdy i0 j0 hzero hpos
  refine ⟨systemMatrix_nonsingular_of_pos s hn hc, ?_⟩
  intro r hr
  have hm : 0 < s.n - 2 := by
    rcases Nat.eq_zero_or_pos (s.n - 2) with h | h
    · rw [h, Nat.zero_mul] at hr
      exact absurd hr (Nat.not_lt_zero _)
    · exact h
  have ha : r / (s.n - 2) < s.n - 2 := Nat.div_lt_of_lt_mul hr
  have hq : r % (s.n - 2) < s.n - 2 := Nat.mod_lt _ hm
  have hdm : r / (s.n - 2) * (s.n - 2) + r % (s.n - 2) = r := Nat.div_add_mod' r (s.n - 2)
  have hd := (system_row_entries s _ _ ha hq).1
  rw [hdm] at hd
  rw [hd]
  obtain ⟨p1, p2, p3, p4⟩ := hc (r / (s.n - 2) + 1) (r % (s.n - 2) + 1) (Nat.le_add_left 1 _)
    ha (Nat.le_add_left 1 _) hq
  linarith

/-- The data of `pinholeSolver`. -/
theorem pinholeSolver_facts :
    pinholeSolver.n = 3 ∧ pinholeSolver.width = 2 ∧ pinholeSolver.height = 2 ∧
    pinholeSolver.dx = 1 ∧ pinholeSolver.dy = 1 ∧ pinholeSolver.viscosity = 1 ∧
    (∀ i j, pinholeSolver.h i j =
      if i < 3 ∧ j < 3 then (if j = 1 ∧ i = 1 then 0 else 1) else 0) := by
  refine ⟨rfl, rfl, rfl, ?_, ?_, rfl, ?_⟩
  · rw [pinholeSolver, construct_dx]; norm_num
  · rw [pinholeSolver, construct_dy]; norm_num
  · intro i j
    rw [pinholeSolver, construct_h_some]
    have e : ∀ k : Nat, (LinSpaced 3 0 (2 : ℚ) k = 1) ↔ k = 1 := by
      intro k
      simp only [LinSpaced]
      constructor
      · intro h
        norm_num at h
        exact h
      · intro h
        subst h
        norm_num
    simp only [e]

/-- The data of `drySolver`. -/
theorem drySolver_facts :
    drySolver.n = 3 ∧ drySolver.width = 2 ∧ drySolver.height = 2 ∧
    drySolver.dx = 1 ∧ drySolver.dy = 1 ∧ drySolver.viscosity = 1 ∧
    (∀ i j, drySolver.h i j = 0) := by
  refine ⟨rfl, rfl, rfl, ?_, ?_, rfl, ?_⟩
  · rw [drySolver, construct_dx]; norm_num
  · rw [drySolver, construct_dy]; norm_num
  · intro i j
    rw [drySolver, construct_h_some]
    simp

/-- The film of `pinholeSolver` is positive at every grid node other than `(1, 1)`. -/
theorem pinholeSolver_film (i j : Nat) (hi : i < pinholeSolver.n) (hj : j < pinholeSolver.n)
    (hne : i ≠ 1 ∨ j ≠ 1) : 0 < pinholeSolver.h i j := by
  have hi' : i < 3 := hi
  have hj' : j < 3 := hj
  rw [pinholeSolver_facts.2.2.2.2.2.2 i j, if_pos ⟨hi', hj'⟩, if_neg (by omega)]
  norm_num

/-- Counterexample to claim C18 as stated: `pinholeSolver` has `n = 3`, positive width, height
and viscosity, and a film that is zero at the node `(1, 1)` and positive at the other eight
nodes; yet the single entry of its matrix is `-1/6`, so no row is all-zero, and the matrix is
nonsingular. -/
theorem systemMatrix_single_zero_regular :
    3 ≤ pinholeSolver.n ∧ 0 < pinholeSolver.width ∧ 0 < pinholeSolver.height ∧
    0 < pinholeSolver.viscosity ∧ pinholeSolver.h 1 1 = 0 ∧
    (∀ i j, i < pinholeSolver.n → j < pinholeSolver.n → (i ≠ 1 ∨ j ≠ 1) →
      0 < pinholeSolver.h i j) ∧
    (systemMatrix pinholeSolver).rows = 1 ∧ (systemMatrix pinholeSolver).cols = 1 ∧
    (systemMatrix pinholeSolver).coeff 0 0 = -(1 / 6) ∧
    ¬ ((∃ r, r < (systemMatrix pinholeSolver).rows ∧
          ∀ c, c < (systemMatrix pinholeSolver).cols →
            (systemMatrix pinholeSolver).coeff r c = 0) ∨
        ¬ (systemMatrix pinholeSolver).Nonsingular) := by
  obtain ⟨hn, hw, hh, hdx, hdy, hmu, hfilm⟩ := pinholeSolver_facts
  have hz : pinholeSolver.h 1 1 = 0 := by
    rw [hfilm 1 1]
    simp
  have hrows : (systemMatrix pinholeSolver).rows = 1 := systemMatrix_rows pinholeSolver (by decide)
  have hcols : (systemMatrix pinholeSolver).cols = 1 := systemMatrix_cols pinholeSolver (by decide)
  have hreg := systemMatrix_regular_of_single_zero pinholeSolver (by decide)
    (by rw [hmu]; norm_num) (by rw [hdx]; norm_num) (by rw [hdy]; norm_num) 1 1 hz
    pinholeSolver_film
  have hcoef : (systemMatrix pinholeSolver).coeff 0 0 = -(1 / 6) := by
    rw [systemMatrix_coeff_three pinholeSolver hn]
    simp only [coef_e, coef_w, coef_n, coef_s, h3_12mu, hfilm, hdx, hdy, hmu]
    norm_num
  refine ⟨by decide, by rw [hw]; norm_num, by rw [hh]; norm_num, by rw [hmu]; norm_num, hz,
    pinholeSolver_film, hrows, hcols, hcoef, ?_⟩
  rintro (⟨r, hr, hrow⟩ | hsing)
  · rw [hrows] at hr
    obtain rfl : r = 0 := by omega
    have h0 := hrow 0 (by rw [hcols]; decide)
    rw [hcoef] at h0
    norm_num at h0
  · exact hsing hreg.1

/-- Claim C18, amended. For every `n ≥ 3` with `width`, `height`, `viscosity > 0` (and
`dx = width/(n-1)`, `dy = height/(n-1)`): a film that is zero at one node and positive at all
other nodes of the grid gives a nonsingular matrix whose diagonal entries are all negative, so
none of its rows is all-zero, because every face coefficient averages the node with a neighbour.
The matrix does degenerate when the film is zero at an interior node together with its four
neighbours: the row of that node is then all-zero and the matrix is singular. -/
theorem systemMatrix_zero_film (s : SquareThinFilmFDM K) (hn : 3 ≤ s.n)
    (hw : 0 < s.width) (hh : 0 < s.height) (hmu : 0 < s.viscosity)
    (hdx : s.dx = s.width / ((s.n : K) - 1)) (hdy : s.dy = s.height / ((s.n : K) - 1)) :
    (∀ i0 j0, i0 < s.n → j0 < s.n → s.h i0 j0 = 0 →
      (∀ i j, i < s.n → j < s.n → (i ≠ i0 ∨ j ≠ j0) → 0 < s.h i j) →
      (systemMatrix s).Nonsingular ∧
      ∀ r, r < (s.n - 2) * (s.n - 2) → (systemMatrix s).coeff r r < 0) ∧
    (∀ a0 q0, a0 < s.n - 2 → q0 < s.n - 2 →
      s.h (a0 + 1) (q0 + 1) = 0 → s.h (a0 + 1) (q0 + 2) = 0 → s.h (a0 + 1) q0 = 0 →
      s.h (a0 + 2) (q0 + 1) = 0 → s.h a0 (q0 + 1) = 0 →
      (∀ c, c < (s.n - 2) * (s.n - 2) →
        (systemMatrix s).coeff (a0 * (s.n - 2) + q0) c = 0) ∧
      ¬ (systemMatrix s).Nonsingular) := by
  constructor
  · intro i0 j0 _ _ hzero hpos
    exact systemMatrix_regular_of_single_zero s (by omega) hmu
      (spacing_ne_zero s.n s.width s.dx (by omega) hw hdx)
      (spacing_ne_zero s.n s.height s.dy (by omega) hh hdy) i0 j0 hzero hpos
  · intro a0 q0 ha0 hq0 hZ hE hW hN hS
    exact systemMatrix_singular_of_zero_patch s a0 q0 ha0 hq0 hZ hE hW hN hS

/-- Instance of claim C18 (amended): the matrix of `pinholeSolver`, whose film vanishes at the
centre node only, is nonsingular with the negative entry at `(0, 0)`; the matrix of `drySolver`,
whose film vanishes everywhere, has the zero entry at `(0, 0)` and is singular. -/
theorem systemMatrix_zero_film_witness :
    ((systemMatrix pinholeSolver).Nonsingular ∧ (systemMatrix pinholeSolver).coeff 0 0 < 0) ∧
    ((systemMatrix drySolver).coeff 0 0 = 0 ∧ ¬ (systemMatrix drySolver).Nonsingular) := by
  obtain ⟨hn, hw, hh, hdx, hdy, hmu, hfilm⟩ := pinholeSolver_facts
  obtain ⟨hn', hw', hh', hdx', hdy', hmu', hfilm'⟩ := drySolver_facts
  have h1 := (systemMatrix_zero_film pinholeSolver (by decide) (by rw [hw]; norm_num)
    (by rw [hh]; norm_num) (by rw [hmu]; norm_num) (by rw [hdx, hw, hn]; norm_num)
    (by rw [hdy, hh, hn]; norm_num)).1 1 1 (by decide) (by decide)
    (by rw [hfilm 1 1]; simp) pinholeSolver_film
  have h2 := (systemMatrix_zero_film drySolver (by decide) (by rw [hw']; norm_num)
    (by rw [hh']; norm_num) (by rw [hmu']; norm_num) (by rw [hdx', hw', hn']; norm_num)
    (by rw [hdy', hh', hn']; norm_num)).2 0 0 (by decide) (by decide)
    (hfilm' _ _) (hfilm' _ _) (hfilm' _ _) (hfilm' _ _) (hfilm' _ _)
  exact ⟨⟨h1.1, h1.2 0 (by decide)⟩, ⟨h2.1 0 (by decide), h2.2⟩⟩

/-! ### Symmetry of the assembled matrix -/

/-- The east face coefficient of node `(i, j)` is the west face coefficient of node
`(i, j + 1)`. -/
theorem coef_e_eq_coef_w (s : SquareThinFilmFDM K) (i j : Nat) :
    coef_e s i j = coef_w s i (j + 1) := by
  simp only [coef_e, coef_w, Nat.add_sub_cancel]
  rw [add_comm (h3_12mu s i j)]

/-- The north face coefficient of node `(i, j)` is the south face coefficient of node
`(i + 1, j)`. -/
theorem coef_n_eq_coef_s (s : SquareThinFilmFDM K) (i j : Nat) :
    coef_n s i j = coef_s s (i + 1) j := by
  simp only [coef_n, coef_s, Nat.add_sub_cancel]
  rw [add_comm (h3_12mu s i j)]

/-- The east triplet of unknown `a * m + q` lands in column `a' * m + q'` exactly when that is
the unknown of the next node of the same grid row. -/
theorem east_col_iff (m a q a' q' : Nat) (hq' : q' < m) :
    (q + 1 < m ∧ a * m + q + 1 = a' * m + q') ↔ (a' = a ∧ q' = q + 1) := by
  constructor
  · rintro ⟨h1, h2⟩
    obtain ⟨rfl, rfl⟩ := idx_inj m a (q + 1) a' q' h1 hq' (by omega)
    exact ⟨rfl, rfl⟩
  · rintro ⟨rfl, rfl⟩
    exact ⟨hq', by omega⟩

/-- The west triplet of unknown `a * m + q` lands in column `a' * m + q'` exactly when that is
the unknown of the previous node of the same grid row. -/
theorem west_col_iff (m a q a' q' : Nat) (hq : q < m) (hq' : q' < m) :
    (q + 1 > 1 ∧ a * m + q - 1 = a' * m + q') ↔ (a' = a ∧ q = q' + 1) := by
  constructor
  · rintro ⟨h1, h2⟩
    obtain ⟨rfl, h3⟩ := idx_inj m a (q - 1) a' q' (by omega) hq' (by omega)
    exact ⟨rfl, by omega⟩
  · rintro ⟨rfl, rfl⟩
    exact ⟨by omega, by omega⟩

/-- The north triplet of unknown `a * m + q` lands in column `a' * m + q'` exactly when that is
the unknown of the same node of the next grid row. -/
theorem north_col_iff (m a q a' q' : Nat) (ha' : a' < m) (hq : q < m) (hq' : q' < m) :
    (a + 1 < m ∧ a * m + q + m = a' * m + q') ↔ (a' = a + 1 ∧ q' = q) := by
  have e : (a + 1) * m = a * m + m := by ring
  constructor
  · rintro ⟨h1, h2⟩
    obtain ⟨rfl, rfl⟩ := idx_inj m (a + 1) q a' q' hq hq' (by omega)
    exact ⟨rfl, rfl⟩
  · rintro ⟨rfl, rfl⟩
    exact ⟨ha', by omega⟩

/-- The south triplet of unknown `a * m + q` lands in column `a' * m + q'` exactly when that is
the unknown of the same node of the previous grid row. -/
theorem south_col_iff (m a q a' q' : Nat) (hq : q < m) (hq' : q' < m) :
    (a + 1 > 1 ∧ a * m + q - m = a' * m + q') ↔ (a = a' + 1 ∧ q' = q) := by
  constructor
  · rintro ⟨h1, h2⟩
    obtain ⟨b, rfl⟩ : ∃ b, a = b + 1 := ⟨a - 1, by omega⟩
    have e : (b + 1) * m = b * m + m := by ring
    obtain ⟨rfl, rfl⟩ := idx_inj m b q a' q' hq hq' (by omega)
    exact ⟨rfl, rfl⟩
  · rintro ⟨rfl, rfl⟩
    have e : (a' + 1) * m = a' * m + m := by ring
    exact ⟨by omega, by omega⟩

/-- The entry of the assembled matrix at the unknowns of two interior nodes does not change
when the two nodes are exchanged. -/
theorem systemMatrix_coeff_swap (s : SquareThinFilmFDM K) (a q a' q' : Nat)
    (ha : a < s.n - 2) (hq : q < s.n - 2) (ha' : a' < s.n - 2) (hq' : q' < s.n - 2) :
    (systemMatrix s).coeff (a * (s.n - 2) + q) (a' * (s.n - 2) + q') =
      (systemMatrix s).coeff (a' * (s.n - 2) + q') (a * (s.n - 2) + q) := by
  have hc : a * (s.n - 2) + q < (s.n - 2) * (s.n - 2) := by
    have := (idx_bounds (s.n - 2) a ha).1
    omega
  have hc' : a' * (s.n - 2) + q' < (s.n - 2) * (s.n - 2) := by
    have := (idx_bounds (s.n - 2) a' ha').1
    omega
  rw [systemMatrix_coeff s a q _ ha hq hc', systemMatrix_coeff s a' q' _ ha' hq' hc]
  have hD : (if a * (s.n - 2) + q = a' * (s.n - 2) + q' then
        -(coef_e s (a + 1) (q + 1) + coef_w s (a + 1) (q + 1) + coef_n s (a + 1) (q + 1)
          + coef_s s (a + 1) (q + 1)) else 0) =
      (if a' * (s.n - 2) + q' = a * (s.n - 2) + q then
        -(coef_e s (a' + 1) (q' + 1) + coef_w s (a' + 1) (q' + 1) + coef_n s (a' + 1) (q' + 1)
          + coef_s s (a' + 1) (q' + 1)) else 0) := by
    by_cases h : a * (s.n - 2) + q = a' * (s.n - 2) + q'
    · obtain ⟨rfl, rfl⟩ := idx_inj _ _ _ _ _ hq hq' h
      rfl
    · rw [if_neg h, if_neg (fun h' => h h'.symm)]
  have hEW : (if q + 1 < s.n - 2 ∧ a * (s.n - 2) + q + 1 = a' * (s.n - 2) + q'
        then coef_e s (a + 1) (q + 1) else 0) =
      (if q' + 1 > 1 ∧ a' * (s.n - 2) + q' - 1 = a * (s.n - 2) + q
        then coef_w s (a' + 1) (q' + 1) else 0) := by
    rw [if_congr (east_col_iff (s.n - 2) a q a' q' hq') rfl rfl,
      if_congr (west_col_iff (s.n - 2) a' q' a q hq' hq) rfl rfl]
    by_cases h : a' = a ∧ q' = q + 1
    · rw [if_pos h, if_pos ⟨h.1.symm, h.2⟩, h.1, h.2]
      exact coef_e_eq_coef_w s _ _
    · rw [if_neg h, if_neg (fun h' => h ⟨h'.1.symm, h'.2⟩)]
  have hWE : (if q + 1 > 1 ∧ a * (s.n - 2) + q - 1 = a' * (s.n - 2) + q'
        then coef_w s (a + 1) (q + 1) else 0) =
      (if q' + 1 < s.n - 2 ∧ a' * (s.n - 2) + q' + 1 = a * (s.n - 2) + q
        then coef_e s (a' + 1) (q' + 1) else 0) := by
    rw [if_congr (west_col_iff (s.n - 2) a q a' q' hq hq') rfl rfl,
      if_congr (east_col_iff (s.n - 2) a' q' a q hq) rfl rfl]
    by_cases h : a' = a ∧ q = q' + 1
    · rw [if_pos h, if_pos ⟨h.1.symm, h.2⟩, h.1, h.2]
      exact (coef_e_eq_coef_w s _ _).symm
    · rw [if_neg h, if_neg (fun h' => h ⟨h'.1.symm, h'.2⟩)]
  have hNS : (if a + 1 < s.n - 2 ∧ a * (s.n - 2) + q + (s.n - 2) = a' * (s.n - 2) + q'
        then coef_n s (a + 1) (q + 1) else 0) =
      (if a' + 1 > 1 ∧ a' * (s.n - 2) + q' - (s.n - 2) = a * (s.n - 2) + q
        then coef_s s (a' + 1) (q' + 1) else 0) := by
    rw [if_congr (north_col_iff (s.n - 2) a q a' q' ha' hq hq') rfl rfl,
      if_congr (south_col_iff (s.n - 2) a' q' a q hq' hq) rfl rfl]
    by_cases h : a' = a + 1 ∧ q' = q
    · rw [if_pos h, if_pos ⟨h.1, h.2.symm⟩, h.1, h.2]
      exact coef_n_eq_coef_s s _ _
    · rw [if_neg h, if_neg (fun h' => h ⟨h'.1, h'.2.symm⟩)]
  have hSN : (if a + 1 > 1 ∧ a * (s.n - 2) + q - (s.n - 2) = a' * (s.n - 2) + q'
        then coef_s s (a + 1) (q + 1) else 0) =
      (if a' + 1 < s.n - 2 ∧ a' * (s.n - 2) + q' + (s.n - 2) = a * (s.n - 2) + q
        then coef_n s (a' + 1) (q' + 1) else 0) := by
    rw [if_congr (south_col_iff (s.n - 2) a q a' q' hq hq') rfl rfl,
      if_congr (north_col_iff (s.n - 2) a' q' a q ha hq' hq) rfl rfl]
    by_cases h : a = a' + 1 ∧ q' = q
    · rw [if_pos h, if_pos ⟨h.1, h.2.symm⟩, h.1, h.2]
      exact (coef_n_eq_coef_s s _ _).symm
    · rw [if_neg h, if_neg (fun h' => h ⟨h'.1, h'.2.symm⟩)]
  rw [hD, hEW, hWE, hNS, hSN]
  ring

/-- Claim C21. For every `n ≥ 3` and every height field, the `(n-2)^2 x (n-2)^2` matrix
assembled by `solveDirect` is symmetric: the entry at row `r`, column `c` equals the entry at
row `c`, column `r`. The east face coefficient of node `(i, j)` equals the west face coefficient
of node `(i, j+1)`, and the north face coefficient of node `(i, j)` equals the south face
coefficient of node `(i+1, j)`. -/
theorem systemMatrix_symmetric (s : SquareThinFilmFDM K) (hn : 3 ≤ s.n) :
    (systemMatrix s).rows = (s.n - 2) * (s.n - 2) ∧
    (systemMatrix s).cols = (s.n - 2) * (s.n - 2) ∧
    (∀ r c, r < (s.n - 2) * (s.n - 2) → c < (s.n - 2) * (s.n - 2) →
      (systemMatrix s).coeff r c = (systemMatrix s).coeff c r) ∧
    (∀ i j, coef_e s i j = coef_w s i (j + 1) ∧ coef_n s i j = coef_s s (i + 1) j) := by
  refine ⟨systemMatrix_rows s (by omega), systemMatrix_cols s (by omega), ?_,
    fun i j => ⟨coef_e_eq_coef_w s i j, coef_n_eq_coef_s s i j⟩⟩
  intro r c hr hc
  have hm : 0 < s.n - 2 := by omega
  have h := systemMatrix_coeff_swap s (r / (s.n - 2)) (r % (s.n - 2)) (c / (s.n - 2))
    (c % (s.n - 2)) (Nat.div_lt_of_lt_mul hr) (Nat.mod_lt _ hm) (Nat.div_lt_of_lt_mul hc)
    (Nat.mod_lt _ hm)
  rw [Nat.div_add_mod' r (s.n - 2), Nat.div_add_mod' c (s.n - 2)] at h
  exact h

/-- Instance of claim C21 on `bumpSolver` (`n = 5`, film 2 at the centre node and 1 elsewhere):
the entries at `(3, 4)` and `(4, 3)`, which couple the nodes `(2, 1)` and `(2, 2)`, are equal. -/
theorem systemMatrix_symmetric_witness :
    3 ≤ bumpSolver.n ∧
    (systemMatrix bumpSolver).coeff 3 4 = (systemMatrix bumpSolver).coeff 4 3 :=
  ⟨by decide, (systemMatrix_symmetric bumpSolver (by decide)).2.2.1 3 4 (by decide) (by decide)⟩

/-! ### Construction with a height function that may throw -/

/-- When `h_func` returns normally at every node, `initializeHeight` returns normally and
stores the returned values. -/
theorem initializeHeightThrowing_ok (s : SquareThinFilmFDM K) (f : K → K → Except String K)
    (v : Nat → Nat → K)
    (hf : ∀ i j, i < s.n → j < s.n → f (s.x j) (s.y i) = Except.ok (v i j)) :
    initializeHeightThrowing s (some f) =
      Except.ok { s with h := fun i j => if i < s.n ∧ j < s.n then v i j else 0 } := by
  have hfold : (List.range s.n).foldlM
      (fun (h : MatrixXd K) (i : Nat) => (List.range s.n).foldlM
        (fun (h : MatrixXd K) (j : Nat) =>
          match f (s.x j) (s.y i) with
          | Except.error e => Except.error e
          | Except.ok v => Except.ok (setCoeff h i j v)) h)
      (fun _ _ => 0) =
      Except.ok ((List.range s.n).foldl
        (fun M i => (List.range s.n).foldl (fun M j => setCoeff M i j (v i j)) M)
        (fun _ _ => 0)) := by
    apply foldlM_ok_of
    intro a i hi
    apply foldlM_ok_of
    intro a' j hj
    rw [hf i j (List.mem_range.mp hi) (List.mem_range.mp hj)]
  unfold initializeHeightThrowing
  simp only [hfold]
  rw [fill_grid v]

/-- When `initializeHeight` returns normally, `h_func` has returned normally at every node. -/
theorem initializeHeightThrowing_ok_imp (s s' : SquareThinFilmFDM K)
    (f : K → K → Except String K) (h : initializeHeightThrowing s (some f) = Except.ok s') :
    ∀ i j, i < s.n → j < s.n → ∃ v, f (s.x j) (s.y i) = Except.ok v := by
  unfold initializeHeightThrowing at h
  simp only at h
  split at h
  · cases h
  · rename_i hM hfold
    intro i j hi hj
    refine foldlM_ok_imp _ (fun j => ∃ v, f (s.x j) (s.y i) = Except.ok v) (List.range s.n) ?_
      _ _ (foldlM_ok_imp _ (fun i => ∃ a x, (List.range s.n).foldlM
        (fun (h : MatrixXd K) (j : Nat) =>
          match f (s.x j) (s.y i) with
          | Except.error e => Except.error e
          | Except.ok v => Except.ok (setCoeff h i j v)) a = Except.ok x) (List.range s.n)
        (fun a i x hx => ⟨a, x, hx⟩) _ _ hfold i (List.mem_range.mpr hi)).choose_spec.choose_spec
      j (List.mem_range.mpr hj)
    intro a j x hx
    cases hv : f (s.x j) (s.y i) with
    | error e =>
      rw [hv] at hx
      cases hx
    | ok v => exact ⟨v, rfl⟩

/-- The constructor is `initializeHeight` run on the state that `construct` reaches before it. -/
theorem newThrowing_eq (n : Nat) (w h : K) (h_func : Option (K → K → Except String K))
    (mu U : K) :
    newThrowing n w h h_func mu U =
      initializeHeightThrowing { construct n w h none mu U with h := fun _ _ => 0 } h_func :=
  rfl

/-- With a height function that cannot throw, `newThrowing` is `new`. -/
theorem newThrowing_pure (n : Nat) (w h : K) (g : Option (K → K → K)) (mu U : K) :
    newThrowing n w h (g.map (fun f x y => Except.ok (f x y))) mu U = new n w h g mu U := by
  cases g with
  | none => rfl
  | some f0 =>
    rw [newThrowing_eq]
    simp only [Option.map_some']
    rw [initializeHeightThrowing_ok _ _
      (fun i j => f0 (LinSpaced n 0 w j) (LinSpaced n 0 h i)) (fun i j _ _ => rfl)]
    rfl

/-- Claim C6, amended. For every `n ≥ 2` and all `width`, `height`, of any sign, the constructor
checks none of its arguments; memory exhaustion apart, which is outside the model:
* construction returns an instance if and only if the height function, when one is supplied,
  returns normally at every node `(x(j), y(i)) = (j width/(n-1), i height/(n-1))`; the only
  failure is an exception of the height function;
* the instance stores `n`, `width`, `height` as given, with `dx = width/(n-1)` and
  `dy = height/(n-1)`, the film returned by the height function (0.001 without one) and zero
  pressure;
* with a height function that cannot throw, construction is `new` and never fails. -/
theorem newThrowing_spec (n : Nat) (side_width side_height : K)
    (h_func : Option (K → K → Except String K)) (viscosity velocity : K) (hn : 2 ≤ n) :
    ((∃ s, newThrowing n side_width side_height h_func viscosity velocity = Except.ok s) ↔
      ∀ f, h_func = some f → ∀ i j, i < n → j < n →
        ∃ v, f ((j : K) * (side_width / ((n : K) - 1))) ((i : K) * (side_height / ((n : K) - 1)))
          = Except.ok v) ∧
    (∀ s, newThrowing n side_width side_height h_func viscosity velocity = Except.ok s →
      s.n = n ∧ s.width = side_width ∧ s.height = side_height ∧
      s.dx = side_width / ((n : K) - 1) ∧ s.dy = side_height / ((n : K) - 1) ∧
      (∀ f, h_func = some f → ∀ i j, i < n → j < n →
        f ((j : K) * s.dx) ((i : K) * s.dy) = Except.ok (s.h i j)) ∧
      (h_func = none → ∀ i j, i < n → j < n → s.h i j = 1 / 1000) ∧
      (∀ i j, s.P i j = 0)) ∧
    (∀ g : Option (K → K → K), h_func = g.map (fun f x y => Except.ok (f x y)) →
      newThrowing n side_width side_height h_func viscosity velocity
        = new n side_width side_height g viscosity velocity ∧
      ∃ s, newThrowing n side_width side_height h_func viscosity velocity = Except.ok s) := by
  have hdx := construct_dx n side_width side_height none viscosity velocity
  have hdy := construct_dy n side_width side_height none viscosity velocity
  have key : ∀ f, h_func = some f →
      (∀ i j, i < n → j < n →
        ∃ v, f ((j : K) * (side_width / ((n : K) - 1))) ((i : K) * (side_height / ((n : K) - 1)))
          = Except.ok v) →
      ∃ v : Nat → Nat → K,
        (∀ i j, i < n → j < n →
          f ((j : K) * (side_width / ((n : K) - 1))) ((i : K) * (side_height / ((n : K) - 1)))
            = Except.ok (v i j)) ∧
        newThrowing n side_width side_height h_func viscosity velocity =
          Except.ok { construct n side_width side_height none viscosity velocity with
            h := fun i j => if i < n ∧ j < n then v i j else 0 } := by
    intro f hf hall
    choose! v hv using hall
    refine ⟨v, hv, ?_⟩
    rw [hf, newThrowing_eq]
    exact initializeHeightThrowing_ok _ f v (fun i j hi hj => by
      show f (LinSpaced n 0 side_width j) (LinSpaced n 0 side_height i) = Except.ok (v i j)
      rw [LinSpaced_eq n _ j hn, LinSpaced_eq n _ i hn]
      exact hv i j hi hj)
  have back : ∀ f s, h_func = some f →
      newThrowing n side_width side_height h_func viscosity velocity = Except.ok s →
      ∀ i j, i < n → j < n →
        ∃ v, f ((j : K) * (side_width / ((n : K) - 1))) ((i : K) * (side_height / ((n : K) - 1)))
          = Except.ok v := by
    intro f s hf hs i j hi hj
    rw [hf, newThrowing_eq] at hs
    have h := initializeHeightThrowing_ok_imp _ s f hs i j hi hj
    have e : ∀ (w : K) (k : Nat), LinSpaced n 0 w k = (k : K) * (w / ((n : K) - 1)) :=
      fun w k => LinSpaced_eq n w k hn
    rw [← e side_width j, ← e side_height i]
    exact h
  refine ⟨⟨?_, ?_⟩, ?_, ?_⟩
  · rintro ⟨s, hs⟩ f hf
    exact back f s hf hs
  · intro hall
    cases hh : h_func with
    | none => exact ⟨_, rfl⟩
    | some f =>
      obtain ⟨v, -, hv⟩ := key f hh (hall f hh)
      rw [hh] at hv
      exact ⟨_, hv⟩
  · intro s hs
    cases hh : h_func with
    | none =>
      rw [hh] at hs
      have e : s = construct n side_width side_height none viscosity velocity := by
        have h2 : newThrowing n side_width side_height none viscosity velocity
            = Except.ok (construct n side_width side_height none viscosity velocity) := rfl
        rw [h2] at hs
        exact (Except.ok.inj hs).symm
      subst e
      refine ⟨rfl, rfl, rfl, hdx, hdy, ?_, ?_, fun _ _ => rfl⟩
      · intro f hf
        cases hf
      · intro _ i j hi hj
        rw [construct_h_none, if_pos ⟨hi, hj⟩]
    | some f =>
      obtain ⟨v, hv1, hv2⟩ := key f hh (back f s hh hs)
      rw [hv2] at hs
      have e := (Except.ok.inj hs).symm
      subst e
      refine ⟨rfl, rfl, rfl, hdx, hdy, ?_, ?_, fun _ _ => rfl⟩
      · intro f' hf' i j hi hj
        cases hf'
        show f ((j : K) * (construct n side_width side_height none viscosity velocity).dx)
          ((i : K) * (construct n side_width side_height none viscosity velocity).dy)
          = Except.ok (if i < n ∧ j < n then v i j else 0)
        rw [hdx, hdy, if_pos ⟨hi, hj⟩]
        exact hv1 i j hi hj
      · intro hf'
        cases hf'
  · intro g hg
    have e := newThrowing_pure n side_width side_height g viscosity velocity
    rw [← hg] at e
    exact ⟨e, _, e⟩

/-- Instance of claim C6 (amended): with `n = 3`, `width = -1`, `height = 0` and no height
function the constructor returns an instance with `dx = -1/2`, `dy = 0`; with the same extents
and `brittleFilm`, which throws at `x = -1`, that is at the nodes of column 2, it fails. -/
theorem newThrowing_spec_witness :
    (∃ s, newThrowing 3 (-1 : ℚ) 0 none (1 / 100) 1 = Except.ok s ∧
      s.dx = -1 / 2 ∧ s.dy = 0) ∧
    ¬ ∃ s, newThrowing 3 (-1 : ℚ) 0 (some brittleFilm) (1 / 100) 1 = Except.ok s := by
  have h1 := newThrowing_spec 3 (-1 : ℚ) 0 none (1 / 100) 1 (by decide)
  have h2 := newThrowing_spec 3 (-1 : ℚ) 0 (some brittleFilm) (1 / 100) 1 (by decide)
  constructor
  · obtain ⟨s, hs⟩ := h1.1.mpr (fun f hf => by cases hf)
    obtain ⟨-, -, -, hdx, hdy, -⟩ := h1.2.1 s hs
    refine ⟨s, hs, ?_, ?_⟩
    · rw [hdx]; norm_num
    · rw [hdy]; norm_num
  · intro hex
    obtain ⟨v, hv⟩ := h2.1.mp hex brittleFilm rfl 0 2 (by decide) (by decide)
    have e : brittleFilm (((2 : Nat) : ℚ) * (-1 / (((3 : Nat) : ℚ) - 1)))
        (((0 : Nat) : ℚ) * (0 / (((3 : Nat) : ℚ) - 1))) = Except.error "film undefined" := by
      unfold brittleFilm
      rw [if_pos (by norm_num)]
    rw [e] at hv
    cases hv

end SquareThinFilmFDM

end Proofs

end ThinFilm
